import Mathlib

/-!
# erco77/readline: a shallow embedding of readline.c

The embedding follows the LINUX build of `src/readline.c` (the branch that
contains the ANSI decoder `handle_esc`).

* A C line buffer (`char*` of `maxline` bytes) is a `List Nat` of bytes; the
  text it holds is the run of bytes before the first NUL (`cstr`).
* `rs->history` is a list of such buffers.  `push_history` moves pointers
  around; no buffer is written while two entries alias, so holding the
  buffers by value is equivalent.
* `int` fields are `Nat`: the code never makes them negative when
  `maxline >= 2` and `histsize >= 1`.  Comparisons against `histsize-1`
  are written additively (`histpos + 1 = histsize`) so that they agree with
  the C integers for every `histsize`.
* `getch()` reads from an explicit list of pending input bytes; a read from
  an empty list blocks (`none`).
* Screen rendering (`redraw_line`, `printf`, the prompt fields) has no
  effect on the editing state and is left out.
-/

namespace ErcoReadline

/-! ## libc string functions on byte buffers -/

/-- Read `line[i]`. -/
def rd (line : List Nat) (i : Nat) : Nat := line.getD i 0

/-- Write `line[i] = v`. -/
def wr (line : List Nat) (i v : Nat) : List Nat := line.set i v

/-- The libc `strlen`: number of bytes before the first NUL. -/
def strlen : List Nat → Nat
  | [] => 0
  | c :: s => if c = 0 then 0 else strlen s + 1

/-- The text of a buffer: the bytes before the first NUL. -/
def cstr : List Nat → List Nat
  | [] => []
  | c :: s => if c = 0 then [] else c :: cstr s

/-- The libc `strcpy(dst, src)`: the bytes of `src` up to and including its
NUL overwrite the start of `dst`; the rest of `dst` is untouched. -/
def strcpy (dst src : List Nat) : List Nat :=
  cstr src ++ 0 :: dst.drop (strlen src + 1)

/-- The libc `strcmp`: difference of the first differing bytes, 0 when the
two texts are equal. -/
def strcmp : List Nat → List Nat → Int
  | [], [] => 0
  | [], y :: _ => - (y : Int)
  | x :: _, [] => (x : Int)
  | x :: a, y :: b =>
    if x ≠ y then (x : Int) - (y : Int) else if x = 0 then 0 else strcmp a b

/-! ## The Readline struct -/

/-- The `Readline` struct of `readline.h`, without the screen fields. -/
structure Readline where
  maxline : Nat
  histsize : Nat
  history : List (List Nat)
  histpos : Nat
  histsave : List Nat
  undoline : List Nat
  undocurpos : Nat
  curpos : Nat
  literal : Nat
  hnav : Nat
  lcanmode : Nat
  lcankey : Nat
  deriving DecidableEq, Repr

/-- The buffer `rs->history[i]`. -/
def hist (rs : Readline) (i : Nat) : List Nat := rs.history.getD i []

/-- Replace the contents of buffer `rs->history[i]`. -/
def set_hist (rs : Readline) (i : Nat) (b : List Nat) : Readline :=
  { rs with history := rs.history.set i b }

/-- The text of history slot `i`. -/
def slot (rs : Readline) (i : Nat) : List Nat := cstr (hist rs i)

/-- `MakeReadline`: `histsize` buffers of `maxline` bytes, each with a NUL in
byte 0.  `malloc` does not initialise memory: every indeterminate byte and
field takes the value `g`. -/
def MakeReadline (maxline histsize g : Nat) : Readline :=
  let fresh : List Nat := wr (List.replicate maxline g) 0 0
  { maxline := maxline
    histsize := histsize
    history := List.replicate histsize fresh
    histpos := g
    histsave := fresh
    undoline := fresh
    undocurpos := 0
    curpos := 0
    literal := 0
    hnav := g
    lcanmode := g
    lcankey := g }

/-! ## Line editing -/

/-- The loop of `delete_char`: `n` iterations of `line[i] = line[i+1]`,
`i` ascending. -/
def delete_shift : Nat → Nat → List Nat → List Nat
  | 0, _, line => line
  | n + 1, i, line => delete_shift n (i + 1) (wr line i (rd line (i + 1)))

/-- Delete the character under the cursor (`delete_char`). -/
def delete_char (rs : Readline) : Readline :=
  let maxline := rs.maxline
  let curpos := min rs.curpos (maxline - 2)
  let line := hist rs 0
  if rd line curpos = 0 then rs
  else
    let line := delete_shift (maxline - 1 - curpos) curpos line
    set_hist rs 0 (wr line (maxline - 1) 0)

/-- The loop of `insert_char`: for `i` descending while `i > curpos`,
`line[i] = line[i-1]`. -/
def insert_shift (curpos : Nat) : Nat → List Nat → List Nat
  | 0, line => line
  | i + 1, line =>
    if curpos < i + 1 then insert_shift curpos i (wr line (i + 1) (rd line i))
    else line

/-- Insert `c` at the cursor (`insert_char`). -/
def insert_char (rs : Readline) (c : Nat) : Readline :=
  let maxline := rs.maxline
  let curpos := min rs.curpos (maxline - 2)
  let line := insert_shift curpos (maxline - 1) (hist rs 0)
  let line := wr line curpos c
  set_hist rs 0 (wr line (maxline - 1) 0)

/-- Move the cursor left if possible (`cursor_left`). -/
def cursor_left (rs : Readline) : Readline :=
  if 0 < rs.curpos then { rs with curpos := rs.curpos - 1 } else rs

/-- Move the cursor right if possible (`cursor_right`). -/
def cursor_right (rs : Readline) : Readline :=
  let max := min (strlen (hist rs 0)) (rs.maxline - 1)
  if rs.curpos < max then { rs with curpos := rs.curpos + 1 } else rs

/-- Cursor to start of line (`cursor_sol`). -/
def cursor_sol (rs : Readline) : Readline := { rs with curpos := 0 }

/-- Cursor to end of line (`cursor_eol`). -/
def cursor_eol (rs : Readline) : Readline :=
  { rs with curpos := min (strlen (hist rs 0)) (rs.maxline - 1) }

/-- The `while` loop of `word_right`, at most `n` iterations. -/
def word_right_loop : Nat → Nat → Readline → Readline
  | 0, _, rs => rs
  | n + 1, e, rs =>
    if rs.curpos < e then
      let lc := rd (hist rs 0) rs.curpos
      let rs1 := cursor_right rs
      if lc = 32 ∧ rd (hist rs1 0) rs1.curpos ≠ 32 then rs1
      else word_right_loop n e rs1
    else rs

/-- Move to the first letter of the next word (`word_right`).  Every
iteration of the loop advances the cursor, so `end` iterations suffice. -/
def word_right (rs : Readline) : Readline :=
  let e := strlen (hist rs 0)
  word_right_loop e e (cursor_right rs)

/-- The `while` loop of `word_left`, at most `n` iterations. -/
def word_left_loop (del : Nat) : Nat → Readline → Readline
  | 0, rs => rs
  | n + 1, rs =>
    if 0 < rs.curpos then
      let lc := rd (hist rs 0) rs.curpos
      let lcp := rs.curpos
      let rs1 := cursor_left rs
      if rd (hist rs1 0) rs1.curpos = 32 ∧ lc ≠ 32 then cursor_right rs1
      else
        let rs2 := if del ≠ 0 ∧ lcp ≠ 0 then delete_char rs1 else rs1
        word_left_loop del n rs2
    else rs

/-- Move to the first letter of the previous word (`word_left`).  Every
iteration of the loop moves the cursor left, so `curpos` iterations
suffice. -/
def word_left (rs : Readline) (del : Nat) : Readline :=
  let lcp := rs.curpos
  let rs1 := cursor_left rs
  let rs2 := if del ≠ 0 ∧ lcp ≠ 0 then delete_char rs1 else rs1
  word_left_loop del rs2.curpos rs2

/-- Backspace and delete (`backspace`). -/
def backspace (rs : Readline) : Readline :=
  if 0 < rs.curpos then delete_char (cursor_left rs) else rs

/-- Insert a character at the cursor, then move right (`append_char`). -/
def append_char (rs : Readline) (c : Nat) : Readline :=
  cursor_right (insert_char rs c)

/-- Truncate the line at the cursor (`clear_eol`). -/
def clear_eol (rs : Readline) : Readline :=
  cursor_eol (set_hist rs 0 (wr (hist rs 0) rs.curpos 0))

/-- Save the current line to the undo buffer (`undo_save`). -/
def undo_save (rs : Readline) : Readline :=
  { rs with undocurpos := rs.curpos, undoline := strcpy rs.undoline (hist rs 0) }

/-- Restore the current line from the undo buffer (`undo_restore`). -/
def undo_restore (rs : Readline) : Readline :=
  let rs1 := set_hist rs 0 (strcpy (hist rs 0) rs.undoline)
  { rs1 with curpos := min rs1.undocurpos (strlen (hist rs1 0)) }

/-! ## Command history -/

/-- Move up in history (`history_up`); the first component is the return
value. -/
def history_up (rs : Readline) : Nat × Readline :=
  if rs.histpos + 1 = rs.histsize then (0, rs)
  else if rd (hist rs (rs.histpos + 1)) 0 = 0 then (0, rs)
  else
    let rs1 := if rs.histpos = 0 then
      { rs with histsave := strcpy rs.histsave (hist rs 0) } else rs
    let rs2 := if rs1.histpos + 1 < rs1.histsize then
      { rs1 with histpos := rs1.histpos + 1 } else rs1
    let rs3 := set_hist rs2 0 (strcpy (hist rs2 0) (hist rs2 rs2.histpos))
    (1, { rs3 with curpos := strlen (hist rs3 0) })

/-- Move down in history (`history_down`). -/
def history_down (rs : Readline) : Readline :=
  if rs.histpos = 0 then rs
  else
    let rs1 := { rs with histpos := rs.histpos - 1 }
    let rs2 := if rs1.histpos = 0 then
      set_hist rs1 0 (strcpy (hist rs1 0) rs1.histsave)
      else set_hist rs1 0 (strcpy (hist rs1 0) (hist rs1 rs1.histpos))
    { rs2 with curpos := strlen (hist rs2 0) }

/-- The loop `while ( history_up(rs) ) { }`, at most `n` iterations. -/
def history_top_loop : Nat → Readline → Readline
  | 0, rs => rs
  | n + 1, rs =>
    if (history_up rs).1 ≠ 0 then history_top_loop n (history_up rs).2
    else (history_up rs).2

/-- Move to the top of history (`history_top`).  Every successful
`history_up` raises `histpos`, which is bounded by `histsize`. -/
def history_top (rs : Readline) : Readline :=
  if rs.histpos + 1 = rs.histsize then rs
  else history_top_loop rs.histsize rs

/-- Return to the edit line (`history_bot`). -/
def history_bot (rs : Readline) : Readline :=
  if rs.histpos = 0 then rs
  else history_down { rs with histpos := 1 }

/-- The scroll loop of `push_history`: for `t` descending to 1,
`history[t] = history[t-1]`. -/
def push_loop : Nat → List (List Nat) → List (List Nat)
  | 0, h => h
  | t + 1, h => push_loop t (h.set (t + 1) (h.getD t []))

/-- Push the current line into history (`push_history`). -/
def push_history (rs : Readline) : Readline :=
  let top := rs.histsize - 1
  let htop := hist rs top
  let rs1 := { rs with history := push_loop top rs.history }
  let rs2 := set_hist rs1 0 htop
  set_hist rs2 0 (strcpy (hist rs2 0) (hist rs2 1))

/-- The lines printed by `show_history`, in the order printed: slot
`histsize-1` first, slot 0 last, each with its index. -/
def show_history (rs : Readline) : List (Nat × List Nat) :=
  ((List.range rs.histsize).map (fun t => (t, slot rs t))).reverse

/-- Blank-line test (`is_empty`): 1 when the text is only spaces and tabs. -/
def is_empty : List Nat → Nat
  | [] => 1
  | c :: s =>
    if c ≠ 0 ∧ (c = 32 ∨ c = 9) then is_empty s
    else if c ≠ 0 then 0 else 1

/-- The user hit Enter (`enter_key`). -/
def enter_key (rs : Readline) : Readline :=
  let last := hist rs 1
  let line := hist rs 0
  let rs1 := { rs with histpos := 0 }
  let rs2 := if is_empty line = 0 ∧ strcmp last line ≠ 0 then push_history rs1
    else rs1
  cursor_eol rs2

/-- Line cancel and its undo (`line_cancel`). -/
def line_cancel (rs : Readline) : Readline :=
  let rs1 := if rs.lcanmode = 0 then
      let s := undo_save rs
      { set_hist s 0 (wr (hist s 0) 0 0) with curpos := 0 }
    else undo_restore rs
  { rs1 with lcanmode := Nat.xor rs1.lcanmode 1, lcankey := 1 }

/-! ## Key decoding and the read loop -/

/-- The body of `case '1':` in `handle_esc`, entered after ESC [ 1: the
sequences ESC [ 1 ; 5 A..D. -/
def handle_esc_ext (rs : Readline) (inp : List Nat) : Option (Nat × Readline × List Nat) :=
  match inp with
  | [] => none
  | c :: inp3 =>
    if c ≠ 0x3b then some (c, rs, inp3)
    else
      match inp3 with
      | [] => none
      | c :: inp4 =>
        if c ≠ 0x35 then some (c, rs, inp4)
        else
          match inp4 with
          | [] => none
          | c :: inp5 =>
            if c = 0x41 then some (256, { history_top rs with hnav := 1 }, inp5)
            else if c = 0x42 then some (256, { history_bot rs with hnav := 1 }, inp5)
            else if c = 0x43 then some (256, word_right rs, inp5)
            else if c = 0x44 then some (256, word_left rs 0, inp5)
            else some (c, rs, inp5)

/-- The `switch (c)` of `handle_esc`, entered after ESC [. -/
def handle_esc_bracket (rs : Readline) (inp : List Nat) : Option (Nat × Readline × List Nat) :=
  match inp with
  | [] => none
  | c :: inp2 =>
    if c = 0x41 then some (256, { (history_up rs).2 with hnav := 1 }, inp2)
    else if c = 0x42 then some (256, { history_down rs with hnav := 1 }, inp2)
    else if c = 0x43 then some (256, cursor_right rs, inp2)
    else if c = 0x44 then some (256, cursor_left rs, inp2)
    else if c = 0x48 then some (256, cursor_sol rs, inp2)
    else if c = 0x46 then some (256, cursor_eol rs, inp2)
    else if c = 0x35 then
      match inp2 with
      | [] => none
      | _ :: inp3 => some (256, rs, inp3)
    else if c = 0x36 then
      match inp2 with
      | [] => none
      | _ :: inp3 => some (256, rs, inp3)
    else if c = 0x33 then
      match inp2 with
      | [] => none
      | _ :: inp3 => some (256, delete_char rs, inp3)
    else if c = 0x31 then handle_esc_ext rs inp2
    else some (c, rs, inp2)

/-- The ANSI decoder `handle_esc` (LINUX build).  It reads the bytes after
an ESC from the pending input and returns the `int` result (256 for a
handled sequence, else the unmatched byte), the new state and the rest of
the input; `none` when the input runs out. -/
def handle_esc (rs : Readline) (inp : List Nat) : Option (Nat × Readline × List Nat) :=
  match inp with
  | [] => none
  | c :: inp1 =>
    if c ≠ 0x5b then some (c, rs, inp1)
    else handle_esc_bracket rs inp1

/-- The inner `switch` of `case 0x00` in `readline`: the second byte of a
two-byte key. -/
def scan_key (rs : Readline) (c : Nat) : Readline :=
  if c = 0x3d then (history_up rs).2
  else if c = 0x4b then cursor_left rs
  else if c = 0x4d then cursor_right rs
  else if c = 0x48 then { (history_up rs).2 with hnav := 1 }
  else if c = 0x50 then { history_down rs with hnav := 1 }
  else if c = 0x47 then cursor_sol rs
  else if c = 0x4f then cursor_eol rs
  else if c = 0x53 then delete_char rs
  else if c = 0x8d then { history_top rs with hnav := 1 }
  else if c = 0x91 then { history_bot rs with hnav := 1 }
  else if c = 0x73 then word_left rs 0
  else if c = 0x74 then word_right rs
  else rs

/-- The state of the loop in `readline`: the struct and the two local
flags `cleolkey` and `cleolmode`. -/
structure Loop where
  rs : Readline
  cleolkey : Nat
  cleolmode : Nat
  deriving DecidableEq, Repr

/-- How one pass through the loop body ends: at the bottom of the loop
(`next`) or with `return rs->history[0]` (`done`); both carry the input
not yet read. -/
inductive Step where
  | next (st : Loop) (inp : List Nat)
  | done (rs : Readline) (inp : List Nat)
  deriving DecidableEq, Repr

/-- The cases of the `switch (c)` in `readline` that read no further input
and end with `break`: every case except ESC, the two-byte lead 0x00 and
Enter. -/
def single_key (c : Nat) (st : Loop) : Loop :=
  let rs := st.rs
  if c = 0x15 then { st with rs := line_cancel rs }
  else if c = 0x08 then { st with rs := backspace rs }
  else if c = 0x7f then { st with rs := delete_char rs }
  else if c = 0x01 then { st with rs := cursor_sol rs }
  else if c = 0x02 then { st with rs := cursor_left rs }
  else if c = 0x03 then st
  else if c = 0x04 then { st with rs := delete_char rs }
  else if c = 0x05 then { st with rs := cursor_eol rs }
  else if c = 0x06 then { st with rs := cursor_right rs }
  else if c = 0x0e then { st with rs := { history_down rs with hnav := 1 } }
  else if c = 0x10 then { st with rs := { (history_up rs).2 with hnav := 1 } }
  else if c = 0x16 then { st with rs := { rs with literal := Nat.xor rs.literal 1 } }
  else if c = 0x0b then
    { rs := if st.cleolmode = 0 then clear_eol (undo_save rs) else undo_restore rs
      cleolmode := Nat.xor st.cleolmode 1
      cleolkey := 1 }
  else if c = 0x09 ∨ 0x20 ≤ c then { st with rs := append_char rs c }
  else st

/-- The `switch (c)` at label `again:` in `readline`, up to the `break`
or the `return`.  `goto again` is the recursive call; each one follows a
`handle_esc` that read at least one byte, so `fuel` larger than the length
of the pending input is never used up.  The result of `handle_esc` is
assigned to the `uchar c`, which keeps its low 8 bits, before it is
compared with 256. -/
def dispatch : Nat → Nat → Loop → List Nat → Option Step
  | 0, _, _, _ => none
  | fuel + 1, c, st, inp =>
    if c = 0x1b then
      match handle_esc st.rs inp with
      | none => none
      | some (r, rs1, inp1) =>
        let c1 := r % 256
        if c1 = 256 then some (.next { st with rs := rs1 } inp1)
        else dispatch fuel c1 { st with rs := rs1 } inp1
    else if c = 0x00 then
      match inp with
      | [] => none
      | c1 :: inp1 => some (.next { st with rs := scan_key st.rs c1 } inp1)
    else if c = 0x0d ∨ c = 0x0a then some (.done (enter_key st.rs) inp)
    else some (.next (single_key c st) inp)

/-- The code at label `post:` in `readline`. -/
def post (st : Loop) : Loop :=
  let rs := st.rs
  let rs1 := if rs.hnav = 0 then { rs with histpos := 0 } else rs
  let rs2 := if rs1.lcankey = 0 then { rs1 with lcanmode := 0 } else rs1
  { rs := rs2
    cleolkey := st.cleolkey
    cleolmode := if st.cleolkey = 0 then 0 else st.cleolmode }

/-- The top of the loop body in `readline`: the flags `hnav`, `lcankey`
and `cleolkey` are cleared. -/
def pass_start (st : Loop) : Loop :=
  { rs := { st.rs with hnav := 0, lcankey := 0 }
    cleolkey := 0
    cleolmode := st.cleolmode }

/-- One pass through the body of the `while ( 1 )` loop of `readline`. -/
def key_cycle (st : Loop) (inp : List Nat) : Option Step :=
  let st0 := pass_start st
  match inp with
  | [] => none
  | c :: inp1 =>
    if st0.rs.literal ≠ 0 then
      let st1 : Loop := { st0 with rs := { st0.rs with literal := 0 } }
      if c = 0 then some (.next st1 inp1)
      else some (.next (post { st1 with rs := append_char st1.rs c }) inp1)
    else
      match dispatch (inp1.length + 1) c st0 inp1 with
      | some (.next st2 inp2) => some (.next (post st2) inp2)
      | r => r

/-- The first `n` passes through the loop of `readline`; stops early at
the `return`. -/
def cycles : Nat → Loop → List Nat → Option Step
  | 0, st, inp => some (.next st inp)
  | n + 1, st, inp =>
    match key_cycle st inp with
    | some (.next st1 inp1) => cycles n st1 inp1
    | r => r

/-- The initialisation at the top of `readline`. -/
def readline_init (rs : Readline) : Loop :=
  let rs1 : Readline :=
    { rs with curpos := 0, hnav := 0, lcanmode := 0, lcankey := 0, histpos := 0 }
  { rs := set_hist rs1 0 (wr (hist rs1 0) 0 0)
    cleolkey := 0
    cleolmode := 0 }

/-- The function `readline` on the pending input `inp`: the returned
string (the text of `rs->history[0]` at the `return`), the final state
and the unread input; `none` when the input runs out before an Enter is
decoded.  Every pass reads at least one byte, so `inp.length + 1` passes
are never used up. -/
def readline (rs : Readline) (inp : List Nat) : Option (List Nat × Readline × List Nat) :=
  match cycles (inp.length + 1) (readline_init rs) inp with
  | some (.done rs1 rest) => some (slot rs1 0, rs1, rest)
  | _ => none

/-! ## Predicates and drivers used in the statements -/

/-- A buffer of `m` bytes holding a NUL-terminated text. -/
def IsLine (m : Nat) (b : List Nat) : Prop := b.length = m ∧ strlen b < m

instance (m : Nat) (b : List Nat) : Decidable (IsLine m b) := by
  unfold IsLine; infer_instance

/-- The memory layout that `MakeReadline` sets up and every operation
keeps: `histsize` history buffers, the history-save buffer and the undo
buffer, all of `maxline >= 2` bytes and NUL-terminated. -/
def Alloc (rs : Readline) : Prop :=
  2 ≤ rs.maxline ∧ rs.history.length = rs.histsize ∧
  (∀ i, i < rs.histsize → IsLine rs.maxline (hist rs i)) ∧
  IsLine rs.maxline rs.histsave ∧ IsLine rs.maxline rs.undoline

instance (rs : Readline) : Decidable (Alloc rs) := by
  unfold Alloc; infer_instance

/-- The text of the live line, the cursor and the unread input when the
passes end at the bottom of the loop. -/
def observe : Option Step → Option (List Nat × Nat × List Nat)
  | some (.next st inp) => some (slot st.rs 0, st.rs.curpos, inp)
  | _ => none

/-- Enter is hit while the live line buffer holds `b`. -/
def accept (rs : Readline) (b : List Nat) : Readline :=
  enter_key (set_hist rs 0 b)

/-- The lines held by the buffers `bs` are accepted one after the other. -/
def accept_all (rs : Readline) (bs : List (List Nat)) : Readline :=
  bs.foldl accept rs

/-- Apply `history_up` `n` times. -/
def up_n : Nat → Readline → Readline
  | 0, rs => rs
  | n + 1, rs => up_n n (history_up rs).2

/-- Apply `history_down` `n` times. -/
def down_n : Nat → Readline → Readline
  | 0, rs => rs
  | n + 1, rs => down_n n (history_down rs)

/-- While browsing history: `histpos` is inside the history and at most
`k`, the history-save buffer holds the text `t`, and the cursor is at the
end of the line. -/
def Browsing (t : List Nat) (k : Nat) (rs : Readline) : Prop :=
  0 < rs.histpos ∧ rs.histpos ≤ k ∧ rs.histpos < rs.histsize ∧
  0 < rs.history.length ∧ cstr rs.histsave = t ∧ rs.curpos = strlen (hist rs 0)

/-- A depth-3 editor whose history holds bbb (newest) and aaa, with an
empty live line. -/
def bbb_aaa : Readline :=
  { maxline := 5
    histsize := 3
    history := [[0, 0, 0, 0, 0], [98, 98, 98, 0, 0], [97, 97, 97, 0, 0]]
    histpos := 0
    histsave := [0, 0, 0, 0, 0]
    undoline := [0, 0, 0, 0, 0]
    undocurpos := 0
    curpos := 0
    literal := 0
    hnav := 0
    lcanmode := 0
    lcankey := 0 }

/-- A loop state at the top of a pass: the line abcd with the cursor on c,
maxline 6, an empty history of depth 2, both toggles in save mode. -/
def abcd_at_2 : Loop :=
  { rs :=
      { maxline := 6
        histsize := 2
        history := [[97, 98, 99, 100, 0, 0], [0, 0, 0, 0, 0, 0]]
        histpos := 0
        histsave := [0, 0, 0, 0, 0, 0]
        undoline := [0, 0, 0, 0, 0, 0]
        undocurpos := 0
        curpos := 2
        literal := 0
        hnav := 0
        lcanmode := 0
        lcankey := 0 }
    cleolkey := 0
    cleolmode := 0 }

/-- The struct with its four flag fields replaced. -/
def with_flags (rs : Readline) (l h m k : Nat) : Readline :=
  { rs with literal := l, hnav := h, lcanmode := m, lcankey := k }

/-- The state `abcd_at_2` right after ^V: the literal flag is set. -/
def abcd_literal : Loop :=
  { abcd_at_2 with rs := { abcd_at_2.rs with literal := 1 } }

/-- The second state has the same allocation as the first: as many history
buffers, the same `histsize` and `maxline`. -/
def same_shape (a b : Readline) : Prop :=
  b.history.length = a.history.length ∧ b.histsize = a.histsize ∧ b.maxline = a.maxline

/-- The loop state of a fresh editor (maxline 8, depth 3) after a and b
have been typed. -/
def ab_typed : Loop :=
  { rs :=
      { maxline := 8
        histsize := 3
        history := [[97, 98, 0, 0, 0, 0, 0, 0], [0, 0, 0, 0, 0, 0, 0, 0],
          [0, 0, 0, 0, 0, 0, 0, 0]]
        histpos := 0
        histsave := [0, 0, 0, 0, 0, 0, 0, 0]
        undoline := [0, 0, 0, 0, 0, 0, 0, 0]
        undocurpos := 0
        curpos := 2
        literal := 0
        hnav := 0
        lcanmode := 0
        lcankey := 0 }
    cleolkey := 0
    cleolmode := 0 }

/-- The second state has the flags `literal`, `lcanmode` and `lcankey` of
the first. -/
def same_flags (a b : Readline) : Prop :=
  b.literal = a.literal ∧ b.lcanmode = a.lcanmode ∧ b.lcankey = a.lcankey

/-- The loop state `x` differs from `a` at most in the struct, and there
not in the flags `literal`, `lcanmode` and `lcankey`. -/
def Plain (a x : Loop) : Prop :=
  x.cleolkey = a.cleolkey ∧ x.cleolmode = a.cleolmode ∧ same_flags a.rs x.rs

/-- What the `switch` did to the two toggles, going from `a` to `x`: the
flag `cleolkey` (or `lcankey`) is 1 exactly when the case of ^K (or ^U) ran
on `a`; otherwise the mode of that toggle is untouched; the literal flag is
only set by a case that is neither. -/
def KeyEffect (a x : Loop) : Prop :=
  (x.cleolkey = 0 ∨ x.cleolkey = 1) ∧ (x.rs.lcankey = 0 ∨ x.rs.lcankey = 1) ∧
  (x.cleolkey = 1 → x = single_key 0x0b a) ∧
  (x.rs.lcankey = 1 → x = single_key 0x15 a) ∧
  (x.cleolkey = 0 → x.cleolmode = a.cleolmode) ∧
  (x.rs.lcankey = 0 → x.rs.lcanmode = a.rs.lcanmode) ∧
  (x.rs.literal ≠ 0 → x.cleolkey = 0 ∧ x.rs.lcankey = 0)

/-- The toggles at the top of a pass: both modes are 0 or 1, and both are
0 (save) when the literal flag is set. -/
def Toggles (st : Loop) : Prop :=
  (st.cleolmode = 0 ∨ st.cleolmode = 1) ∧ (st.rs.lcanmode = 0 ∨ st.rs.lcanmode = 1) ∧
  (st.rs.literal ≠ 0 → st.cleolmode = 0 ∧ st.rs.lcanmode = 0)

/-- The loop state after ^K has been pressed in `abcd_at_2`: the line is
cut to ab, abcd and the cursor are in the undo buffer, and clear-to-eol is
in restore mode. -/
def ab_after_cleol : Loop :=
  { rs :=
      { maxline := 6
        histsize := 2
        history := [[97, 98, 0, 100, 0, 0], [0, 0, 0, 0, 0, 0]]
        histpos := 0
        histsave := [0, 0, 0, 0, 0, 0]
        undoline := [97, 98, 99, 100, 0, 0]
        undocurpos := 2
        curpos := 2
        literal := 0
        hnav := 0
        lcanmode := 0
        lcankey := 0 }
    cleolkey := 1
    cleolmode := 1 }

/-- A full line: `maxline = 3`, the text "ab", the cursor at the end. -/
def ab_full : Readline :=
  { maxline := 3
    histsize := 2
    history := [[97, 98, 0], [0, 0, 0]]
    histpos := 0
    histsave := [0, 0, 0]
    undoline := [0, 0, 0]
    undocurpos := 0
    curpos := 2
    literal := 0
    hnav := 0
    lcanmode := 0
    lcankey := 0 }

/-- Index `j` is the first letter of a word of the text `t`: `j = 0`, or
`t[j-1]` is a space and `t[j]` is not. -/
def WordStart (t : List Nat) (j : Nat) : Prop :=
  j = 0 ∨ (rd t (j - 1) = 32 ∧ rd t j ≠ 32)

instance (t : List Nat) (j : Nat) : Decidable (WordStart t j) := by
  unfold WordStart
  infer_instance

/-- The line "ab cd" with the cursor at `p` (maxline 8, history depth 2). -/
def ab_cd (p : Nat) : Readline :=
  { maxline := 8
    histsize := 2
    history := [[97, 98, 32, 99, 100, 0, 0, 0], [0, 0, 0, 0, 0, 0, 0, 0]]
    histpos := 0
    histsave := [0, 0, 0, 0, 0, 0, 0, 0]
    undoline := [0, 0, 0, 0, 0, 0, 0, 0]
    undocurpos := 0
    curpos := p
    literal := 0
    hnav := 0
    lcanmode := 0
    lcankey := 0 }

/-- The second state has the same past lines as the first: every history
slot other than slot 0 holds the same bytes. -/
def same_past (a b : Readline) : Prop :=
  ∀ i, 1 ≤ i → hist b i = hist a i

/-- The loop state reached from `bbb_aaa` by recalling the newest history
line (^P) and typing x: the live line is bbbx, the cursor at its end. -/
def bbb_recalled_x : Loop :=
  { rs :=
      { maxline := 5
        histsize := 3
        history := [[98, 98, 98, 120, 0], [98, 98, 98, 0, 0], [97, 97, 97, 0, 0]]
        histpos := 0
        histsave := [0, 0, 0, 0, 0]
        undoline := [0, 0, 0, 0, 0]
        undocurpos := 0
        curpos := 4
        literal := 0
        hnav := 0
        lcanmode := 0
        lcankey := 0 }
    cleolkey := 0
    cleolmode := 0 }

/-- While browsing at slot 2 of a depth-3 history (bbb newest, a oldest): the
live line shows a, the line being edited before the browsing was x. -/
def browsing_at_2 : Readline :=
  { maxline := 5
    histsize := 3
    history := [[97, 0, 0, 0, 0], [98, 98, 98, 0, 0], [97, 0, 0, 0, 0]]
    histpos := 2
    histsave := [120, 0, 0, 0, 0]
    undoline := [0, 0, 0, 0, 0]
    undocurpos := 0
    curpos := 1
    literal := 0
    hnav := 1
    lcanmode := 0
    lcankey := 0 }

/-- Every history slot above `p` up to and including `k` holds a non-empty
text. -/
def AllFull (rs : Readline) (p k : Nat) : Prop :=
  ∀ i, p < i → i ≤ k → slot rs i ≠ []

/-- The indices `i` of the accesses `rs->history[i]` made by the scroll loop
of `push_history`, in program order: `history[t]` and `history[t-1]` for `t`
descending to 1. -/
def push_loop_reads : Nat → List Nat
  | 0 => []
  | t + 1 => [t + 1, t] ++ push_loop_reads t

/-- The indices `i` of the accesses `rs->history[i]` made by `push_history`,
in program order: `history[top]`, those of the scroll loop, `history[0]`,
then `history[0]` and `history[1]` in the `strcpy`. -/
def push_history_reads (rs : Readline) : List Nat :=
  let top := rs.histsize - 1
  [top] ++ push_loop_reads top ++ [0] ++ [0, 1]

/-- The indices `i` of the accesses `rs->history[i]` made by `enter_key`, in
program order: `history[1]` (last), `history[0]` (line), those of
`push_history` when the line is pushed, and `history[0]` in `cursor_eol`. -/
def enter_key_reads (rs : Readline) : List Nat :=
  let last := hist rs 1
  let line := hist rs 0
  let rs1 := { rs with histpos := 0 }
  [1, 0] ++ (if is_empty line = 0 ∧ strcmp last line ≠ 0 then push_history_reads rs1 else [])
    ++ [0]

/-- The loop state of `MakeReadline(8, 1)` after `readline` has read the
key a: the only history buffer holds a, the cursor is at 1. -/
def a_typed_depth_1 : Loop :=
  { rs :=
      { maxline := 8
        histsize := 1
        history := [[97, 0, 0, 0, 0, 0, 0, 0]]
        histpos := 0
        histsave := [0, 0, 0, 0, 0, 0, 0, 0]
        undoline := [0, 0, 0, 0, 0, 0, 0, 0]
        undocurpos := 0
        curpos := 1
        literal := 0
        hnav := 0
        lcanmode := 0
        lcankey := 0 }
    cleolkey := 0
    cleolmode := 0 }

/-- The byte sequences after ESC that `handle_esc` handles with a command
other than Up, Down, Top, Bottom: [ C, [ D, [ H, [ F (cursor moves), [ 5 t,
[ 6 t (page keys, no action), [ 3 t (delete) for any byte `t`, and
[ 1 ; 5 C, [ 1 ; 5 D (word moves). -/
def OtherAnsi (s : List Nat) : Prop :=
  match s with
  | [a, c] => a = 0x5b ∧ (c = 0x43 ∨ c = 0x44 ∨ c = 0x48 ∨ c = 0x46)
  | [a, c, _] => a = 0x5b ∧ (c = 0x35 ∨ c = 0x36 ∨ c = 0x33)
  | [a, c, d, e, f] => a = 0x5b ∧ c = 0x31 ∧ d = 0x3b ∧ e = 0x35 ∧ (f = 0x43 ∨ f = 0x44)
  | _ => False

instance (s : List Nat) : Decidable (OtherAnsi s) := by
  unfold OtherAnsi
  split <;> infer_instance

/-- Whenever the literal flag is set, navPos is 0.  This holds after
`readline_init` and after every pass of the loop. -/
def LiteralAtBottom (rs : Readline) : Prop :=
  rs.literal ≠ 0 → rs.histpos = 0

/-- The loop state reached from `bbb_aaa` by one Up (^P): the live line shows
bbb, navPos is 1 and the empty line that was being edited is in histsave. -/
def bbb_shown : Loop :=
  { rs :=
      { maxline := 5
        histsize := 3
        history := [[98, 98, 98, 0, 0], [98, 98, 98, 0, 0], [97, 97, 97, 0, 0]]
        histpos := 1
        histsave := [0, 0, 0, 0, 0]
        undoline := [0, 0, 0, 0, 0]
        undocurpos := 0
        curpos := 3
        literal := 0
        hnav := 1
        lcanmode := 0
        lcankey := 0 }
    cleolkey := 0
    cleolmode := 0 }

/-! ## Basic facts about the string functions -/

theorem cstr_length (b : List Nat) : (cstr b).length = strlen b := by
  induction b with
  | nil => rfl
  | cons c s ih => by_cases h : c = 0 <;> simp [cstr, strlen, h, ih]

theorem strlen_le_length (b : List Nat) : strlen b ≤ b.length := by
  induction b with
  | nil => simp [strlen]
  | cons c s ih => by_cases h : c = 0 <;> simp [strlen, h]; omega

theorem cstr_append_zero (b t : List Nat) : cstr (cstr b ++ 0 :: t) = cstr b := by
  induction b with
  | nil => simp [cstr]
  | cons c s ih => by_cases h : c = 0 <;> simp [cstr, h, ih]

theorem strlen_append_zero (b t : List Nat) : strlen (cstr b ++ 0 :: t) = strlen b := by
  rw [← cstr_length, cstr_append_zero, cstr_length]

theorem cstr_strcpy (d s : List Nat) : cstr (strcpy d s) = cstr s := by
  simp [strcpy, cstr_append_zero]

theorem strlen_strcpy (d s : List Nat) : strlen (strcpy d s) = strlen s := by
  simp [strcpy, strlen_append_zero]

theorem length_strcpy (d s : List Nat) (h : strlen s < d.length) :
    (strcpy d s).length = d.length := by
  simp [strcpy, cstr_length]; omega

theorem isLine_strcpy {m : Nat} {d s : List Nat} (hd : IsLine m d) (hs : IsLine m s) :
    IsLine m (strcpy d s) := by
  obtain ⟨hd1, _⟩ := hd
  obtain ⟨_, hs2⟩ := hs
  refine ⟨?_, ?_⟩
  · rw [length_strcpy _ _ (by omega), hd1]
  · rw [strlen_strcpy]; exact hs2

theorem strcmp_eq_zero_iff (a b : List Nat) : strcmp a b = 0 ↔ cstr a = cstr b := by
  induction a generalizing b with
  | nil =>
    cases b with
    | nil => simp [strcmp, cstr]
    | cons y b =>
      by_cases hy : y = 0
      · simp [strcmp, cstr, hy]
      · simp [strcmp, cstr, hy]
  | cons x a ih =>
    cases b with
    | nil =>
      by_cases hx : x = 0
      · simp [strcmp, cstr, hx]
      · simp [strcmp, cstr, hx]
    | cons y b =>
      by_cases hxy : x = y
      · subst hxy
        by_cases hx : x = 0
        · simp [strcmp, cstr, hx]
        · simp [strcmp, cstr, hx, ih]
      · by_cases hx : x = 0
        · have hy : ¬ y = 0 := fun h => hxy (by omega)
          simp [strcmp, cstr, hx, hy]
          omega
        · by_cases hy : y = 0
          · simp [strcmp, cstr, hx, hy]
          · simp [strcmp, cstr, hx, hy, hxy]
            omega

theorem is_empty_eq_one_iff (b : List Nat) :
    is_empty b = 1 ↔ ∀ c ∈ cstr b, c = 32 ∨ c = 9 := by
  induction b with
  | nil => simp [is_empty, cstr]
  | cons c s ih =>
    by_cases h0 : c = 0
    · simp [is_empty, cstr, h0]
    · by_cases hw : c = 32 ∨ c = 9
      · simp [is_empty, cstr, h0, hw, ih]
      · simp [is_empty, cstr, h0, hw]

/-! ## Buffers and history slots -/

theorem getD_set {α : Type} (l : List α) (i j : Nat) (a d : α) :
    (l.set i a).getD j d = if i = j ∧ i < l.length then a else l.getD j d := by
  simp only [List.getD_eq_getElem?_getD, List.getElem?_set]
  by_cases h : i = j
  · subst h
    by_cases h2 : i < l.length
    · simp [h2]
    · simp [h2]
      have : l.length ≤ i := by omega
      simp [List.getElem?_eq_none this]
  · simp [h]

theorem hist_set_hist (rs : Readline) (i j : Nat) (b : List Nat) :
    hist (set_hist rs i b) j =
      if i = j ∧ i < rs.history.length then b else hist rs j := by
  unfold hist set_hist
  exact getD_set _ _ _ _ _

theorem push_loop_length (t : Nat) (h : List (List Nat)) :
    (push_loop t h).length = h.length := by
  induction t generalizing h with
  | zero => rfl
  | succ t ih => simp [push_loop, ih]

theorem push_loop_getD (t : Nat) (h : List (List Nat)) (j : Nat) (ht : t < h.length) :
    (push_loop t h).getD j [] =
      if 1 ≤ j ∧ j ≤ t then h.getD (j - 1) [] else h.getD j [] := by
  induction t generalizing h with
  | zero =>
    have : ¬ (1 ≤ j ∧ j ≤ 0) := by omega
    rw [if_neg this]; rfl
  | succ t ih =>
    rw [push_loop, ih _ (by simp; omega)]
    simp only [getD_set]
    by_cases h1 : 1 ≤ j ∧ j ≤ t
    · have h2 : 1 ≤ j ∧ j ≤ t + 1 := by omega
      have h3 : ¬ (t + 1 = j - 1 ∧ t + 1 < h.length) := by omega
      simp [h1, h2, h3]
    · by_cases h4 : j = t + 1
      · subst h4
        simp [ht]
      · have h2 : ¬ (1 ≤ j ∧ j ≤ t + 1) := by omega
        have h3 : ¬ (t + 1 = j ∧ t + 1 < h.length) := by omega
        simp [h1, h2, h3]

theorem history_push_history_length (rs : Readline) :
    (push_history rs).history.length = rs.history.length := by
  simp [push_history, set_hist, push_loop_length]

theorem hist_push_history (rs : Readline) (j : Nat)
    (hlen : rs.history.length = rs.histsize) (h2 : 2 ≤ rs.histsize) (hj : j < rs.histsize) :
    hist (push_history rs) j =
      if j = 0 then strcpy (hist rs (rs.histsize - 1)) (hist rs 0) else hist rs (j - 1) := by
  have ht : rs.histsize - 1 < rs.history.length := by omega
  simp only [push_history, hist_set_hist]
  simp only [hist, set_hist, List.length_set, push_loop_length, getD_set,
    push_loop_getD _ _ _ ht]
  by_cases h0 : j = 0
  · subst h0
    have : (1 ≤ 1 ∧ 1 ≤ rs.histsize - 1) := by omega
    have hpos : 0 < rs.history.length := by omega
    simp [this, hpos]
  · have h1 : 1 ≤ j ∧ j ≤ rs.histsize - 1 := by omega
    have h3 : ¬ (0 = j ∧ 0 < rs.history.length) := by omega
    simp [h0, h1, h3]

/-- One accepted line: the state after Enter on a non-blank line that
differs from the newest history entry. -/
theorem accept_step (rs : Readline) (b : List Nat)
    (hA : Alloc rs) (h2 : 2 ≤ rs.histsize) (hb : IsLine rs.maxline b)
    (hne : is_empty b = 0) (hd : cstr b ≠ slot rs 1) :
    Alloc (accept rs b) ∧ (accept rs b).histsize = rs.histsize ∧
    (accept rs b).maxline = rs.maxline ∧
    slot (accept rs b) 0 = cstr b ∧ slot (accept rs b) 1 = cstr b ∧
    ∀ j, 1 ≤ j → j + 1 < rs.histsize → slot (accept rs b) (j + 1) = slot rs j := by
  obtain ⟨hm, hlen, hlines, hsave, hundo⟩ := hA
  have hpos : 0 < rs.history.length := by omega
  have hcmp : strcmp (hist rs 1) b ≠ 0 := by
    intro h
    exact hd ((strcmp_eq_zero_iff _ _).1 h).symm
  have h01 : ¬ (0 = 1 ∧ 0 < rs.history.length) := by omega
  have hacc : accept rs b =
      cursor_eol (push_history { set_hist rs 0 b with histpos := 0 }) := by
    simp [accept, enter_key, hist_set_hist, hpos, hne, hcmp]
  set r0 : Readline := { set_hist rs 0 b with histpos := 0 } with hr0
  have hr0len : r0.history.length = r0.histsize := by
    simp [hr0, set_hist, hlen]
  have hr0h : ∀ j, hist r0 j = if j = 0 then b else hist rs j := by
    intro j
    have : hist r0 j = hist (set_hist rs 0 b) j := rfl
    rw [this, hist_set_hist]
    by_cases hj : j = 0
    · subst hj; simp [hpos]
    · have : ¬ (0 = j ∧ 0 < rs.history.length) := by omega
      simp [hj, this]
  have hr0sz : r0.histsize = rs.histsize := rfl
  have hh : ∀ j, j < rs.histsize → hist (accept rs b) j =
      if j = 0 then strcpy (hist r0 (rs.histsize - 1)) b else hist r0 (j - 1) := by
    intro j hj
    rw [hacc]
    have : hist (cursor_eol (push_history r0)) j = hist (push_history r0) j := rfl
    rw [this, hist_push_history r0 j hr0len (by rw [hr0sz]; exact h2) (by rw [hr0sz]; exact hj)]
    rw [hr0sz, hr0h 0]
    simp
  have hsz : (accept rs b).histsize = rs.histsize := by rw [hacc]; rfl
  have hml : (accept rs b).maxline = rs.maxline := by rw [hacc]; rfl
  refine ⟨⟨?_, ?_, ?_, ?_, ?_⟩, hsz, hml, ?_, ?_, ?_⟩
  · rw [hml]; exact hm
  · rw [hsz, hacc]
    show (push_history r0).history.length = rs.histsize
    rw [history_push_history_length, hr0len, hr0sz]
  · intro i hi
    rw [hsz] at hi
    rw [hml, hh i hi]
    by_cases h0 : i = 0
    · subst h0
      simp only [if_true]
      apply isLine_strcpy _ hb
      rw [hr0h]
      have : ¬ (rs.histsize - 1 = 0) := by omega
      simp only [this, if_false]
      exact hlines _ (by omega)
    · simp only [h0, if_false]
      rw [hr0h]
      by_cases h1 : i - 1 = 0
      · simp [h1]; exact hb
      · simp only [h1, if_false]
        exact hlines _ (by omega)
  · rw [hml, hacc]; exact hsave
  · rw [hml, hacc]; exact hundo
  · simp [slot, hh 0 (by omega), cstr_strcpy]
  · simp [slot, hh 1 (by omega), hr0h]
  · intro j hj1 hj2
    have hj0 : ¬ (j + 1 = 0) := by omega
    have hj3 : ¬ (j = 0) := by omega
    simp [slot, hh (j + 1) hj2, hr0h, hj3]

theorem cstr_ne_nil_of_not_blank (b : List Nat) (h : is_empty b = 0) : cstr b ≠ [] := by
  intro hc
  have : is_empty b = 1 := (is_empty_eq_one_iff b).2 (by simp [hc])
  omega

theorem accept_all_slots (bs : List (List Nat)) :
    ∀ rs : Readline, Alloc rs → 2 ≤ rs.histsize →
      (∀ b ∈ bs, IsLine rs.maxline b ∧ is_empty b = 0) →
      List.Chain (fun x y => x ≠ y) (slot rs 1) (bs.map cstr) →
      (∀ i, 1 ≤ i → i < rs.histsize →
        slot (accept_all rs bs) i =
          if i ≤ bs.length then cstr (bs.getD (bs.length - i) []) else slot rs (i - bs.length)) ∧
      (bs ≠ [] → slot (accept_all rs bs) 0 = slot (accept_all rs bs) 1) := by
  induction bs with
  | nil =>
    intro rs _ _ _ _
    refine ⟨?_, by simp⟩
    intro i hi _
    have : ¬ (i ≤ 0) := by omega
    simp [accept_all, this]
  | cons b bs ih =>
    intro rs hA h2 hl hc
    have hb := hl b (List.mem_cons_self _ _)
    rw [List.map_cons, List.chain_cons] at hc
    obtain ⟨hA1, hsz, hml, hs0, hs1, hsj⟩ := accept_step rs b hA h2 hb.1 hb.2 (Ne.symm hc.1)
    have hl1 : ∀ b1 ∈ bs, IsLine (accept rs b).maxline b1 ∧ is_empty b1 = 0 := by
      intro b1 hb1
      rw [hml]
      exact hl b1 (List.mem_cons_of_mem _ hb1)
    have hc1 : List.Chain (fun x y => x ≠ y) (slot (accept rs b) 1) (bs.map cstr) := by
      rw [hs1]; exact hc.2
    obtain ⟨ih1, ih2⟩ := ih (accept rs b) hA1 (by rw [hsz]; exact h2) hl1 hc1
    have hall : accept_all rs (b :: bs) = accept_all (accept rs b) bs := rfl
    rw [hall]
    refine ⟨?_, ?_⟩
    · intro i hi1 hi2
      rw [ih1 i hi1 (by rw [hsz]; exact hi2)]
      by_cases h1 : i ≤ bs.length
      · have h3 : i ≤ (b :: bs).length := by simp; omega
        have h4 : (b :: bs).length - i = (bs.length - i) + 1 := by simp; omega
        simp only [h1, h3, if_true, h4, List.getD_cons_succ]
      · by_cases h5 : i = bs.length + 1
        · have h3 : i ≤ (b :: bs).length := by simp; omega
          have h4 : (b :: bs).length - i = 0 := by simp; omega
          have h6 : i - bs.length = 1 := by omega
          simp only [h1, h3, if_true, if_false, h4, h6, hs1, List.getD_cons_zero]
        · have h3 : ¬ (i ≤ (b :: bs).length) := by simp; omega
          have h6 : i - bs.length = (i - (b :: bs).length) + 1 := by simp; omega
          simp only [h1, h3, if_false]
          rw [h6]
          exact hsj _ (by simp; omega) (by simp; omega)
    · intro _
      by_cases hbs : bs = []
      · subst hbs
        show slot (accept rs b) 0 = slot (accept rs b) 1
        rw [hs0, hs1]
      · exact ih2 hbs

theorem chain_of_adjacent (bs : List (List Nat))
    (h : ∀ j, j + 1 < bs.length → cstr (bs.getD j []) ≠ cstr (bs.getD (j + 1) [])) :
    List.Chain' (fun x y => x ≠ y) (bs.map cstr) := by
  induction bs with
  | nil => exact List.chain'_nil
  | cons a l ih =>
    cases l with
    | nil => exact List.chain'_singleton _
    | cons b l =>
      rw [List.map_cons, List.map_cons, List.chain'_cons]
      refine ⟨?_, ?_⟩
      · exact h 0 (by simp)
      · rw [← List.map_cons]
        apply ih
        intro j hj
        exact h (j + 1) (by simp at hj ⊢; omega)

/-- C2: starting from an empty history of depth N >= 2, after Enter has
been hit on the lines held by `bs` in order (each a NUL-terminated buffer of
`maxline` bytes, so of length at most maxline-1, each non-blank, each
different from the one before), history slot i (1 <= i <= N-1) holds the
line number k+1-i when that is at least 1 and is empty otherwise, and slot 0
duplicates slot 1. -/
theorem C2_history_after_accepting (rs : Readline) (bs : List (List Nat))
    (hA : Alloc rs) (hN : 2 ≤ rs.histsize)
    (hempty : ∀ i, 1 ≤ i → i < rs.histsize → slot rs i = [])
    (hline : ∀ b ∈ bs, IsLine rs.maxline b ∧ is_empty b = 0)
    (hdist : ∀ j, j + 1 < bs.length → cstr (bs.getD j []) ≠ cstr (bs.getD (j + 1) [])) :
    (∀ i, 1 ≤ i → i < rs.histsize →
      slot (accept_all rs bs) i =
        if i ≤ bs.length then cstr (bs.getD (bs.length - i) []) else []) ∧
    (bs ≠ [] → slot (accept_all rs bs) 0 = slot (accept_all rs bs) 1) := by
  have hc : List.Chain (fun x y => x ≠ y) (slot rs 1) (bs.map cstr) := by
    have hch := chain_of_adjacent bs hdist
    cases bs with
    | nil => exact List.Chain.nil
    | cons b bs =>
      rw [List.map_cons, List.chain_cons]
      refine ⟨?_, ?_⟩
      · rw [hempty 1 (by omega) (by omega)]
        exact Ne.symm (cstr_ne_nil_of_not_blank b (hline b (List.mem_cons_self _ _)).2)
      · simpa [List.Chain'] using hch
  obtain ⟨h1, h2⟩ := accept_all_slots bs rs hA hN hline hc
  refine ⟨?_, h2⟩
  intro i hi1 hi2
  rw [h1 i hi1 hi2]
  by_cases h : i ≤ bs.length
  · simp [h]
  · simp only [h, if_false]
    exact hempty _ (by omega) (by omega)

/-- Witness for C2: depth 3, lines a, b, c accepted in order: slot 1 holds
c, slot 2 holds b, slot 0 duplicates slot 1. -/
theorem C2_history_after_accepting_witness :
    Alloc (MakeReadline 4 3 0) ∧
    (∀ b ∈ [[97, 0, 0, 0], [98, 0, 0, 0], [99, 0, 0, 0]],
      IsLine (MakeReadline 4 3 0).maxline b ∧ is_empty b = 0) ∧
    slot (accept_all (MakeReadline 4 3 0) [[97, 0, 0, 0], [98, 0, 0, 0], [99, 0, 0, 0]]) 1
      = [99] ∧
    slot (accept_all (MakeReadline 4 3 0) [[97, 0, 0, 0], [98, 0, 0, 0], [99, 0, 0, 0]]) 2
      = [98] ∧
    slot (accept_all (MakeReadline 4 3 0) [[97, 0, 0, 0], [98, 0, 0, 0], [99, 0, 0, 0]]) 0
      = slot (accept_all (MakeReadline 4 3 0) [[97, 0, 0, 0], [98, 0, 0, 0], [99, 0, 0, 0]]) 1 := by
  have h := C2_history_after_accepting (MakeReadline 4 3 0)
    [[97, 0, 0, 0], [98, 0, 0, 0], [99, 0, 0, 0]] (by decide) (by decide)
    (by intro i h1 h2
        have h3 : i < 3 := h2
        interval_cases i <;> rfl)
    (by decide)
    (by intro j hj
        have h3 : j < 2 := by
          have h4 : j + 1 < 3 := hj
          omega
        interval_cases j <;> decide)
  refine ⟨by decide, by decide, ?_, ?_, ?_⟩
  · exact h.1 1 (by decide) (by decide)
  · exact h.1 2 (by decide) (by decide)
  · exact h.2 (by decide)

/-- C1 (code defect): with maxline = 3, typing a, b and then ^D leaves the
text "a" with the cursor at 2, past the end of the text.  After a and b the
line is full ("ab", cursor 2); `delete_char` clamps the cursor to
maxline-2 = 1 and deletes the character before the cursor. -/
theorem C1_cursor_past_end_after_delete :
    observe (cycles 2 (readline_init (MakeReadline 3 2 0)) [97, 98, 4])
      = some ([97, 98], 2, [4]) ∧
    observe (cycles 3 (readline_init (MakeReadline 3 2 0)) [97, 98, 4])
      = some ([97], 2, []) := by
  decide

/-- C3: if the live line is empty or holds only spaces and tabs, or equals
the text of slot 1, then `enter_key` leaves the whole history array (every
buffer, so every slot 1..N-1) unchanged. -/
theorem C3_blank_or_duplicate_not_pushed (rs : Readline)
    (h : (∀ c ∈ slot rs 0, c = 32 ∨ c = 9) ∨ slot rs 0 = slot rs 1) :
    (enter_key rs).history = rs.history := by
  have hcond : ¬ (is_empty (hist rs 0) = 0 ∧ strcmp (hist rs 1) (hist rs 0) ≠ 0) := by
    rintro ⟨h1, h2⟩
    rcases h with h | h
    · have := (is_empty_eq_one_iff (hist rs 0)).2 h
      omega
    · exact h2 ((strcmp_eq_zero_iff _ _).2 h.symm)
  simp only [enter_key, hcond, if_false, cursor_eol]

/-- Witness for C3: a line of one space and one tab over the history
(abc, empty), and a line abc equal to slot 1. -/
theorem C3_blank_or_duplicate_not_pushed_witness :
    (∀ c ∈ slot (⟨5, 3, [[32, 9, 0, 0, 0], [97, 98, 99, 0, 0], [0, 0, 0, 0, 0]], 0,
        [0, 0, 0, 0, 0], [0, 0, 0, 0, 0], 0, 2, 0, 0, 0, 0⟩ : Readline) 0, c = 32 ∨ c = 9) ∧
    (enter_key ⟨5, 3, [[32, 9, 0, 0, 0], [97, 98, 99, 0, 0], [0, 0, 0, 0, 0]], 0,
        [0, 0, 0, 0, 0], [0, 0, 0, 0, 0], 0, 2, 0, 0, 0, 0⟩).history
      = [[32, 9, 0, 0, 0], [97, 98, 99, 0, 0], [0, 0, 0, 0, 0]] ∧
    (enter_key ⟨5, 3, [[97, 98, 99, 0, 0], [97, 98, 99, 0, 0], [0, 0, 0, 0, 0]], 0,
        [0, 0, 0, 0, 0], [0, 0, 0, 0, 0], 0, 3, 0, 0, 0, 0⟩).history
      = [[97, 98, 99, 0, 0], [97, 98, 99, 0, 0], [0, 0, 0, 0, 0]] :=
  ⟨by decide,
   C3_blank_or_duplicate_not_pushed _ (Or.inl (by decide)),
   C3_blank_or_duplicate_not_pushed _ (Or.inr (by decide))⟩

/-! ## History navigation -/

theorem history_up_blocked (rs : Readline) (h : (history_up rs).1 = 0) :
    (history_up rs).2 = rs := by
  unfold history_up at h ⊢
  split
  · rfl
  · split
    · rfl
    · rename_i h1 h2
      simp [h1, h2] at h

theorem history_up_ret (rs : Readline) :
    (history_up rs).1 =
      if rs.histpos + 1 = rs.histsize ∨ rd (hist rs (rs.histpos + 1)) 0 = 0 then 0 else 1 := by
  unfold history_up
  by_cases ha : rs.histpos + 1 = rs.histsize
  · simp [ha]
  · by_cases hb : rd (hist rs (rs.histpos + 1)) 0 = 0
    · simp [ha, hb]
    · simp [ha, hb]

/-- The state after a `history_up` that moves, field by field. -/
theorem history_up_moves (rs : Readline) (ha : rs.histpos + 1 < rs.histsize)
    (hb : rd (hist rs (rs.histpos + 1)) 0 ≠ 0) :
    history_up rs = (1,
      { rs with
        histpos := rs.histpos + 1
        histsave := if rs.histpos = 0 then strcpy rs.histsave (hist rs 0) else rs.histsave
        history := rs.history.set 0 (strcpy (hist rs 0) (hist rs (rs.histpos + 1)))
        curpos := strlen (hist (set_hist rs 0
          (strcpy (hist rs 0) (hist rs (rs.histpos + 1)))) 0) }) := by
  have hne : ¬ (rs.histpos + 1 = rs.histsize) := by omega
  by_cases h0 : rs.histpos = 0
  · rw [h0] at ha hb hne
    simp [hist] at hb
    simp [history_up, hne, hb, h0, ha, set_hist, hist]
  · simp [hist] at hb
    simp [history_up, hne, hb, h0, ha, set_hist, hist]

theorem history_down_moves (rs : Readline) (h : rs.histpos ≠ 0) :
    history_down rs =
      { rs with
        histpos := rs.histpos - 1
        history := rs.history.set 0 (strcpy (hist rs 0)
          (if rs.histpos - 1 = 0 then rs.histsave else hist rs (rs.histpos - 1)))
        curpos := strlen (hist (set_hist rs 0 (strcpy (hist rs 0)
          (if rs.histpos - 1 = 0 then rs.histsave else hist rs (rs.histpos - 1)))) 0) } := by
  by_cases h1 : rs.histpos - 1 = 0
  · simp [history_down, h, h1, set_hist, hist]
  · simp [history_down, h, h1, set_hist, hist]

theorem up_n_blocked (n : Nat) (rs : Readline) (h : (history_up rs).1 = 0) :
    up_n n rs = rs := by
  induction n with
  | zero => rfl
  | succ n ih => rw [up_n, history_up_blocked rs h, ih]

theorem down_n_bottom (n : Nat) (rs : Readline) (h : rs.histpos = 0) :
    down_n n rs = rs := by
  induction n with
  | zero => rfl
  | succ n ih =>
    have : history_down rs = rs := by simp [history_down, h]
    rw [down_n, this, ih]

theorem history_up_first (rs : Readline) (h0 : rs.histpos = 0)
    (hlen : 0 < rs.history.length) (hsz : 0 < rs.histsize) (h1 : (history_up rs).1 ≠ 0) :
    Browsing (slot rs 0) 1 (history_up rs).2 := by
  rw [history_up_ret] at h1
  have hc : ¬ (rs.histpos + 1 = rs.histsize ∨ rd (hist rs (rs.histpos + 1)) 0 = 0) := by
    intro hc; simp [hc] at h1
  have ha : rs.histpos + 1 < rs.histsize := by omega
  have hb : rd (hist rs (rs.histpos + 1)) 0 ≠ 0 := fun h => hc (Or.inr h)
  rw [history_up_moves rs ha hb]
  refine ⟨?_, ?_, ?_, ?_, ?_, ?_⟩
  · simp
  · simp [h0]
  · exact ha
  · simpa using hlen
  · simp [h0, cstr_strcpy, slot]
  · rfl

theorem history_up_browsing (t : List Nat) (k : Nat) (rs : Readline)
    (h : Browsing t k rs) : Browsing t (k + 1) (history_up rs).2 := by
  obtain ⟨h1, h2, h3, h4, h5, h6⟩ := h
  by_cases hr : (history_up rs).1 = 0
  · rw [history_up_blocked rs hr]
    exact ⟨h1, by omega, h3, h4, h5, h6⟩
  · rw [history_up_ret] at hr
    have hc : ¬ (rs.histpos + 1 = rs.histsize ∨ rd (hist rs (rs.histpos + 1)) 0 = 0) := by
      intro hc; simp [hc] at hr
    have ha : rs.histpos + 1 < rs.histsize := by omega
    have hb : rd (hist rs (rs.histpos + 1)) 0 ≠ 0 := fun h => hc (Or.inr h)
    rw [history_up_moves rs ha hb]
    have hne : ¬ (rs.histpos = 0) := by omega
    refine ⟨?_, ?_, ?_, ?_, ?_, ?_⟩
    · simp
    · simpa using h2
    · exact ha
    · simpa using h4
    · simpa [hne] using h5
    · rfl

theorem up_n_browsing (n : Nat) : ∀ (t : List Nat) (k : Nat) (rs : Readline),
    Browsing t k rs → Browsing t (k + n) (up_n n rs) := by
  induction n with
  | zero => intro t k rs h; exact h
  | succ n ih =>
    intro t k rs h
    have := ih t (k + 1) _ (history_up_browsing t k rs h)
    rw [up_n]
    have e : k + (n + 1) = k + 1 + n := by omega
    rw [e]; exact this

theorem down_n_browsing (n : Nat) : ∀ (t : List Nat) (k : Nat) (rs : Readline),
    Browsing t k rs → k ≤ n →
      (down_n n rs).histpos = 0 ∧ slot (down_n n rs) 0 = t ∧
      (down_n n rs).curpos = strlen (hist (down_n n rs) 0) := by
  induction n with
  | zero =>
    intro t k rs h hk
    obtain ⟨h1, h2, _⟩ := h
    omega
  | succ n ih =>
    intro t k rs h hk
    obtain ⟨h1, h2, h3, h4, h5, h6⟩ := h
    have hne : rs.histpos ≠ 0 := by omega
    rw [down_n, history_down_moves rs hne]
    by_cases hz : rs.histpos - 1 = 0
    · rw [down_n_bottom _ _ (by simpa using hz)]
      refine ⟨by simpa using hz, ?_, rfl⟩
      simp [slot, hist, hz, getD_set, h4, cstr_strcpy, h5]
    · apply ih t (k - 1)
      · refine ⟨?_, ?_, ?_, ?_, ?_, rfl⟩
        · show 0 < rs.histpos - 1
          omega
        · show rs.histpos - 1 ≤ k - 1
          omega
        · show rs.histpos - 1 < rs.histsize
          omega
        · simpa using h4
        · exact h5
      · omega

/-- C4: from a state with navPos = 0, n times `history_up` followed by n
times `history_down` leaves slot 0 holding the text of the live line as it
was, and navPos = 0; if a step moved (n >= 1 and the first `history_up`
returns 1) the cursor is at the end of the line, otherwise the state is
unchanged. -/
theorem C4_up_then_down_restores (rs : Readline) (n : Nat)
    (hlen : rs.history.length = rs.histsize) (hN : 1 ≤ rs.histsize)
    (h0 : rs.histpos = 0) :
    slot (down_n n (up_n n rs)) 0 = slot rs 0 ∧
    (down_n n (up_n n rs)).histpos = 0 ∧
    (1 ≤ n ∧ (history_up rs).1 = 1 →
      (down_n n (up_n n rs)).curpos = strlen (hist (down_n n (up_n n rs)) 0)) ∧
    (¬ (1 ≤ n ∧ (history_up rs).1 = 1) → down_n n (up_n n rs) = rs) := by
  have hret : (history_up rs).1 = 0 ∨ (history_up rs).1 = 1 := by
    rw [history_up_ret]; split <;> simp
  by_cases hm : 1 ≤ n ∧ (history_up rs).1 = 1
  · obtain ⟨hn, h1⟩ := hm
    obtain ⟨m, rfl⟩ : ∃ m, n = m + 1 := ⟨n - 1, by omega⟩
    have hb := history_up_first rs h0 (by omega) (by omega) (by omega)
    have hb2 := up_n_browsing m _ 1 _ hb
    have hd := down_n_browsing (m + 1) _ (1 + m) _ hb2 (by omega)
    have e : up_n (m + 1) rs = up_n m (history_up rs).2 := rfl
    rw [e]
    exact ⟨hd.2.1, hd.1, fun _ => hd.2.2, fun hc => absurd ⟨hn, h1⟩ hc⟩
  · have hsame : down_n n (up_n n rs) = rs := by
      by_cases hn : 1 ≤ n
      · have h1 : (history_up rs).1 = 0 := by
          rcases hret with h | h
          · exact h
          · exact absurd ⟨hn, h⟩ hm
        rw [up_n_blocked n rs h1, down_n_bottom n rs h0]
      · have : n = 0 := by omega
        subst this; rfl
    rw [hsame]
    exact ⟨rfl, h0, fun hc => absurd hc hm, fun _ => rfl⟩

/-- Witness for C4: history bbb, aaa and an empty live line.  Up shows bbb,
Up shows aaa, Down shows bbb, Down shows the empty live line again. -/
theorem C4_up_then_down_restores_witness :
    slot (up_n 1 bbb_aaa) 0 = [98, 98, 98] ∧
    slot (up_n 2 bbb_aaa) 0 = [97, 97, 97] ∧
    slot (down_n 1 (up_n 2 bbb_aaa)) 0 = [98, 98, 98] ∧
    slot (down_n 2 (up_n 2 bbb_aaa)) 0 = [] ∧
    (slot (down_n 2 (up_n 2 bbb_aaa)) 0 = slot bbb_aaa 0 ∧
     (down_n 2 (up_n 2 bbb_aaa)).histpos = 0 ∧
     (1 ≤ 2 ∧ (history_up bbb_aaa).1 = 1 →
       (down_n 2 (up_n 2 bbb_aaa)).curpos = strlen (hist (down_n 2 (up_n 2 bbb_aaa)) 0)) ∧
     (¬ (1 ≤ 2 ∧ (history_up bbb_aaa).1 = 1) → down_n 2 (up_n 2 bbb_aaa) = bbb_aaa)) :=
  ⟨by decide, by decide, by decide, by decide,
   C4_up_then_down_restores bbb_aaa 2 (by decide) (by decide) (by decide)⟩

/-! ## The clear keys -/

theorem key_cycle_cleol (st : Loop) (rest : List Nat) (hlit : st.rs.literal = 0) :
    key_cycle st (0x0b :: rest) = some (.next (post
      { rs := if st.cleolmode = 0
          then clear_eol (undo_save { st.rs with hnav := 0, lcankey := 0 })
          else undo_restore { st.rs with hnav := 0, lcankey := 0 }
        cleolmode := Nat.xor st.cleolmode 1
        cleolkey := 1 }) rest) := by
  simp [key_cycle, pass_start, dispatch, single_key, hlit]

theorem key_cycle_lcan (st : Loop) (rest : List Nat) (hlit : st.rs.literal = 0) :
    key_cycle st (0x15 :: rest) = some (.next (post
      { rs := line_cancel { st.rs with hnav := 0, lcankey := 0 }
        cleolmode := st.cleolmode
        cleolkey := 0 }) rest) := by
  simp [key_cycle, pass_start, dispatch, single_key, hlit]

theorem cycles_succ_next (n : Nat) (st : Loop) (inp : List Nat) (st1 : Loop)
    (inp1 : List Nat) (h : key_cycle st inp = some (.next st1 inp1)) :
    cycles (n + 1) st inp = cycles n st1 inp1 := by
  simp [cycles, h]

theorem cycles_add (m n : Nat) : ∀ (st : Loop) (inp : List Nat) (st1 : Loop) (inp1 : List Nat),
    cycles m st inp = some (.next st1 inp1) → cycles (m + n) st inp = cycles n st1 inp1 := by
  induction m with
  | zero =>
    intro st inp st1 inp1 h
    simp only [cycles, Option.some.injEq, Step.next.injEq] at h
    obtain ⟨h1, h2⟩ := h
    subst h1; subst h2
    simp
  | succ m ih =>
    intro st inp st1 inp1 h
    have e : m + 1 + n = (m + n) + 1 := by omega
    rw [e]
    cases hk : key_cycle st inp with
    | none => simp [cycles, hk] at h
    | some r =>
      cases r with
      | next st2 inp2 =>
        rw [cycles_succ_next _ _ _ _ _ hk] at h ⊢
        exact ih _ _ _ _ h
      | done rs2 inp2 => simp [cycles, hk] at h

theorem with_flags_self (rs : Readline) :
    with_flags rs rs.literal rs.hnav rs.lcanmode rs.lcankey = rs := rfl

theorem with_flags_with_flags (rs : Readline) (l h m k l1 h1 m1 k1 : Nat) :
    with_flags (with_flags rs l h m k) l1 h1 m1 k1 = with_flags rs l1 h1 m1 k1 := rfl

theorem delete_char_flags (rs : Readline) (l h m k : Nat) :
    delete_char (with_flags rs l h m k) = with_flags (delete_char rs) l h m k := by
  simp only [delete_char, with_flags, hist, set_hist]
  split <;> rfl

theorem insert_char_flags (rs : Readline) (c l h m k : Nat) :
    insert_char (with_flags rs l h m k) c = with_flags (insert_char rs c) l h m k := rfl

theorem cursor_left_flags (rs : Readline) (l h m k : Nat) :
    cursor_left (with_flags rs l h m k) = with_flags (cursor_left rs) l h m k := by
  simp only [cursor_left, with_flags]
  split <;> rfl

theorem cursor_right_flags (rs : Readline) (l h m k : Nat) :
    cursor_right (with_flags rs l h m k) = with_flags (cursor_right rs) l h m k := by
  simp only [cursor_right, with_flags, hist]
  split <;> rfl

theorem cursor_sol_flags (rs : Readline) (l h m k : Nat) :
    cursor_sol (with_flags rs l h m k) = with_flags (cursor_sol rs) l h m k := rfl

theorem cursor_eol_flags (rs : Readline) (l h m k : Nat) :
    cursor_eol (with_flags rs l h m k) = with_flags (cursor_eol rs) l h m k := rfl

theorem append_char_flags (rs : Readline) (c l h m k : Nat) :
    append_char (with_flags rs l h m k) c = with_flags (append_char rs c) l h m k := by
  rw [append_char, insert_char_flags, cursor_right_flags]; rfl

theorem backspace_flags (rs : Readline) (l h m k : Nat) :
    backspace (with_flags rs l h m k) = with_flags (backspace rs) l h m k := by
  unfold backspace
  rw [cursor_left_flags, delete_char_flags]
  by_cases h0 : 0 < rs.curpos
  · have : 0 < (with_flags rs l h m k).curpos := h0
    simp [h0, this]
  · have : ¬ 0 < (with_flags rs l h m k).curpos := h0
    simp [h0, this]

theorem word_right_loop_flags (n e : Nat) : ∀ (rs : Readline) (l h m k : Nat),
    word_right_loop n e (with_flags rs l h m k) = with_flags (word_right_loop n e rs) l h m k := by
  induction n with
  | zero => intro rs l h m k; rfl
  | succ n ih =>
    intro rs l h m k
    simp only [word_right_loop, cursor_right_flags, ih]
    have e1 : (with_flags rs l h m k).curpos = rs.curpos := rfl
    have e2 : hist (with_flags rs l h m k) 0 = hist rs 0 := rfl
    have e3 : hist (with_flags (cursor_right rs) l h m k) 0 = hist (cursor_right rs) 0 := rfl
    have e4 : (with_flags (cursor_right rs) l h m k).curpos = (cursor_right rs).curpos := rfl
    rw [e1, e2, e3, e4]
    split
    · split <;> rfl
    · rfl

theorem word_right_flags (rs : Readline) (l h m k : Nat) :
    word_right (with_flags rs l h m k) = with_flags (word_right rs) l h m k := by
  unfold word_right
  rw [cursor_right_flags, word_right_loop_flags]; rfl

theorem word_left_loop_flags (del n : Nat) : ∀ (rs : Readline) (l h m k : Nat),
    word_left_loop del n (with_flags rs l h m k)
      = with_flags (word_left_loop del n rs) l h m k := by
  induction n with
  | zero => intro rs l h m k; rfl
  | succ n ih =>
    intro rs l h m k
    simp only [word_left_loop, cursor_left_flags, cursor_right_flags, delete_char_flags]
    have e1 : (with_flags rs l h m k).curpos = rs.curpos := rfl
    have e2 : hist (with_flags rs l h m k) 0 = hist rs 0 := rfl
    have e3 : hist (with_flags (cursor_left rs) l h m k) 0 = hist (cursor_left rs) 0 := rfl
    have e4 : (with_flags (cursor_left rs) l h m k).curpos = (cursor_left rs).curpos := rfl
    rw [e1, e2, e3, e4]
    split
    · split
      · rfl
      · split
        · rw [ih]
        · rw [ih]
    · rfl

theorem word_left_flags (rs : Readline) (del l h m k : Nat) :
    word_left (with_flags rs l h m k) del = with_flags (word_left rs del) l h m k := by
  unfold word_left
  simp only [cursor_left_flags, delete_char_flags]
  have e1 : (with_flags rs l h m k).curpos = rs.curpos := rfl
  rw [e1]
  split
  · rw [word_left_loop_flags]; rfl
  · rw [word_left_loop_flags]; rfl

theorem clear_eol_flags (rs : Readline) (l h m k : Nat) :
    clear_eol (with_flags rs l h m k) = with_flags (clear_eol rs) l h m k := rfl

theorem undo_save_flags (rs : Readline) (l h m k : Nat) :
    undo_save (with_flags rs l h m k) = with_flags (undo_save rs) l h m k := rfl

theorem undo_restore_flags (rs : Readline) (l h m k : Nat) :
    undo_restore (with_flags rs l h m k) = with_flags (undo_restore rs) l h m k := rfl

theorem history_up_flags (rs : Readline) (l h m k : Nat) :
    history_up (with_flags rs l h m k)
      = ((history_up rs).1, with_flags (history_up rs).2 l h m k) := by
  simp only [history_up, with_flags, hist, set_hist]
  split
  · rfl
  · split
    · rfl
    · split <;> split <;> rfl

theorem history_down_flags (rs : Readline) (l h m k : Nat) :
    history_down (with_flags rs l h m k) = with_flags (history_down rs) l h m k := by
  simp only [history_down, with_flags, hist, set_hist]
  split
  · rfl
  · split <;> rfl

theorem history_top_loop_flags (n : Nat) : ∀ (rs : Readline) (l h m k : Nat),
    history_top_loop n (with_flags rs l h m k)
      = with_flags (history_top_loop n rs) l h m k := by
  induction n with
  | zero => intro rs l h m k; rfl
  | succ n ih =>
    intro rs l h m k
    simp only [history_top_loop, history_up_flags, ih]
    split <;> rfl

theorem history_top_flags (rs : Readline) (l h m k : Nat) :
    history_top (with_flags rs l h m k) = with_flags (history_top rs) l h m k := by
  unfold history_top
  rw [history_top_loop_flags]
  have e1 : (with_flags rs l h m k).histpos = rs.histpos := rfl
  have e2 : (with_flags rs l h m k).histsize = rs.histsize := rfl
  rw [e1, e2]
  split <;> rfl

theorem history_bot_flags (rs : Readline) (l h m k : Nat) :
    history_bot (with_flags rs l h m k) = with_flags (history_bot rs) l h m k := by
  unfold history_bot
  have e1 : (with_flags rs l h m k).histpos = rs.histpos := rfl
  have e3 : { with_flags rs l h m k with histpos := 1 }
      = with_flags { rs with histpos := 1 } l h m k := rfl
  rw [e1, e3, history_down_flags]
  split <;> rfl

theorem push_history_flags (rs : Readline) (l h m k : Nat) :
    push_history (with_flags rs l h m k) = with_flags (push_history rs) l h m k := rfl

theorem enter_key_flags (rs : Readline) (l h m k : Nat) :
    enter_key (with_flags rs l h m k) = with_flags (enter_key rs) l h m k := by
  unfold enter_key
  have e1 : hist (with_flags rs l h m k) 0 = hist rs 0 := rfl
  have e2 : hist (with_flags rs l h m k) 1 = hist rs 1 := rfl
  have e3 : { with_flags rs l h m k with histpos := 0 }
      = with_flags { rs with histpos := 0 } l h m k := rfl
  simp only [e1, e2, e3, push_history_flags]
  split <;> rfl

/-! ## Decoding -/

/-- The decoder alone: `handle_esc`, entered after the ESC, on the bytes [ A
applies exactly `history_up` (the new state is that of `history_up` with the
flag hnav set), reports the sequence as handled (256) and leaves the
following bytes unread; on the bytes [ 1 ; 5 C it applies exactly
`word_right`. -/
theorem handle_esc_up_and_word_right (rs : Readline) (rest : List Nat) :
    handle_esc rs (0x5b :: 0x41 :: rest)
      = some (256, { (history_up rs).2 with hnav := 1 }, rest) ∧
    handle_esc rs (0x5b :: 0x31 :: 0x3b :: 0x35 :: 0x43 :: rest)
      = some (256, word_right rs, rest) := by
  constructor <;> simp [handle_esc, handle_esc_bracket, handle_esc_ext]

theorem key_cycle_literal (st : Loop) (c : Nat) (rest : List Nat)
    (hlit : st.rs.literal ≠ 0) :
    key_cycle st (c :: rest) = some (.next
      (if c = 0 then
        { rs := { st.rs with hnav := 0, lcankey := 0, literal := 0 }
          cleolkey := 0
          cleolmode := st.cleolmode }
      else post
        { rs := append_char { st.rs with hnav := 0, lcankey := 0, literal := 0 } c
          cleolkey := 0
          cleolmode := st.cleolmode }) rest) := by
  by_cases hc : c = 0
  · simp [key_cycle, pass_start, hlit, hc]
  · simp [key_cycle, pass_start, hlit, hc]

/-- C9: when the literal flag is set, the pass on the next byte `c` ends at
the bottom of the loop (it never returns, so Enter does not accept the
line) with the literal flag clear; if `c` is not 0 the line and the cursor
are those of `append_char` with `c`, if `c` is 0 they are unchanged. -/
theorem C9_literal_next_byte (st : Loop) (c : Nat) (rest : List Nat)
    (hlit : st.rs.literal ≠ 0) :
    ∃ st1 : Loop, key_cycle st (c :: rest) = some (.next st1 rest) ∧
      st1.rs.literal = 0 ∧
      (c ≠ 0 → st1.rs.history = (append_char st.rs c).history ∧
        st1.rs.curpos = (append_char st.rs c).curpos) ∧
      (c = 0 → st1.rs.history = st.rs.history ∧ st1.rs.curpos = st.rs.curpos) := by
  have e : ({ st.rs with hnav := 0, lcankey := 0, literal := 0 } : Readline)
      = with_flags st.rs 0 0 st.rs.lcanmode 0 := rfl
  refine ⟨_, key_cycle_literal st c rest hlit, ?_, ?_, ?_⟩
  · by_cases hc : c = 0
    · simp [hc]
    · simp only [hc, if_false, e, append_char_flags]
      simp [post, with_flags]
  · intro hc
    simp only [hc, if_false, e, append_char_flags]
    simp [post, with_flags]
  · intro hc
    simp [hc]

/-- Witness for C9: on abcd with the cursor on c and the literal flag set,
Enter (0x0d) is inserted as a character and the loop goes on; the byte 0
leaves the line as it is. -/
theorem C9_literal_next_byte_witness :
    abcd_literal.rs.literal ≠ 0 ∧
    observe (key_cycle abcd_literal [0x0d]) = some ([97, 98, 0x0d, 99, 100], 3, []) ∧
    observe (key_cycle abcd_literal [0]) = some ([97, 98, 99, 100], 2, []) ∧
    (∃ st1 : Loop, key_cycle abcd_literal (0x0d :: []) = some (.next st1 []) ∧
      st1.rs.literal = 0 ∧
      (0x0d ≠ 0 → st1.rs.history = (append_char abcd_literal.rs 0x0d).history ∧
        st1.rs.curpos = (append_char abcd_literal.rs 0x0d).curpos) ∧
      (0x0d = 0 → st1.rs.history = abcd_literal.rs.history ∧
        st1.rs.curpos = abcd_literal.rs.curpos)) :=
  ⟨by decide, by decide, by decide,
   C9_literal_next_byte abcd_literal 0x0d [] (by decide)⟩

theorem some_triple_length (x y : Nat × Readline × List Nat) (n : Nat)
    (hxy : some x = some y) (hx : x.2.2.length < n) : y.2.2.length < n := by
  simp only [Option.some.injEq] at hxy
  subst hxy
  exact hx

theorem handle_esc_ext_length (rs : Readline) (inp : List Nat) (r : Nat) (rs1 : Readline)
    (inp1 : List Nat) (h : handle_esc_ext rs inp = some (r, rs1, inp1)) :
    inp1.length < inp.length := by
  rcases inp with _ | ⟨c3, _ | ⟨c4, _ | ⟨c5, i5⟩⟩⟩ <;>
    simp only [handle_esc_ext] at h <;>
    (repeat' split at h) <;>
    first
      | (refine some_triple_length _ _ _ h ?_
         simp only [List.length_cons]
         omega)
      | (simp at h)

theorem handle_esc_bracket_length (rs : Readline) (inp : List Nat) (r : Nat) (rs1 : Readline)
    (inp1 : List Nat) (h : handle_esc_bracket rs inp = some (r, rs1, inp1)) :
    inp1.length < inp.length := by
  rcases inp with _ | ⟨c2, i2⟩
  · simp [handle_esc_bracket] at h
  · simp only [handle_esc_bracket] at h
    repeat' split at h
    all_goals first
      | (refine some_triple_length _ _ _ h ?_
         simp only [List.length_cons]
         omega)
      | (simp at h)
      | exact Nat.lt_succ_of_lt (handle_esc_ext_length _ _ _ _ _ h)

theorem handle_esc_length (rs : Readline) (inp : List Nat) (r : Nat) (rs1 : Readline)
    (inp1 : List Nat) (h : handle_esc rs inp = some (r, rs1, inp1)) :
    inp1.length < inp.length := by
  rcases inp with _ | ⟨c1, i1⟩
  · simp [handle_esc] at h
  · simp only [handle_esc] at h
    split at h
    · refine some_triple_length _ _ _ h ?_
      simp only [List.length_cons]
      omega
    · have := handle_esc_bracket_length _ _ _ _ _ h
      simp only [List.length_cons]; omega

/-- The result of the `switch` does not depend on the fuel once the fuel
exceeds the length of the pending input. -/
theorem dispatch_fuel (f : Nat) : ∀ (g c : Nat) (st : Loop) (inp : List Nat),
    inp.length < f → inp.length < g → dispatch f c st inp = dispatch g c st inp := by
  induction f with
  | zero => intro g c st inp h; omega
  | succ f ih =>
    intro g c st inp hf hg
    obtain ⟨g, rfl⟩ : ∃ g1, g = g1 + 1 := ⟨g - 1, by omega⟩
    by_cases hc : c = 0x1b
    · simp only [dispatch, hc, if_true]
      cases he : handle_esc st.rs inp with
      | none => rfl
      | some p =>
        obtain ⟨r, rs1, inp1⟩ := p
        have hl := handle_esc_length _ _ _ _ _ he
        simp only []
        split
        · rfl
        · exact ih _ _ _ _ (by omega) (by omega)
    · simp only [dispatch, hc, if_false]

theorem dispatch_esc_unmatched (f : Nat) (st : Loop) (inp : List Nat) (b : Nat)
    (inp1 : List Nat) (he : handle_esc st.rs inp = some (b, st.rs, inp1)) (hb : b < 256) :
    dispatch (f + 1) 0x1b st inp = dispatch f b st inp1 := by
  have hmod : b % 256 = b := Nat.mod_eq_of_lt hb
  have hne : ¬ (b = 256) := by omega
  simp only [dispatch, if_true, he, hmod, hne, if_false]

theorem key_cycle_resync (st : Loop) (inp : List Nat) (b : Nat) (inp1 : List Nat)
    (hlit : st.rs.literal = 0) (hb : b < 256)
    (he : ∀ rs : Readline, handle_esc rs inp = some (b, rs, inp1)) :
    key_cycle st (0x1b :: inp) = key_cycle st (b :: inp1) := by
  have hl := handle_esc_length _ _ _ _ _ (he st.rs)
  simp only [key_cycle, pass_start, hlit, ne_eq, not_true_eq_false, if_false]
  rw [dispatch_esc_unmatched _ _ _ b inp1 (he _) hb]
  rw [dispatch_fuel inp.length (inp1.length + 1) b _ inp1 hl (by omega)]

/-- C8: while ESC is being decoded (literal flag clear), a byte `b` that
does not continue a recognised sequence after ESC, ESC [, ESC [ 1,
ESC [ 1 ; or ESC [ 1 ; 5 ends the sequence, and the pass behaves exactly as
a pass that reads `b` as its first byte; ESC [ 9 inserts the character 9
with `append_char`. -/
theorem C8_unmatched_byte_is_fresh_input (st : Loop) (b : Nat) (rest : List Nat)
    (hb : b < 256) (hlit : st.rs.literal = 0) :
    (b ≠ 0x5b → key_cycle st (0x1b :: b :: rest) = key_cycle st (b :: rest)) ∧
    (b ∉ [0x41, 0x42, 0x43, 0x44, 0x48, 0x46, 0x35, 0x36, 0x33, 0x31] →
      key_cycle st (0x1b :: 0x5b :: b :: rest) = key_cycle st (b :: rest)) ∧
    (b ≠ 0x3b →
      key_cycle st (0x1b :: 0x5b :: 0x31 :: b :: rest) = key_cycle st (b :: rest)) ∧
    (b ≠ 0x35 →
      key_cycle st (0x1b :: 0x5b :: 0x31 :: 0x3b :: b :: rest) = key_cycle st (b :: rest)) ∧
    (b ∉ [0x41, 0x42, 0x43, 0x44] →
      key_cycle st (0x1b :: 0x5b :: 0x31 :: 0x3b :: 0x35 :: b :: rest)
        = key_cycle st (b :: rest)) ∧
    key_cycle st (0x1b :: 0x5b :: 0x39 :: rest) = some (.next (post
      { rs := append_char { st.rs with hnav := 0, lcankey := 0 } 0x39
        cleolkey := 0
        cleolmode := st.cleolmode }) rest) := by
  refine ⟨?_, ?_, ?_, ?_, ?_, ?_⟩
  · intro h
    exact key_cycle_resync st _ b rest hlit hb (fun rs => by simp [handle_esc, h])
  · intro h
    simp only [List.mem_cons, List.mem_singleton, List.not_mem_nil, or_false, not_or] at h
    exact key_cycle_resync st _ b rest hlit hb
      (fun rs => by simp [handle_esc, handle_esc_bracket, h])
  · intro h
    exact key_cycle_resync st _ b rest hlit hb
      (fun rs => by simp [handle_esc, handle_esc_bracket, handle_esc_ext, h])
  · intro h
    exact key_cycle_resync st _ b rest hlit hb
      (fun rs => by simp [handle_esc, handle_esc_bracket, handle_esc_ext, h])
  · intro h
    simp only [List.mem_cons, List.mem_singleton, List.not_mem_nil, or_false, not_or] at h
    exact key_cycle_resync st _ b rest hlit hb
      (fun rs => by simp [handle_esc, handle_esc_bracket, handle_esc_ext, h])
  · rw [key_cycle_resync st _ 0x39 rest hlit (by decide)
      (fun rs => by simp [handle_esc, handle_esc_bracket])]
    simp [key_cycle, pass_start, hlit, dispatch, single_key]

/-- Witness for C8: on abcd with the cursor on c, the bytes ESC [ 9 give
the same pass as the byte 9 alone: 9 is inserted at the cursor. -/
theorem C8_unmatched_byte_is_fresh_input_witness :
    (0x39 : Nat) < 256 ∧ abcd_at_2.rs.literal = 0 ∧
    observe (key_cycle abcd_at_2 [0x39]) = some ([97, 98, 0x39, 99, 100], 3, []) ∧
    key_cycle abcd_at_2 (0x1b :: 0x5b :: 0x39 :: []) = key_cycle abcd_at_2 (0x39 :: []) ∧
    key_cycle abcd_at_2 (0x1b :: 0x0b :: []) = key_cycle abcd_at_2 (0x0b :: []) :=
  ⟨by decide, rfl, by decide,
   (C8_unmatched_byte_is_fresh_input abcd_at_2 0x39 [] (by decide) rfl).2.1 (by decide),
   (C8_unmatched_byte_is_fresh_input abcd_at_2 0x0b [] (by decide) rfl).1 (by decide)⟩

/-! ## The operations keep the allocation -/

theorem same_shape_refl (a : Readline) : same_shape a a := ⟨rfl, rfl, rfl⟩

theorem same_shape_trans {a b c : Readline} (h1 : same_shape a b) (h2 : same_shape b c) :
    same_shape a c :=
  ⟨h2.1.trans h1.1, h2.2.1.trans h1.2.1, h2.2.2.trans h1.2.2⟩

theorem same_shape_set_hist (rs : Readline) (i : Nat) (b : List Nat) :
    same_shape rs (set_hist rs i b) := by
  simp [same_shape, set_hist]

theorem same_shape_with_flags (rs : Readline) (l h m k : Nat) :
    same_shape rs (with_flags rs l h m k) := ⟨rfl, rfl, rfl⟩

theorem same_shape_delete_char (rs : Readline) : same_shape rs (delete_char rs) := by
  simp only [delete_char]
  split_ifs
  · exact same_shape_refl _
  · exact same_shape_set_hist _ _ _

theorem same_shape_insert_char (rs : Readline) (c : Nat) :
    same_shape rs (insert_char rs c) := same_shape_set_hist _ _ _

theorem same_shape_cursor_left (rs : Readline) : same_shape rs (cursor_left rs) := by
  unfold cursor_left
  split
  · exact ⟨rfl, rfl, rfl⟩
  · exact same_shape_refl _

theorem same_shape_cursor_right (rs : Readline) : same_shape rs (cursor_right rs) := by
  unfold cursor_right
  simp only []
  split
  · exact ⟨rfl, rfl, rfl⟩
  · exact same_shape_refl _

theorem same_shape_cursor_sol (rs : Readline) : same_shape rs (cursor_sol rs) :=
  ⟨rfl, rfl, rfl⟩

theorem same_shape_cursor_eol (rs : Readline) : same_shape rs (cursor_eol rs) :=
  ⟨rfl, rfl, rfl⟩

theorem same_shape_append_char (rs : Readline) (c : Nat) :
    same_shape rs (append_char rs c) :=
  same_shape_trans (same_shape_insert_char rs c) (same_shape_cursor_right _)

theorem same_shape_backspace (rs : Readline) : same_shape rs (backspace rs) := by
  unfold backspace
  split
  · exact same_shape_trans (same_shape_cursor_left rs) (same_shape_delete_char _)
  · exact same_shape_refl _

theorem same_shape_word_right_loop (n e : Nat) : ∀ rs : Readline,
    same_shape rs (word_right_loop n e rs) := by
  induction n with
  | zero => intro rs; exact same_shape_refl _
  | succ n ih =>
    intro rs
    simp only [word_right_loop]
    split
    · split
      · exact same_shape_cursor_right rs
      · exact same_shape_trans (same_shape_cursor_right rs) (ih _)
    · exact same_shape_refl _

theorem same_shape_word_right (rs : Readline) : same_shape rs (word_right rs) :=
  same_shape_trans (same_shape_cursor_right rs) (same_shape_word_right_loop _ _ _)

theorem same_shape_word_left_loop (del n : Nat) : ∀ rs : Readline,
    same_shape rs (word_left_loop del n rs) := by
  induction n with
  | zero => intro rs; exact same_shape_refl _
  | succ n ih =>
    intro rs
    simp only [word_left_loop]
    split
    · split
      · exact same_shape_trans (same_shape_cursor_left rs) (same_shape_cursor_right _)
      · split
        · exact same_shape_trans (same_shape_trans (same_shape_cursor_left rs)
            (same_shape_delete_char _)) (ih _)
        · exact same_shape_trans (same_shape_cursor_left rs) (ih _)
    · exact same_shape_refl _

theorem same_shape_word_left (rs : Readline) (del : Nat) :
    same_shape rs (word_left rs del) := by
  unfold word_left
  simp only []
  split
  · exact same_shape_trans (same_shape_trans (same_shape_cursor_left rs)
      (same_shape_delete_char _)) (same_shape_word_left_loop _ _ _)
  · exact same_shape_trans (same_shape_cursor_left rs) (same_shape_word_left_loop _ _ _)

theorem same_shape_clear_eol (rs : Readline) : same_shape rs (clear_eol rs) :=
  same_shape_trans (same_shape_set_hist _ _ _) (same_shape_cursor_eol _)

theorem same_shape_undo_save (rs : Readline) : same_shape rs (undo_save rs) :=
  ⟨rfl, rfl, rfl⟩

theorem same_shape_undo_restore (rs : Readline) : same_shape rs (undo_restore rs) := by
  simp [same_shape, undo_restore, set_hist]

theorem same_shape_history_up (rs : Readline) : same_shape rs (history_up rs).2 := by
  unfold history_up
  split
  · exact same_shape_refl _
  · split
    · exact same_shape_refl _
    · simp only [same_shape, set_hist, List.length_set]
      split <;> split <;> simp

theorem same_shape_history_down (rs : Readline) : same_shape rs (history_down rs) := by
  unfold history_down
  split
  · exact same_shape_refl _
  · simp only [same_shape, set_hist, List.length_set]
    split <;> simp

theorem same_shape_history_top_loop (n : Nat) : ∀ rs : Readline,
    same_shape rs (history_top_loop n rs) := by
  induction n with
  | zero => intro rs; exact same_shape_refl _
  | succ n ih =>
    intro rs
    simp only [history_top_loop]
    split
    · exact same_shape_trans (same_shape_history_up rs) (ih _)
    · exact same_shape_history_up rs

theorem same_shape_history_top (rs : Readline) : same_shape rs (history_top rs) := by
  unfold history_top
  split
  · exact same_shape_refl _
  · exact same_shape_history_top_loop _ _

theorem same_shape_history_bot (rs : Readline) : same_shape rs (history_bot rs) := by
  unfold history_bot
  split
  · exact same_shape_refl _
  · exact @same_shape_trans rs { rs with histpos := 1 } _ ⟨rfl, rfl, rfl⟩
      (same_shape_history_down _)

theorem same_shape_line_cancel (rs : Readline) : same_shape rs (line_cancel rs) := by
  unfold line_cancel
  simp only []
  split
  · simp [same_shape, undo_save, set_hist]
  · simp [same_shape, undo_restore, set_hist]

theorem same_shape_ite {p : Prop} [Decidable p] {a x y : Readline}
    (hx : same_shape a x) (hy : same_shape a y) : same_shape a (if p then x else y) := by
  split <;> assumption

theorem same_shape_hnav {a b : Readline} (h : same_shape a b) (v : Nat) :
    same_shape a { b with hnav := v } := h

theorem same_shape_scan_key (rs : Readline) (c : Nat) : same_shape rs (scan_key rs c) := by
  unfold scan_key
  repeat' (with_reducible apply same_shape_ite)
  all_goals first
    | exact same_shape_history_up rs
    | exact same_shape_cursor_left rs
    | exact same_shape_cursor_right rs
    | exact same_shape_hnav (same_shape_history_up rs) 1
    | exact same_shape_hnav (same_shape_history_down rs) 1
    | exact same_shape_cursor_sol rs
    | exact same_shape_cursor_eol rs
    | exact same_shape_delete_char rs
    | exact same_shape_hnav (same_shape_history_top rs) 1
    | exact same_shape_hnav (same_shape_history_bot rs) 1
    | exact same_shape_word_left rs 0
    | exact same_shape_word_right rs

theorem some_triple_shape (rs : Readline) (x y : Nat × Readline × List Nat)
    (hxy : some x = some y) (hx : same_shape rs x.2.1) : same_shape rs y.2.1 := by
  simp only [Option.some.injEq] at hxy
  subst hxy
  exact hx

theorem handle_esc_ext_shape (rs : Readline) (inp : List Nat) (r : Nat) (rs1 : Readline)
    (inp1 : List Nat) (h : handle_esc_ext rs inp = some (r, rs1, inp1)) :
    same_shape rs rs1 := by
  rcases inp with _ | ⟨c3, _ | ⟨c4, _ | ⟨c5, i5⟩⟩⟩ <;>
    simp only [handle_esc_ext] at h <;>
    (repeat' split at h) <;>
    first
      | (refine some_triple_shape _ _ _ h ?_
         first
          | exact same_shape_refl rs
          | exact same_shape_hnav (same_shape_history_top rs) 1
          | exact same_shape_hnav (same_shape_history_bot rs) 1
          | exact same_shape_word_right rs
          | exact same_shape_word_left rs 0)
      | (simp at h)

theorem handle_esc_bracket_shape (rs : Readline) (inp : List Nat) (r : Nat) (rs1 : Readline)
    (inp1 : List Nat) (h : handle_esc_bracket rs inp = some (r, rs1, inp1)) :
    same_shape rs rs1 := by
  rcases inp with _ | ⟨c2, i2⟩
  · simp [handle_esc_bracket] at h
  · simp only [handle_esc_bracket] at h
    repeat' split at h
    all_goals first
      | (exact handle_esc_ext_shape _ _ _ _ _ h)
      | (refine some_triple_shape _ _ _ h ?_
         first
          | exact same_shape_refl rs
          | exact same_shape_hnav (same_shape_history_up rs) 1
          | exact same_shape_hnav (same_shape_history_down rs) 1
          | exact same_shape_cursor_right rs
          | exact same_shape_cursor_left rs
          | exact same_shape_cursor_sol rs
          | exact same_shape_cursor_eol rs
          | exact same_shape_delete_char rs)
      | (simp at h)

theorem handle_esc_shape (rs : Readline) (inp : List Nat) (r : Nat) (rs1 : Readline)
    (inp1 : List Nat) (h : handle_esc rs inp = some (r, rs1, inp1)) :
    same_shape rs rs1 := by
  rcases inp with _ | ⟨c1, i1⟩
  · simp [handle_esc] at h
  · simp only [handle_esc] at h
    split at h
    · exact some_triple_shape _ _ _ h (same_shape_refl rs)
    · exact handle_esc_bracket_shape _ _ _ _ _ h

theorem step_next_eq {a b : Loop} {i j : List Nat}
    (h : some (Step.next a i) = some (Step.next b j)) : a = b ∧ i = j := by
  simpa using h

theorem same_shape_post (st : Loop) : same_shape st.rs (post st).rs := by
  simp only [post, same_shape]
  split <;> split <;> simp

theorem same_shape_loop_ite {p : Prop} [Decidable p] {a : Readline} {x y : Loop}
    (hx : same_shape a x.rs) (hy : same_shape a y.rs) :
    same_shape a (if p then x else y).rs := by
  split <;> assumption

theorem same_shape_single_key (c : Nat) (st : Loop) :
    same_shape st.rs (single_key c st).rs := by
  unfold single_key
  repeat' (with_reducible apply same_shape_loop_ite)
  all_goals first
    | exact same_shape_refl _
    | exact same_shape_line_cancel _
    | exact same_shape_backspace _
    | exact same_shape_delete_char _
    | exact same_shape_cursor_sol _
    | exact same_shape_cursor_left _
    | exact same_shape_cursor_eol _
    | exact same_shape_cursor_right _
    | exact same_shape_hnav (same_shape_history_down _) 1
    | exact same_shape_hnav (same_shape_history_up _) 1
    | exact same_shape_append_char _ _
    | exact same_shape_ite (same_shape_trans (same_shape_undo_save _) (same_shape_clear_eol _))
        (same_shape_undo_restore _)

/-- A pass of the `switch` that ends at the `break` keeps the allocation
and does not give back input. -/
theorem dispatch_next (f : Nat) : ∀ (c : Nat) (st : Loop) (inp : List Nat) (st1 : Loop)
    (inp1 : List Nat), dispatch f c st inp = some (.next st1 inp1) →
    same_shape st.rs st1.rs ∧ inp1.length ≤ inp.length := by
  induction f with
  | zero => intro c st inp st1 inp1 h; simp [dispatch] at h
  | succ f ih =>
    intro c st inp st1 inp1 h
    by_cases hc : c = 0x1b
    · simp only [dispatch, hc, if_true] at h
      cases he : handle_esc st.rs inp with
      | none => simp [he] at h
      | some p =>
        obtain ⟨r, rs1, inp2⟩ := p
        have hl := handle_esc_length _ _ _ _ _ he
        have hs := handle_esc_shape _ _ _ _ _ he
        simp only [he] at h
        split at h
        · obtain ⟨rfl, rfl⟩ := step_next_eq h
          exact ⟨hs, by omega⟩
        · obtain ⟨h1, h2⟩ := ih _ _ _ _ _ h
          exact ⟨same_shape_trans hs h1, by omega⟩
    · simp only [dispatch, hc, if_false] at h
      split at h
      · cases inp with
        | nil => simp at h
        | cons c1 inp2 =>
          obtain ⟨rfl, rfl⟩ := step_next_eq h
          exact ⟨same_shape_scan_key _ _, by simp⟩
      · split at h
        · simp at h
        · obtain ⟨rfl, rfl⟩ := step_next_eq h
          exact ⟨same_shape_single_key _ _, le_refl _⟩

theorem key_cycle_next (st : Loop) (inp : List Nat) (st1 : Loop) (inp1 : List Nat)
    (h : key_cycle st inp = some (.next st1 inp1)) :
    same_shape st.rs st1.rs ∧ inp1.length < inp.length := by
  cases inp with
  | nil => simp [key_cycle, pass_start] at h
  | cons c inp2 =>
    by_cases hlit : st.rs.literal = 0
    · simp only [key_cycle, pass_start, hlit, ne_eq, not_true_eq_false, if_false] at h
      split at h
      · rename_i st2 inp3 hd
        obtain ⟨rfl, rfl⟩ := step_next_eq h
        obtain ⟨h1, h2⟩ := dispatch_next _ _ _ _ _ _ hd
        refine ⟨same_shape_trans h1 (same_shape_post _), ?_⟩
        simp only [List.length_cons]; omega
      · rename_i hno
        exact absurd h (hno _ _)
    · rw [key_cycle_literal st c inp2 hlit] at h
      obtain ⟨rfl, rfl⟩ := step_next_eq h
      refine ⟨?_, by simp⟩
      split
      · exact ⟨rfl, rfl, rfl⟩
      · exact @same_shape_trans _
          (append_char { st.rs with hnav := 0, lcankey := 0, literal := 0 } c) _
          (@same_shape_trans _ { st.rs with hnav := 0, lcankey := 0, literal := 0 } _
            ⟨rfl, rfl, rfl⟩ (same_shape_append_char _ _))
          (same_shape_post _)

theorem cycles_next (n : Nat) : ∀ (st : Loop) (inp : List Nat) (st1 : Loop) (inp1 : List Nat),
    cycles n st inp = some (.next st1 inp1) →
    same_shape st.rs st1.rs ∧ inp1.length + n ≤ inp.length := by
  induction n with
  | zero =>
    intro st inp st1 inp1 h
    simp only [cycles] at h
    obtain ⟨rfl, rfl⟩ := step_next_eq h
    exact ⟨same_shape_refl _, le_refl _⟩
  | succ n ih =>
    intro st inp st1 inp1 h
    cases hk : key_cycle st inp with
    | none => simp [cycles, hk] at h
    | some r =>
      cases r with
      | next st2 inp2 =>
        rw [cycles_succ_next _ _ _ _ _ hk] at h
        obtain ⟨h1, h2⟩ := key_cycle_next _ _ _ _ hk
        obtain ⟨h3, h4⟩ := ih _ _ _ _ h
        exact ⟨same_shape_trans h1 h3, by omega⟩
      | done rs2 inp2 => simp [cycles, hk] at h

theorem cycles_done_succ (n : Nat) : ∀ (st : Loop) (inp : List Nat) (rs1 : Readline)
    (inp1 : List Nat), cycles n st inp = some (.done rs1 inp1) →
    cycles (n + 1) st inp = some (.done rs1 inp1) := by
  induction n with
  | zero => intro st inp rs1 inp1 h; simp [cycles] at h
  | succ n ih =>
    intro st inp rs1 inp1 h
    cases hk : key_cycle st inp with
    | none => simp [cycles, hk] at h
    | some r =>
      cases r with
      | next st2 inp2 =>
        rw [cycles_succ_next _ _ _ _ _ hk] at h ⊢
        exact ih _ _ _ _ h
      | done rs2 inp2 =>
        simp only [cycles, hk] at h ⊢
        exact h

theorem cycles_done_le (n m : Nat) (st : Loop) (inp : List Nat) (rs1 : Readline)
    (inp1 : List Nat) (h : cycles n st inp = some (.done rs1 inp1)) (hm : n ≤ m) :
    cycles m st inp = some (.done rs1 inp1) := by
  induction m with
  | zero =>
    have : n = 0 := by omega
    subst this; exact h
  | succ m ih =>
    by_cases hn : n = m + 1
    · subst hn; exact h
    · exact cycles_done_succ _ _ _ _ _ (ih (by omega))

/-! ## Enter -/

theorem enter_key_text (rs : Readline) (hlen : rs.history.length = rs.histsize)
    (h2 : 2 ≤ rs.histsize) :
    slot (enter_key rs) 0 = slot rs 0 ∧ (enter_key rs).histpos = 0 := by
  unfold enter_key
  simp only []
  split
  · have hp := hist_push_history { rs with histpos := 0 } 0 hlen h2 (by show 0 < rs.histsize; omega)
    simp only [if_true] at hp
    refine ⟨?_, rfl⟩
    show cstr (hist (push_history { rs with histpos := 0 }) 0) = cstr (hist rs 0)
    rw [hp, cstr_strcpy]
    rfl
  · exact ⟨rfl, rfl⟩

theorem key_cycle_enter (st : Loop) (e : Nat) (rest : List Nat)
    (hlit : st.rs.literal = 0) (he : e = 0x0d ∨ e = 0x0a) :
    key_cycle st (e :: rest)
      = some (.done (enter_key { st.rs with hnav := 0, lcankey := 0 }) rest) := by
  rcases he with he | he <;> subst he <;> simp [key_cycle, pass_start, dispatch, hlit]

/-- An Enter at the start of a pass: when, after `n` complete passes of the
loop over the input `inp`, the next byte is an Enter (CR or LF) and the
literal flag is clear, `readline` returns; the string it returns is the
text that the live line held when the Enter was read, slot 0 still holds
that text, and navPos is 0.  This holds whether or not `enter_key` pushed
the line.  The struct passed in has its `histsize >= 2` history buffers. -/
theorem readline_returns_at_enter (rs0 : Readline) (inp : List Nat) (n : Nat)
    (st : Loop) (e : Nat) (rest : List Nat)
    (hlen : rs0.history.length = rs0.histsize) (h2 : 2 ≤ rs0.histsize)
    (hrun : cycles n (readline_init rs0) inp = some (.next st (e :: rest)))
    (hlit : st.rs.literal = 0) (he : e = 0x0d ∨ e = 0x0a) :
    ∃ rs1 : Readline, readline rs0 inp = some (slot st.rs 0, rs1, rest) ∧
      rs1.histpos = 0 ∧ slot rs1 0 = slot st.rs 0 := by
  obtain ⟨hs, hn⟩ := cycles_next _ _ _ _ _ hrun
  have hs0 : same_shape rs0 (readline_init rs0).rs := by
    simp [same_shape, readline_init, set_hist]
  obtain ⟨hl1, hz1, _⟩ := same_shape_trans hs0 hs
  have hlen1 : ({ st.rs with hnav := 0, lcankey := 0 } : Readline).history.length
      = ({ st.rs with hnav := 0, lcankey := 0 } : Readline).histsize := by
    show st.rs.history.length = st.rs.histsize
    omega
  have h21 : 2 ≤ ({ st.rs with hnav := 0, lcankey := 0 } : Readline).histsize := by
    show 2 ≤ st.rs.histsize
    omega
  obtain ⟨ht, hp⟩ := enter_key_text _ hlen1 h21
  have hdone : cycles (n + 1) (readline_init rs0) inp
      = some (.done (enter_key { st.rs with hnav := 0, lcankey := 0 }) rest) := by
    rw [cycles_add n 1 _ _ _ _ hrun]
    simp only [cycles]
    rw [key_cycle_enter st e rest hlit he]
  have hfull := cycles_done_le (n + 1) (inp.length + 1) _ _ _ _ hdone
    (by simp only [List.length_cons] at hn; omega)
  refine ⟨enter_key { st.rs with hnav := 0, lcankey := 0 }, ?_, hp, ?_⟩
  · simp only [readline, hfull]
    rw [ht]; rfl
  · rw [ht]; rfl

/-- Example: a fresh editor of depth 3 reads a, b, Enter: after two passes
the line is ab and the next byte is the Enter; `readline` returns ab. -/
theorem readline_returns_at_enter_example :
    cycles 2 (readline_init (MakeReadline 8 3 0)) [97, 98, 0x0d]
      = some (.next ab_typed [0x0d]) ∧
    (readline (MakeReadline 8 3 0) [97, 98, 0x0d]).map (fun r => (r.1, r.2.2))
      = some ([97, 98], []) ∧
    (∃ rs1 : Readline, readline (MakeReadline 8 3 0) [97, 98, 0x0d]
        = some ([97, 98], rs1, []) ∧ rs1.histpos = 0 ∧ slot rs1 0 = [97, 98]) :=
  ⟨by decide, by decide,
   readline_returns_at_enter (MakeReadline 8 3 0) [97, 98, 0x0d] 2 ab_typed 0x0d []
     (by decide) (by decide) (by decide) rfl (Or.inl rfl)⟩

/-! ## The toggles of the clear keys -/

theorem same_flags_refl (a : Readline) : same_flags a a := ⟨rfl, rfl, rfl⟩

theorem same_flags_trans {a b c : Readline} (h1 : same_flags a b) (h2 : same_flags b c) :
    same_flags a c :=
  ⟨h2.1.trans h1.1, h2.2.1.trans h1.2.1, h2.2.2.trans h1.2.2⟩

theorem same_flags_of_comm (f : Readline → Readline)
    (hf : ∀ rs l h m k, f (with_flags rs l h m k) = with_flags (f rs) l h m k)
    (rs : Readline) : same_flags rs (f rs) := by
  have h := hf rs rs.literal rs.hnav rs.lcanmode rs.lcankey
  rw [with_flags_self] at h
  refine ⟨?_, ?_, ?_⟩
  · rw [h]; rfl
  · rw [h]; rfl
  · rw [h]; rfl

theorem same_flags_hnav {a b : Readline} (h : same_flags a b) (v : Nat) :
    same_flags a { b with hnav := v } := h

theorem same_flags_ite {p : Prop} [Decidable p] {a x y : Readline}
    (hx : same_flags a x) (hy : same_flags a y) : same_flags a (if p then x else y) := by
  split <;> assumption

theorem same_flags_history_up (rs : Readline) : same_flags rs (history_up rs).2 :=
  same_flags_of_comm (fun r => (history_up r).2)
    (fun r l h m k => by simp only [history_up_flags]) rs

theorem same_flags_scan_key (rs : Readline) (c : Nat) : same_flags rs (scan_key rs c) := by
  unfold scan_key
  repeat' (with_reducible apply same_flags_ite)
  all_goals first
    | exact same_flags_history_up rs
    | exact same_flags_of_comm _ cursor_left_flags rs
    | exact same_flags_of_comm _ cursor_right_flags rs
    | exact same_flags_hnav (same_flags_history_up rs) 1
    | exact same_flags_hnav (same_flags_of_comm _ history_down_flags rs) 1
    | exact same_flags_of_comm _ cursor_sol_flags rs
    | exact same_flags_of_comm _ cursor_eol_flags rs
    | exact same_flags_of_comm _ delete_char_flags rs
    | exact same_flags_hnav (same_flags_of_comm _ history_top_flags rs) 1
    | exact same_flags_hnav (same_flags_of_comm _ history_bot_flags rs) 1
    | exact same_flags_of_comm (fun r => word_left r 0)
        (fun r l h m k => word_left_flags r 0 l h m k) rs
    | exact same_flags_of_comm _ word_right_flags rs

theorem some_triple_flags (rs : Readline) (x y : Nat × Readline × List Nat)
    (hxy : some x = some y) (hx : same_flags rs x.2.1 ∧ (x.1 = 256 ∨ x.2.1 = rs)) :
    same_flags rs y.2.1 ∧ (y.1 = 256 ∨ y.2.1 = rs) := by
  simp only [Option.some.injEq] at hxy
  subst hxy
  exact hx

theorem handle_esc_ext_flags (rs : Readline) (inp : List Nat) (r : Nat) (rs1 : Readline)
    (inp1 : List Nat) (h : handle_esc_ext rs inp = some (r, rs1, inp1)) :
    same_flags rs rs1 ∧ (r = 256 ∨ rs1 = rs) := by
  rcases inp with _ | ⟨c3, _ | ⟨c4, _ | ⟨c5, i5⟩⟩⟩ <;>
    simp only [handle_esc_ext] at h <;>
    (repeat' split at h) <;>
    first
      | (refine some_triple_flags _ _ _ h ⟨?_, ?_⟩
         · first
            | exact same_flags_refl rs
            | exact same_flags_hnav (same_flags_of_comm _ history_top_flags rs) 1
            | exact same_flags_hnav (same_flags_of_comm _ history_bot_flags rs) 1
            | exact same_flags_of_comm _ word_right_flags rs
            | exact same_flags_of_comm (fun r => word_left r 0)
                (fun r l h m k => word_left_flags r 0 l h m k) rs
         · first
            | exact Or.inl rfl
            | exact Or.inr rfl)
      | (simp at h)

theorem handle_esc_bracket_flags (rs : Readline) (inp : List Nat) (r : Nat) (rs1 : Readline)
    (inp1 : List Nat) (h : handle_esc_bracket rs inp = some (r, rs1, inp1)) :
    same_flags rs rs1 ∧ (r = 256 ∨ rs1 = rs) := by
  rcases inp with _ | ⟨c2, i2⟩
  · simp [handle_esc_bracket] at h
  · simp only [handle_esc_bracket] at h
    repeat' split at h
    all_goals first
      | (exact handle_esc_ext_flags _ _ _ _ _ h)
      | (refine some_triple_flags _ _ _ h ⟨?_, ?_⟩
         · first
            | exact same_flags_refl rs
            | exact same_flags_hnav (same_flags_history_up rs) 1
            | exact same_flags_hnav (same_flags_of_comm _ history_down_flags rs) 1
            | exact same_flags_of_comm _ cursor_right_flags rs
            | exact same_flags_of_comm _ cursor_left_flags rs
            | exact same_flags_of_comm _ cursor_sol_flags rs
            | exact same_flags_of_comm _ cursor_eol_flags rs
            | exact same_flags_of_comm _ delete_char_flags rs
         · first
            | exact Or.inl rfl
            | exact Or.inr rfl)
      | (simp at h)

theorem handle_esc_flags (rs : Readline) (inp : List Nat) (r : Nat) (rs1 : Readline)
    (inp1 : List Nat) (h : handle_esc rs inp = some (r, rs1, inp1)) :
    same_flags rs rs1 ∧ (r = 256 ∨ rs1 = rs) := by
  rcases inp with _ | ⟨c1, i1⟩
  · simp [handle_esc] at h
  · simp only [handle_esc] at h
    split at h
    · exact some_triple_flags _ _ _ h ⟨same_flags_refl rs, Or.inr rfl⟩
    · exact handle_esc_bracket_flags _ _ _ _ _ h

theorem plain_ite {p : Prop} [Decidable p] {a x y : Loop}
    (hx : p → Plain a x) (hy : ¬ p → Plain a y) : Plain a (if p then x else y) := by
  split
  · exact hx ‹_›
  · exact hy ‹_›

theorem plain_single_key (c : Nat) (st : Loop)
    (hk : c ≠ 0x0b) (hu : c ≠ 0x15) (hv : c ≠ 0x16) : Plain st (single_key c st) := by
  unfold single_key
  repeat' (first | with_reducible apply plain_ite | intro _)
  all_goals first
    | exact absurd ‹c = 0x0b› hk
    | exact absurd ‹c = 0x15› hu
    | exact absurd ‹c = 0x16› hv
    | exact ⟨rfl, rfl, same_flags_refl _⟩
    | exact ⟨rfl, rfl, same_flags_of_comm _ backspace_flags _⟩
    | exact ⟨rfl, rfl, same_flags_of_comm _ delete_char_flags _⟩
    | exact ⟨rfl, rfl, same_flags_of_comm _ cursor_sol_flags _⟩
    | exact ⟨rfl, rfl, same_flags_of_comm _ cursor_left_flags _⟩
    | exact ⟨rfl, rfl, same_flags_of_comm _ cursor_eol_flags _⟩
    | exact ⟨rfl, rfl, same_flags_of_comm _ cursor_right_flags _⟩
    | exact ⟨rfl, rfl, same_flags_hnav (same_flags_of_comm _ history_down_flags _) 1⟩
    | exact ⟨rfl, rfl, same_flags_hnav (same_flags_history_up _) 1⟩

theorem effect_of_plain (a x : Loop) (h : Plain a x) (h0 : a.cleolkey = 0)
    (h1 : a.rs.lcankey = 0) (h2 : a.rs.literal = 0) : KeyEffect a x := by
  obtain ⟨hk, hm, hl, hcm, hck⟩ := h
  have e1 : x.cleolkey = 0 := by rw [hk, h0]
  have e2 : x.rs.lcankey = 0 := by rw [hck, h1]
  have e3 : x.rs.literal = 0 := by rw [hl, h2]
  refine ⟨Or.inl e1, Or.inl e2, ?_, ?_, fun _ => hm, fun _ => hcm, ?_⟩
  · intro h; omega
  · intro h; omega
  · intro h; exact absurd e3 h

theorem single_key_cleol (st : Loop) :
    single_key 0x0b st =
      { rs := if st.cleolmode = 0 then clear_eol (undo_save st.rs) else undo_restore st.rs
        cleolmode := Nat.xor st.cleolmode 1
        cleolkey := 1 } := by
  simp [single_key]

theorem single_key_lcan (st : Loop) :
    single_key 0x15 st = { st with rs := line_cancel st.rs } := by
  simp [single_key]

theorem single_key_literal (st : Loop) :
    single_key 0x16 st
      = { st with rs := { st.rs with literal := Nat.xor st.rs.literal 1 } } := by
  simp [single_key]

theorem same_flags_cleol (m : Nat) (rs : Readline) :
    same_flags rs (if m = 0 then clear_eol (undo_save rs) else undo_restore rs) := by
  split
  · exact ⟨rfl, rfl, rfl⟩
  · exact ⟨rfl, rfl, rfl⟩

theorem line_cancel_fields (rs : Readline) :
    (line_cancel rs).lcankey = 1 ∧ (line_cancel rs).literal = rs.literal ∧
    (line_cancel rs).lcanmode = Nat.xor rs.lcanmode 1 := by
  have h : same_flags rs (if rs.lcanmode = 0 then
      { set_hist (undo_save rs) 0 (wr (hist (undo_save rs) 0) 0 0) with curpos := 0 }
      else undo_restore rs) := by
    split
    · exact ⟨rfl, rfl, rfl⟩
    · exact ⟨rfl, rfl, rfl⟩
  refine ⟨rfl, h.1, ?_⟩
  show Nat.xor (if rs.lcanmode = 0 then
      { set_hist (undo_save rs) 0 (wr (hist (undo_save rs) 0) 0 0) with curpos := 0 }
      else undo_restore rs).lcanmode 1 = Nat.xor rs.lcanmode 1
  rw [h.2.1]

theorem single_key_effect (c : Nat) (st : Loop) (h0 : st.cleolkey = 0)
    (h1 : st.rs.lcankey = 0) (h2 : st.rs.literal = 0) : KeyEffect st (single_key c st) := by
  by_cases hk : c = 0x0b
  · subst hk
    have hf := same_flags_cleol st.cleolmode st.rs
    rw [single_key_cleol]
    obtain ⟨f1, f2, f3⟩ := hf
    refine ⟨Or.inr rfl, Or.inl (by rw [f3, h1]), fun _ => rfl, ?_, ?_, fun _ => f2, ?_⟩
    · intro h
      have : (if st.cleolmode = 0 then clear_eol (undo_save st.rs)
        else undo_restore st.rs).lcankey = 1 := h
      rw [f3, h1] at this
      omega
    · intro h
      have : (1 : Nat) = 0 := h
      omega
    · intro h
      have : (if st.cleolmode = 0 then clear_eol (undo_save st.rs)
        else undo_restore st.rs).literal ≠ 0 := h
      rw [f1, h2] at this
      exact absurd rfl this
  · by_cases hu : c = 0x15
    · subst hu
      obtain ⟨g1, g2, g3⟩ := line_cancel_fields st.rs
      rw [single_key_lcan]
      refine ⟨Or.inl h0, Or.inr g1, ?_, fun _ => rfl, fun _ => rfl, ?_, ?_⟩
      · intro h
        have : st.cleolkey = 1 := h
        omega
      · intro h
        have : (line_cancel st.rs).lcankey = 0 := h
        omega
      · intro h
        have : (line_cancel st.rs).literal ≠ 0 := h
        rw [g2, h2] at this
        exact absurd rfl this
    · by_cases hv : c = 0x16
      · subst hv
        rw [single_key_literal]
        refine ⟨Or.inl h0, Or.inl h1, ?_, ?_, fun _ => rfl, fun _ => rfl, fun _ => ⟨h0, h1⟩⟩
        · intro h
          have : st.cleolkey = 1 := h
          omega
        · intro h
          have : st.rs.lcankey = 1 := h
          omega
      · exact effect_of_plain _ _ (plain_single_key c st hk hu hv) h0 h1 h2

/-- The toggles after the `switch`, by induction over the `goto again`
jumps. -/
theorem dispatch_effect (f : Nat) : ∀ (c : Nat) (st : Loop) (inp : List Nat) (st1 : Loop)
    (inp1 : List Nat), dispatch f c st inp = some (.next st1 inp1) →
    st.cleolkey = 0 → st.rs.lcankey = 0 → st.rs.literal = 0 → KeyEffect st st1 := by
  induction f with
  | zero => intro c st inp st1 inp1 h; simp [dispatch] at h
  | succ f ih =>
    intro c st inp st1 inp1 h h0 h1 h2
    by_cases hc : c = 0x1b
    · simp only [dispatch, hc, if_true] at h
      cases he : handle_esc st.rs inp with
      | none => simp [he] at h
      | some p =>
        obtain ⟨r, rs1, inp2⟩ := p
        obtain ⟨⟨f1, f2, f3⟩, hr⟩ := handle_esc_flags _ _ _ _ _ he
        simp only [he] at h
        have hne : ¬ (r % 256 = 256) := by omega
        simp only [hne, if_false] at h
        rcases hr with hr | hr
        · have h256 : (r : Nat) % 256 = 0 := by rw [hr]
          rw [h256] at h
          cases f with
          | zero => simp [dispatch] at h
          | succ f =>
            simp only [dispatch] at h
            have hx : ¬ ((0 : Nat) = 27) := by decide
            simp only [hx, if_false, if_true] at h
            cases inp2 with
            | nil => simp at h
            | cons k inp3 =>
              obtain ⟨rfl, rfl⟩ := step_next_eq h
              obtain ⟨g1, g2, g3⟩ := same_flags_scan_key rs1 k
              apply effect_of_plain _ _ _ h0 h1 h2
              exact ⟨rfl, rfl, g1.trans f1, g2.trans f2, g3.trans f3⟩
        · have e : ({ st with rs := rs1 } : Loop) = st := by rw [hr]
          rw [e] at h
          exact ih _ _ _ _ _ h h0 h1 h2
    · simp only [dispatch, hc, if_false] at h
      split at h
      · cases inp with
        | nil => simp at h
        | cons c1 inp2 =>
          obtain ⟨rfl, rfl⟩ := step_next_eq h
          apply effect_of_plain _ _ _ h0 h1 h2
          exact ⟨rfl, rfl, same_flags_scan_key _ _⟩
      · split at h
        · simp at h
        · obtain ⟨rfl, rfl⟩ := step_next_eq h
          exact single_key_effect _ _ h0 h1 h2

theorem post_fields (st : Loop) :
    (post st).cleolkey = st.cleolkey ∧
    (post st).cleolmode = (if st.cleolkey = 0 then 0 else st.cleolmode) ∧
    (post st).rs.lcankey = st.rs.lcankey ∧
    (post st).rs.literal = st.rs.literal ∧
    (post st).rs.lcanmode = (if st.rs.lcankey = 0 then 0 else st.rs.lcanmode) := by
  refine ⟨rfl, rfl, ?_, ?_, ?_⟩
  · simp only [post]
    split <;> split <;> rfl
  · simp only [post]
    split <;> split <;> rfl
  · simp only [post]
    split <;> split <;> simp_all

theorem key_cycle_decoded (st : Loop) (c : Nat) (inp : List Nat)
    (hlit : st.rs.literal = 0) :
    key_cycle st (c :: inp) =
      match dispatch (inp.length + 1) c (pass_start st) inp with
      | some (.next st2 inp2) => some (.next (post st2) inp2)
      | r => r := by
  have h : ¬ ((pass_start st).rs.literal ≠ 0) := fun h => h hlit
  simp only [key_cycle, h, if_false]

theorem key_cycle_single (st : Loop) (c : Nat) (rest : List Nat)
    (hlit : st.rs.literal = 0) (h1 : c ≠ 0x1b) (h2 : c ≠ 0) (h3 : c ≠ 0x0d) (h4 : c ≠ 0x0a) :
    key_cycle st (c :: rest) = some (.next (post (single_key c (pass_start st))) rest) := by
  rw [key_cycle_decoded st c rest hlit]
  simp [dispatch, h1, h2, h3, h4]

theorem xor_one_cases (m : Nat) (h : m = 0 ∨ m = 1) :
    (Nat.xor m 1 = 0 ∨ Nat.xor m 1 = 1) ∧ (Nat.xor m 1 ≠ 0 ↔ m = 0) := by
  rcases h with h | h <;> subst h <;> decide

/-- One pass of the loop and the two toggles. -/
theorem key_cycle_toggles (st0 : Loop) (inp0 : List Nat) (st1 : Loop) (inp1 : List Nat)
    (hI : Toggles st0) (h : key_cycle st0 inp0 = some (.next st1 inp1)) :
    Toggles st1 ∧
    (st1.cleolkey = 0 ∨ st1.cleolkey = 1) ∧ (st1.rs.lcankey = 0 ∨ st1.rs.lcankey = 1) ∧
    (st1.cleolkey = 1 →
      st0.rs.literal = 0 ∧ key_cycle st0 (0x0b :: inp1) = some (.next st1 inp1)) ∧
    (st1.rs.lcankey = 1 →
      st0.rs.literal = 0 ∧ key_cycle st0 (0x15 :: inp1) = some (.next st1 inp1)) ∧
    (st1.cleolmode = if st1.cleolkey = 1 then Nat.xor st0.cleolmode 1 else 0) ∧
    (st1.rs.lcanmode = if st1.rs.lcankey = 1 then Nat.xor st0.rs.lcanmode 1 else 0) := by
  obtain ⟨hm1, hm2, hm3⟩ := hI
  cases inp0 with
  | nil => simp [key_cycle] at h
  | cons c inp2 =>
    by_cases hlit : st0.rs.literal = 0
    · rw [key_cycle_decoded st0 c inp2 hlit] at h
      split at h
      · rename_i st2 inp3 hd
        obtain ⟨rfl, rfl⟩ := step_next_eq h
        obtain ⟨k1, k2, k3, k4, k5, k6, k7⟩ :=
          dispatch_effect _ _ (pass_start st0) _ _ _ hd rfl rfl hlit
        obtain ⟨p1, p2, p3, p4, p5⟩ := post_fields st2
        have hck : st2.cleolkey = 1 → (post st2).cleolmode = Nat.xor st0.cleolmode 1 := by
          intro hk
          rw [p2, k3 hk, single_key_cleol]
          rfl
        have hlk : st2.rs.lcankey = 1 →
            (post st2).rs.lcanmode = Nat.xor st0.rs.lcanmode 1 := by
          intro hk
          rw [p5]
          have e := k4 hk
          have hk1 : ¬ (st2.rs.lcankey = 0) := by omega
          simp only [hk1, if_false]
          rw [e, single_key_lcan]
          exact (line_cancel_fields _).2.2
        have hcm : (post st2).cleolmode
            = if st2.cleolkey = 1 then Nat.xor st0.cleolmode 1 else 0 := by
          rcases k1 with k | k
          · rw [p2]; simp [k]
          · rw [hck k]; simp [k]
        have hlm : (post st2).rs.lcanmode
            = if st2.rs.lcankey = 1 then Nat.xor st0.rs.lcanmode 1 else 0 := by
          rcases k2 with k | k
          · rw [p5]; simp [k]
          · rw [hlk k]; simp [k]
        refine ⟨⟨?_, ?_, ?_⟩, ?_, ?_, ?_, ?_, ?_, ?_⟩
        · rw [hcm]
          split
          · exact (xor_one_cases _ hm1).1
          · exact Or.inl rfl
        · rw [hlm]
          split
          · exact (xor_one_cases _ hm2).1
          · exact Or.inl rfl
        · intro hl
          rw [p4] at hl
          obtain ⟨z1, z2⟩ := k7 hl
          rw [hcm, hlm]
          simp [z1, z2]
        · rw [p1]; exact k1
        · rw [p3]; exact k2
        · intro hk
          rw [p1] at hk
          refine ⟨hlit, ?_⟩
          rw [key_cycle_single st0 0x0b _ hlit (by decide) (by decide) (by decide) (by decide)]
          rw [← k3 hk]
        · intro hk
          rw [p3] at hk
          refine ⟨hlit, ?_⟩
          rw [key_cycle_single st0 0x15 _ hlit (by decide) (by decide) (by decide) (by decide)]
          rw [← k4 hk]
        · rw [p1]; exact hcm
        · rw [p3]; exact hlm
      · rename_i hno
        exact absurd h (hno _ _)
    · rw [key_cycle_literal st0 c inp2 hlit] at h
      obtain ⟨rfl, rfl⟩ := step_next_eq h
      obtain ⟨z1, z2⟩ := hm3 hlit
      by_cases hc : c = 0
      · rw [if_pos hc]
        refine ⟨⟨Or.inl z1, Or.inl z2, fun hl => absurd rfl hl⟩, Or.inl rfl, Or.inl rfl,
          ?_, ?_, ?_, ?_⟩
        · intro hk
          have : (0 : Nat) = 1 := hk
          omega
        · intro hk
          have : (0 : Nat) = 1 := hk
          omega
        · show st0.cleolmode = if (0 : Nat) = 1 then Nat.xor st0.cleolmode 1 else 0
          simp [z1]
        · show st0.rs.lcanmode = if (0 : Nat) = 1 then Nat.xor st0.rs.lcanmode 1 else 0
          simp [z2]
      · rw [if_neg hc]
        have e : ({ st0.rs with hnav := 0, lcankey := 0, literal := 0 } : Readline)
            = with_flags st0.rs 0 0 st0.rs.lcanmode 0 := rfl
        rw [e, append_char_flags]
        obtain ⟨p1, p2, p3, p4, p5⟩ := post_fields
          (Loop.mk (with_flags (append_char st0.rs c) 0 0 st0.rs.lcanmode 0) 0 st0.cleolmode)
        have q2 : (post (Loop.mk (with_flags (append_char st0.rs c) 0 0 st0.rs.lcanmode 0) 0 st0.cleolmode)).cleolmode = 0 := by
          rw [p2]; rfl
        have q3 : (post (Loop.mk (with_flags (append_char st0.rs c) 0 0 st0.rs.lcanmode 0) 0 st0.cleolmode)).rs.lcankey = 0 := by
          rw [p3]; rfl
        have q4 : (post (Loop.mk (with_flags (append_char st0.rs c) 0 0 st0.rs.lcanmode 0) 0 st0.cleolmode)).rs.literal = 0 := by
          rw [p4]; rfl
        have q5 : (post (Loop.mk (with_flags (append_char st0.rs c) 0 0 st0.rs.lcanmode 0) 0 st0.cleolmode)).rs.lcanmode = 0 := by
          rw [p5]; rfl
        refine ⟨⟨Or.inl q2, Or.inl q5, fun hl => absurd q4 hl⟩, Or.inl p1, Or.inl q3,
          ?_, ?_, ?_, ?_⟩
        · intro hk
          rw [p1] at hk
          have : (0 : Nat) = 1 := hk
          omega
        · intro hk
          rw [q3] at hk
          omega
        · rw [q2, p1]; rfl
        · rw [q5, q3]; rfl

theorem toggles_init (rs0 : Readline) : Toggles (readline_init rs0) := by
  refine ⟨Or.inl rfl, Or.inl ?_, fun _ => ⟨rfl, ?_⟩⟩
  · simp [readline_init, set_hist]
  · simp [readline_init, set_hist]

theorem cycles_toggles (n : Nat) : ∀ (st : Loop) (inp : List Nat) (st1 : Loop)
    (inp1 : List Nat), Toggles st → cycles n st inp = some (.next st1 inp1) → Toggles st1 := by
  induction n with
  | zero =>
    intro st inp st1 inp1 hI h
    simp only [cycles] at h
    obtain ⟨rfl, rfl⟩ := step_next_eq h
    exact hI
  | succ n ih =>
    intro st inp st1 inp1 hI h
    cases hk : key_cycle st inp with
    | none => simp [cycles, hk] at h
    | some r =>
      cases r with
      | next st2 inp2 =>
        rw [cycles_succ_next _ _ _ _ _ hk] at h
        exact ih _ _ _ _ (key_cycle_toggles _ _ _ _ hI hk).1 h
      | done rs2 inp2 => simp [cycles, hk] at h

theorem post_core (st : Loop) :
    (post st).rs.history = st.rs.history ∧ (post st).rs.curpos = st.rs.curpos ∧
    (post st).rs.undoline = st.rs.undoline ∧ (post st).rs.undocurpos = st.rs.undocurpos := by
  simp only [post]
  refine ⟨?_, ?_, ?_, ?_⟩ <;> split <;> split <;> rfl

theorem line_cancel_restore (rs : Readline) (h : rs.lcanmode ≠ 0) :
    (line_cancel rs).history = (undo_restore rs).history ∧
    (line_cancel rs).curpos = (undo_restore rs).curpos := by
  unfold line_cancel
  rw [if_neg h]
  exact ⟨rfl, rfl⟩

theorem line_cancel_save (rs : Readline) (h : rs.lcanmode = 0) :
    (line_cancel rs).undoline = (undo_save rs).undoline ∧
    (line_cancel rs).undocurpos = rs.curpos ∧
    (line_cancel rs).history = rs.history.set 0 (wr (hist rs 0) 0 0) ∧
    (line_cancel rs).curpos = 0 := by
  unfold line_cancel
  rw [if_pos h]
  exact ⟨rfl, rfl, rfl, rfl⟩

/-- The clear keys, pass by pass: after any key sequence of a session, take
the last pass of the loop.  The flag cleolkey (lcankey) left by that pass is
1 exactly when the pass read ^K (^U) as its first byte with the literal flag
clear.  A ^K that starts the next pass restores the saved line (line and
cursor of `undo_restore`) if and only if that preceding pass was such a ^K
acting in save mode; in every other case it saves the current line and the
cursor and cuts the line at the cursor.  The same holds for ^U, which
empties the line.  A pass is never a press of both keys, so neither key
restores what the other one saved. -/
theorem clear_key_restores_iff_repeated
    (rs0 : Readline) (inp : List Nat) (n : Nat) (st0 : Loop) (inp0 : List Nat)
    (st1 : Loop) (inp1 rest : List Nat)
    (hreach : cycles n (readline_init rs0) inp = some (.next st0 inp0))
    (hprev : key_cycle st0 inp0 = some (.next st1 inp1))
    (hlit : st1.rs.literal = 0) :
    (st1.cleolkey = 1 ↔
      st0.rs.literal = 0 ∧ key_cycle st0 (0x0b :: inp1) = some (.next st1 inp1)) ∧
    (st1.rs.lcankey = 1 ↔
      st0.rs.literal = 0 ∧ key_cycle st0 (0x15 :: inp1) = some (.next st1 inp1)) ∧
    ¬ (st1.cleolkey = 1 ∧ st1.rs.lcankey = 1) ∧
    (∃ st2 : Loop, key_cycle st1 (0x0b :: rest) = some (.next st2 rest) ∧
      (st1.cleolkey = 1 ∧ st0.cleolmode = 0 →
        st2.rs.history = (undo_restore st1.rs).history ∧
        st2.rs.curpos = (undo_restore st1.rs).curpos) ∧
      (¬ (st1.cleolkey = 1 ∧ st0.cleolmode = 0) →
        st2.rs.undoline = (undo_save st1.rs).undoline ∧
        st2.rs.undocurpos = st1.rs.curpos ∧
        st2.rs.history = (clear_eol (undo_save st1.rs)).history ∧
        st2.rs.curpos = (clear_eol (undo_save st1.rs)).curpos)) ∧
    (∃ st2 : Loop, key_cycle st1 (0x15 :: rest) = some (.next st2 rest) ∧
      (st1.rs.lcankey = 1 ∧ st0.rs.lcanmode = 0 →
        st2.rs.history = (undo_restore st1.rs).history ∧
        st2.rs.curpos = (undo_restore st1.rs).curpos) ∧
      (¬ (st1.rs.lcankey = 1 ∧ st0.rs.lcanmode = 0) →
        st2.rs.undoline = (undo_save st1.rs).undoline ∧
        st2.rs.undocurpos = st1.rs.curpos ∧
        st2.rs.history = st1.rs.history.set 0 (wr (hist st1.rs 0) 0 0) ∧
        st2.rs.curpos = 0)) := by
  have hI := cycles_toggles _ _ _ _ _ (toggles_init rs0) hreach
  obtain ⟨_, k1, k2, k3, k4, k5, k6⟩ := key_cycle_toggles _ _ _ _ hI hprev
  obtain ⟨hm1, hm2, _⟩ := hI
  have hcm : st1.cleolmode ≠ 0 ↔ (st1.cleolkey = 1 ∧ st0.cleolmode = 0) := by
    rw [k5]
    by_cases hk : st1.cleolkey = 1
    · simp only [hk, if_true, true_and]
      exact (xor_one_cases _ hm1).2
    · simp [hk]
  have hlm : st1.rs.lcanmode ≠ 0 ↔ (st1.rs.lcankey = 1 ∧ st0.rs.lcanmode = 0) := by
    rw [k6]
    by_cases hk : st1.rs.lcankey = 1
    · simp only [hk, if_true, true_and]
      exact (xor_one_cases _ hm2).2
    · simp [hk]
  have hex : st1.cleolkey = 1 → st1.rs.lcankey = 1 → False := by
    intro a b
    obtain ⟨_, e1⟩ := k3 a
    obtain ⟨hl0, e2⟩ := k4 b
    rw [key_cycle_cleol st0 _ hl0] at e1
    rw [key_cycle_lcan st0 _ hl0] at e2
    obtain ⟨e3, _⟩ := step_next_eq e1
    obtain ⟨e4, _⟩ := step_next_eq e2
    have h10 : (1 : Nat) = 0 := congrArg Loop.cleolkey (e3.trans e4.symm)
    omega
  refine ⟨⟨k3, ?_⟩, ⟨k4, ?_⟩, fun h => hex h.1 h.2, ?_, ?_⟩
  · rintro ⟨hl0, e⟩
    rw [key_cycle_cleol st0 _ hl0] at e
    obtain ⟨e3, _⟩ := step_next_eq e
    rw [← e3]
    exact (post_fields _).1
  · rintro ⟨hl0, e⟩
    rw [key_cycle_lcan st0 _ hl0] at e
    obtain ⟨e3, _⟩ := step_next_eq e
    rw [← e3, (post_fields _).2.2.1]
    exact (line_cancel_fields _).1
  · refine ⟨_, key_cycle_cleol st1 rest hlit, ?_, ?_⟩
    · intro hc
      have hne : ¬ (st1.cleolmode = 0) := hcm.2 hc
      obtain ⟨c1, c2, _, _⟩ := post_core
        { rs := if st1.cleolmode = 0
            then clear_eol (undo_save { st1.rs with hnav := 0, lcankey := 0 })
            else undo_restore { st1.rs with hnav := 0, lcankey := 0 },
          cleolmode := Nat.xor st1.cleolmode 1, cleolkey := 1 }
      rw [c1, c2]
      simp only [hne, if_false]
      exact ⟨rfl, rfl⟩
    · intro hc
      have he : st1.cleolmode = 0 := by
        by_contra hne
        exact hc (hcm.1 hne)
      obtain ⟨c1, c2, c3, c4⟩ := post_core
        { rs := if st1.cleolmode = 0
            then clear_eol (undo_save { st1.rs with hnav := 0, lcankey := 0 })
            else undo_restore { st1.rs with hnav := 0, lcankey := 0 },
          cleolmode := Nat.xor st1.cleolmode 1, cleolkey := 1 }
      rw [c1, c2, c3, c4]
      simp only [he, if_true]
      exact ⟨rfl, rfl, rfl, rfl⟩
  · refine ⟨_, key_cycle_lcan st1 rest hlit, ?_, ?_⟩
    · intro hc
      have hne : ¬ (st1.rs.lcanmode = 0) := hlm.2 hc
      obtain ⟨c1, c2, _, _⟩ := post_core
        { rs := line_cancel { st1.rs with hnav := 0, lcankey := 0 },
          cleolmode := st1.cleolmode, cleolkey := 0 }
      rw [c1, c2]
      exact line_cancel_restore { st1.rs with hnav := 0, lcankey := 0 } hne
    · intro hc
      have he : st1.rs.lcanmode = 0 := by
        by_contra hne
        exact hc (hlm.1 hne)
      obtain ⟨c1, c2, c3, c4⟩ := post_core
        { rs := line_cancel { st1.rs with hnav := 0, lcankey := 0 },
          cleolmode := st1.cleolmode, cleolkey := 0 }
      rw [c1, c2, c3, c4]
      exact line_cancel_save { st1.rs with hnav := 0, lcankey := 0 } he

/-- Example: a fresh editor reads a b c d ^B ^B and stands on c.  ^K cuts
the line to ab and a second ^K restores abcd; ^K, ^B, ^K and ^K, the two-byte
left arrow (0x00 0x4b), ^K cut twice, leaving a; ^K then ^U, and ^U then ^K,
empty the line instead of restoring. -/
theorem clear_key_restores_iff_repeated_example :
    cycles 6 (readline_init (MakeReadline 6 2 0)) [97, 98, 99, 100, 2, 2, 0x0b, 0x0b]
      = some (.next abcd_at_2 [0x0b, 0x0b]) ∧
    key_cycle abcd_at_2 [0x0b, 0x0b] = some (.next ab_after_cleol [0x0b]) ∧
    observe (key_cycle ab_after_cleol [0x0b]) = some ([97, 98, 99, 100], 2, []) ∧
    observe (cycles 3 abcd_at_2 [0x0b, 0x02, 0x0b]) = some ([97], 1, []) ∧
    observe (cycles 3 abcd_at_2 [0x0b, 0x00, 0x4b, 0x0b]) = some ([97], 1, []) ∧
    observe (cycles 2 abcd_at_2 [0x0b, 0x15]) = some ([], 0, []) ∧
    observe (cycles 2 abcd_at_2 [0x15, 0x0b]) = some ([], 0, []) ∧
    (ab_after_cleol.cleolkey = 1 ↔
      abcd_at_2.rs.literal = 0 ∧
        key_cycle abcd_at_2 (0x0b :: [0x0b]) = some (.next ab_after_cleol [0x0b])) :=
  ⟨by decide, by decide, by decide, by decide, by decide, by decide, by decide,
   (clear_key_restores_iff_repeated (MakeReadline 6 2 0)
      [97, 98, 99, 100, 2, 2, 0x0b, 0x0b] 6 abcd_at_2 [0x0b, 0x0b] ab_after_cleol [0x0b] []
      (by decide) (by decide) rfl).1⟩

/-! ## Inserting and deleting characters -/

theorem rd_wr (l : List Nat) (i j v : Nat) :
    rd (wr l i v) j = if i = j ∧ i < l.length then v else rd l j :=
  getD_set _ _ _ _ _

theorem length_wr (l : List Nat) (i v : Nat) : (wr l i v).length = l.length := by
  simp [wr]

theorem rd_of_le (l : List Nat) (j : Nat) (h : l.length ≤ j) : rd l j = 0 := by
  simp [rd, List.getD_eq_getElem?_getD, List.getElem?_eq_none h]

theorem rd_append (a b : List Nat) (j : Nat) :
    rd (a ++ b) j = if j < a.length then rd a j else rd b (j - a.length) := by
  unfold rd
  by_cases h : j < a.length
  · rw [if_pos h, List.getD_append _ _ _ _ h]
  · rw [if_neg h, List.getD_append_right _ _ _ _ (by omega)]

theorem rd_cons (x : Nat) (l : List Nat) (j : Nat) :
    rd (x :: l) j = if j = 0 then x else rd l (j - 1) := by
  cases j with
  | zero => simp [rd]
  | succ j => simp [rd]

theorem rd_take (l : List Nat) (k j : Nat) :
    rd (l.take k) j = if j < k then rd l j else 0 := by
  unfold rd
  simp only [List.getD_eq_getElem?_getD, List.getElem?_take]
  by_cases h : j < k <;> simp [h]

theorem rd_drop (l : List Nat) (k j : Nat) : rd (l.drop k) j = rd l (k + j) := by
  unfold rd
  simp [List.getD_eq_getElem?_getD, List.getElem?_drop]

theorem list_eq_of_rd {a b : List Nat} (hl : a.length = b.length)
    (h : ∀ j, j < a.length → rd a j = rd b j) : a = b := by
  apply List.ext_getElem hl
  intro j h1 h2
  have h3 := h j h1
  simpa [rd, List.getD_eq_getElem?_getD, h1, h2] using h3

theorem insert_shift_length (q i : Nat) (line : List Nat) :
    (insert_shift q i line).length = line.length := by
  induction i generalizing line with
  | zero => rfl
  | succ i ih =>
    rw [insert_shift]
    split
    · rw [ih, length_wr]
    · rfl

theorem insert_shift_rd (q i : Nat) (line : List Nat) (j : Nat) (hi : i < line.length) :
    rd (insert_shift q i line) j =
      if q < j ∧ j ≤ i then rd line (j - 1) else rd line j := by
  induction i generalizing line with
  | zero =>
    have : ¬ (q < j ∧ j ≤ 0) := by omega
    rw [if_neg this]; rfl
  | succ i ih =>
    rw [insert_shift]
    by_cases hq : q < i + 1
    · rw [if_pos hq, ih _ (by rw [length_wr]; omega)]
      simp only [rd_wr]
      by_cases h1 : q < j ∧ j ≤ i
      · have h2 : q < j ∧ j ≤ i + 1 := by omega
        have h3 : ¬ (i + 1 = j - 1 ∧ i + 1 < line.length) := by omega
        rw [if_pos h1, if_pos h2, if_neg h3]
      · by_cases h4 : j = i + 1
        · subst h4
          have h2 : q < i + 1 ∧ i + 1 ≤ i + 1 := by omega
          have h3 : i + 1 = i + 1 ∧ i + 1 < line.length := by omega
          rw [if_neg h1, if_pos h2, if_pos h3]; rfl
        · have h2 : ¬ (q < j ∧ j ≤ i + 1) := by omega
          have h3 : ¬ (i + 1 = j ∧ i + 1 < line.length) := by omega
          rw [if_neg h1, if_neg h2, if_neg h3]
    · rw [if_neg hq]
      have : ¬ (q < j ∧ j ≤ i + 1) := by omega
      rw [if_neg this]

theorem delete_shift_length (n i : Nat) (line : List Nat) :
    (delete_shift n i line).length = line.length := by
  induction n generalizing i line with
  | zero => rfl
  | succ n ih => rw [delete_shift, ih, length_wr]

theorem delete_shift_rd (n i : Nat) (line : List Nat) (j : Nat) (h : i + n ≤ line.length) :
    rd (delete_shift n i line) j =
      if i ≤ j ∧ j < i + n then rd line (j + 1) else rd line j := by
  induction n generalizing i line with
  | zero =>
    have : ¬ (i ≤ j ∧ j < i + 0) := by omega
    rw [if_neg this]; rfl
  | succ n ih =>
    rw [delete_shift, ih _ _ (by rw [length_wr]; omega)]
    simp only [rd_wr]
    by_cases h1 : i + 1 ≤ j ∧ j < i + 1 + n
    · have h2 : i ≤ j ∧ j < i + (n + 1) := by omega
      have h3 : ¬ (i = j + 1 ∧ i < line.length) := by omega
      rw [if_pos h1, if_pos h2, if_neg h3]
    · by_cases h4 : j = i
      · subst h4
        have h2 : j ≤ j ∧ j < j + (n + 1) := by omega
        have h3 : j = j ∧ j < line.length := by omega
        rw [if_neg h1, if_pos h2, if_pos h3]
      · have h2 : ¬ (i ≤ j ∧ j < i + (n + 1)) := by omega
        have h3 : ¬ (i = j ∧ i < line.length) := by omega
        rw [if_neg h1, if_neg h2, if_neg h3]

/-- The buffer after the body of `insert_char`, as a list. -/
theorem insert_line_eq (line : List Nat) (m q c : Nat) (hlen : line.length = m)
    (hq : q + 2 ≤ m) :
    wr (wr (insert_shift q (m - 1) line) q c) (m - 1) 0 =
      line.take q ++ c :: ((line.drop q).take (m - 2 - q) ++ [0]) := by
  apply list_eq_of_rd
  · simp only [length_wr, insert_shift_length, List.length_append, List.length_take,
      List.length_cons, List.length_drop, List.length_nil]
    omega
  · intro j hj
    simp only [length_wr, insert_shift_length] at hj
    rw [rd_wr, rd_wr, insert_shift_rd _ _ _ _ (by omega), rd_append, rd_cons, rd_append,
      rd_take, rd_take, rd_drop, rd_cons]
    simp only [length_wr, insert_shift_length, List.length_take, List.length_drop]
    have e1 : min q line.length = q := by omega
    have e2 : min (m - 2 - q) (line.length - q) = m - 2 - q := by omega
    rw [e1, e2]
    by_cases h1 : j < q
    · have h2 : ¬ (m - 1 = j ∧ m - 1 < line.length) := by omega
      have h3 : ¬ (q = j ∧ q < line.length) := by omega
      have h4 : ¬ (q < j ∧ j ≤ m - 1) := by omega
      rw [if_neg h2, if_neg h3, if_neg h4, if_pos h1, if_pos h1]
    · by_cases h5 : j = q
      · subst h5
        have h2 : ¬ (m - 1 = j ∧ m - 1 < line.length) := by omega
        have h3 : j = j ∧ j < line.length := by omega
        rw [if_neg h2, if_pos h3, if_neg h1, if_pos (Nat.sub_self j)]
      · by_cases h6 : j = m - 1
        · have h2 : m - 1 = j ∧ m - 1 < line.length := by omega
          have h7 : ¬ (j - q = 0) := by omega
          have h8 : ¬ (j - q - 1 < m - 2 - q) := by omega
          have h9 : j - q - 1 - (m - 2 - q) = 0 := by omega
          rw [if_pos h2, if_neg h1, if_neg h7, if_neg h8, h9, if_pos rfl]
        · have h2 : ¬ (m - 1 = j ∧ m - 1 < line.length) := by omega
          have h3 : ¬ (q = j ∧ q < line.length) := by omega
          have h4 : q < j ∧ j ≤ m - 1 := by omega
          have h7 : ¬ (j - q = 0) := by omega
          have h8 : j - q - 1 < m - 2 - q := by omega
          have h9 : q + (j - q - 1) = j - 1 := by omega
          rw [if_neg h2, if_neg h3, if_pos h4, if_neg h1, if_neg h7, if_pos h8, if_pos h8, h9]

/-- The buffer after the shifting branch of `delete_char`, as a list. -/
theorem delete_line_eq (line : List Nat) (m q : Nat) (hlen : line.length = m)
    (hq : q + 2 ≤ m) :
    wr (delete_shift (m - 1 - q) q line) (m - 1) 0 =
      line.take q ++ (line.drop (q + 1) ++ [0]) := by
  apply list_eq_of_rd
  · simp only [length_wr, delete_shift_length, List.length_append, List.length_take,
      List.length_cons, List.length_drop, List.length_nil]
    omega
  · intro j hj
    simp only [length_wr, delete_shift_length] at hj
    rw [rd_wr, delete_shift_rd _ _ _ _ (by omega), rd_append, rd_append, rd_take, rd_drop,
      rd_cons]
    simp only [length_wr, delete_shift_length, List.length_take, List.length_drop]
    have e1 : min q line.length = q := by omega
    rw [e1]
    by_cases h1 : j < q
    · have h2 : ¬ (m - 1 = j ∧ m - 1 < line.length) := by omega
      have h4 : ¬ (q ≤ j ∧ j < q + (m - 1 - q)) := by omega
      rw [if_neg h2, if_neg h4, if_pos h1, if_pos h1]
    · by_cases h6 : j = m - 1
      · have h2 : m - 1 = j ∧ m - 1 < line.length := by omega
        have h8 : ¬ (j - q < line.length - (q + 1)) := by omega
        have h9 : j - q - (line.length - (q + 1)) = 0 := by omega
        rw [if_pos h2, if_neg h1, if_neg h8, h9, if_pos rfl]
      · have h2 : ¬ (m - 1 = j ∧ m - 1 < line.length) := by omega
        have h4 : q ≤ j ∧ j < q + (m - 1 - q) := by omega
        have h8 : j - q < line.length - (q + 1) := by omega
        have h9 : q + 1 + (j - q) = j + 1 := by omega
        rw [if_neg h2, if_pos h4, if_neg h1, if_pos h8, h9]

theorem cstr_ne_zero (l : List Nat) : ∀ x ∈ cstr l, x ≠ 0 := by
  induction l with
  | nil => simp [cstr]
  | cons c s ih =>
    by_cases h : c = 0
    · simp [cstr, h]
    · intro x hx
      simp only [cstr, if_neg h, List.mem_cons] at hx
      rcases hx with hx | hx
      · rw [hx]; exact h
      · exact ih x hx

theorem cstr_append_left (a b : List Nat) (h : ∀ x ∈ a, x ≠ 0) :
    cstr (a ++ b) = a ++ cstr b := by
  induction a with
  | nil => rfl
  | cons c s ih =>
    have hc : c ≠ 0 := h c (by simp)
    have hs : ∀ x ∈ s, x ≠ 0 := fun x hx => h x (by simp [hx])
    simp [cstr, hc, ih hs]

theorem take_eq_take_cstr (l : List Nat) (q : Nat) (h : q ≤ strlen l) :
    l.take q = (cstr l).take q := by
  induction l generalizing q with
  | nil => simp [cstr]
  | cons c s ih =>
    cases q with
    | zero => simp
    | succ q =>
      by_cases hc : c = 0
      · simp [strlen, hc] at h
      · simp only [strlen, if_neg hc] at h
        simp only [cstr, if_neg hc, List.take_succ_cons]
        rw [ih q (by omega)]

theorem cstr_drop (l : List Nat) (q : Nat) (h : q ≤ strlen l) :
    cstr (l.drop q) = (cstr l).drop q := by
  induction l generalizing q with
  | nil => simp [cstr]
  | cons c s ih =>
    cases q with
    | zero => simp
    | succ q =>
      by_cases hc : c = 0
      · simp [strlen, hc] at h
      · simp only [strlen, if_neg hc] at h
        simp only [cstr, if_neg hc, List.drop_succ_cons]
        rw [ih q (by omega)]

theorem cstr_take_zero (l : List Nat) (k : Nat) (t : List Nat) :
    cstr (l.take k ++ 0 :: t) = (cstr l).take k := by
  induction l generalizing k with
  | nil => simp [cstr]
  | cons c s ih =>
    cases k with
    | zero => simp [cstr]
    | succ k =>
      by_cases hc : c = 0
      · simp [cstr, hc]
      · simp [cstr, hc, ih]

theorem cstr_of_zero_before (l : List Nat) (q : Nat) (t : List Nat)
    (h : strlen l < q) (hl : strlen l < l.length) :
    cstr (l.take q ++ t) = cstr l := by
  induction l generalizing q with
  | nil => simp at hl
  | cons c s ih =>
    cases q with
    | zero => omega
    | succ q =>
      by_cases hc : c = 0
      · simp [cstr, hc]
      · simp only [strlen, if_neg hc, List.length_cons] at h hl
        have e := ih q (by omega) (by omega)
        simp only [List.take_succ_cons, List.cons_append, cstr, if_neg hc]
        exact congrArg (List.cons c) e

theorem rd_ne_zero_of_lt (l : List Nat) (j : Nat) (h : j < strlen l) : rd l j ≠ 0 := by
  induction l generalizing j with
  | nil => simp [strlen] at h
  | cons c s ih =>
    by_cases hc : c = 0
    · simp [strlen, hc] at h
    · simp only [strlen, if_neg hc] at h
      cases j with
      | zero => simpa [rd] using hc
      | succ j =>
        have := ih j (by omega)
        simpa [rd] using this

theorem rd_strlen (l : List Nat) (h : strlen l < l.length) : rd l (strlen l) = 0 := by
  induction l with
  | nil => simp at h
  | cons c s ih =>
    by_cases hc : c = 0
    · simp [strlen, hc, rd]
    · simp only [strlen, if_neg hc, List.length_cons] at h ⊢
      have := ih (by omega)
      simpa [rd, Nat.add_comm] using this

theorem rd_cstr (l : List Nat) (j : Nat) :
    rd (cstr l) j = if j < strlen l then rd l j else 0 := by
  induction l generalizing j with
  | nil => simp [cstr, strlen, rd]
  | cons c s ih =>
    by_cases hc : c = 0
    · simp [cstr, strlen, hc, rd]
    · simp only [cstr, strlen, if_neg hc]
      cases j with
      | zero => simp [rd]
      | succ j =>
        have := ih j
        simp only [rd] at this ⊢
        simp only [List.getD_cons_succ, this]
        by_cases h : j < strlen s
        · have h2 : j + 1 < strlen s + 1 := by omega
          rw [if_pos h, if_pos h2]
        · have h2 : ¬ (j + 1 < strlen s + 1) := by omega
          rw [if_neg h, if_neg h2]

theorem cstr_snoc_zero (l t : List Nat) : cstr (l ++ 0 :: t) = cstr l := by
  induction l with
  | nil => simp [cstr]
  | cons c s ih =>
    by_cases hc : c = 0
    · simp [cstr, hc]
    · simp [cstr, hc, ih]

theorem strlen_le_of_rd_zero (l : List Nat) (j : Nat) (h : rd l j = 0) : strlen l ≤ j := by
  by_contra hlt
  exact rd_ne_zero_of_lt l j (by omega) h

theorem insert_char_eq (rs : Readline) (c : Nat) (hlen : (hist rs 0).length = rs.maxline)
    (hm : 2 ≤ rs.maxline) :
    insert_char rs c = set_hist rs 0
      ((hist rs 0).take (min rs.curpos (rs.maxline - 2)) ++
        c :: (((hist rs 0).drop (min rs.curpos (rs.maxline - 2))).take
          (rs.maxline - 2 - min rs.curpos (rs.maxline - 2)) ++ [0])) := by
  unfold insert_char
  simp only []
  rw [insert_line_eq _ _ _ _ hlen (by omega)]

theorem delete_char_eq (rs : Readline) (hlen : (hist rs 0).length = rs.maxline)
    (hm : 2 ≤ rs.maxline) (hne : rd (hist rs 0) (min rs.curpos (rs.maxline - 2)) ≠ 0) :
    delete_char rs = set_hist rs 0
      ((hist rs 0).take (min rs.curpos (rs.maxline - 2)) ++
        ((hist rs 0).drop (min rs.curpos (rs.maxline - 2) + 1) ++ [0])) := by
  unfold delete_char
  simp only []
  rw [if_neg hne, delete_line_eq _ _ _ hlen (by omega)]

theorem delete_char_noop (rs : Readline)
    (h : rd (hist rs 0) (min rs.curpos (rs.maxline - 2)) = 0) : delete_char rs = rs := by
  unfold delete_char
  simp only []
  rw [if_pos h]

theorem hist_zero_set_hist (rs : Readline) (b : List Nat) (h0 : 0 < rs.history.length) :
    hist (set_hist rs 0 b) 0 = b := by
  rw [hist_set_hist, if_pos ⟨rfl, h0⟩]

/-- The text after `insert_char`: `c` goes in at the clamped cursor and
what no longer fits in `maxline-1` characters is cut off. -/
theorem slot_insert_char (rs : Readline) (c : Nat) (h0 : 0 < rs.history.length)
    (hlen : (hist rs 0).length = rs.maxline) (hm : 2 ≤ rs.maxline)
    (hp : rs.curpos ≤ strlen (hist rs 0)) (hc : c ≠ 0) :
    slot (insert_char rs c) 0 =
      ((slot rs 0).take (min rs.curpos (rs.maxline - 2)) ++
        c :: (slot rs 0).drop (min rs.curpos (rs.maxline - 2))).take (rs.maxline - 1) := by
  have hq : min rs.curpos (rs.maxline - 2) ≤ strlen (hist rs 0) := by omega
  have hq2 : min rs.curpos (rs.maxline - 2) + 2 ≤ rs.maxline := by omega
  unfold slot
  rw [insert_char_eq rs c hlen hm, hist_zero_set_hist _ _ h0]
  generalize min rs.curpos (rs.maxline - 2) = q at hq hq2
  generalize hist rs 0 = line at hq
  have hk : rs.maxline - 1 - q = (rs.maxline - 2 - q) + 1 := by omega
  have hlq : ((cstr line).take q).length = q := by
    rw [List.length_take, cstr_length]; omega
  rw [take_eq_take_cstr line q hq,
    cstr_append_left _ _ (fun x hx => cstr_ne_zero line x (List.mem_of_mem_take hx)),
    cstr, if_neg hc, cstr_take_zero, cstr_drop line q hq,
    List.take_append_eq_append_take, hlq, hk, List.take_succ_cons,
    List.take_take]
  have e : min (rs.maxline - 1) q = q := by omega
  rw [e]

theorem length_insert_char (rs : Readline) (c : Nat) (h0 : 0 < rs.history.length)
    (hlen : (hist rs 0).length = rs.maxline) :
    (hist (insert_char rs c) 0).length = rs.maxline := by
  unfold insert_char
  simp only []
  rw [hist_zero_set_hist _ _ h0, length_wr, length_wr, insert_shift_length, hlen]

theorem isLine_insert_char (rs : Readline) (c : Nat) (h0 : 0 < rs.history.length)
    (hlen : (hist rs 0).length = rs.maxline) (hm : 2 ≤ rs.maxline) :
    IsLine rs.maxline (hist (insert_char rs c) 0) := by
  refine ⟨length_insert_char rs c h0 hlen, ?_⟩
  have h1 : rd (hist (insert_char rs c) 0) (rs.maxline - 1) = 0 := by
    unfold insert_char
    simp only []
    rw [hist_zero_set_hist _ _ h0, rd_wr, if_pos]
    refine ⟨rfl, ?_⟩
    rw [length_wr, insert_shift_length, hlen]; omega
  have h2 := strlen_le_of_rd_zero _ _ h1
  omega

/-- The text after `delete_char` with the cursor inside the text: the
character under the cursor is gone. -/
theorem slot_delete_char (rs : Readline) (h0 : 0 < rs.history.length)
    (hline : IsLine rs.maxline (hist rs 0)) (hp : rs.curpos < strlen (hist rs 0)) :
    slot (delete_char rs) 0 =
      (slot rs 0).take rs.curpos ++ (slot rs 0).drop (rs.curpos + 1) := by
  obtain ⟨hlen, hs⟩ := hline
  have hq : min rs.curpos (rs.maxline - 2) = rs.curpos := by omega
  have hne : rd (hist rs 0) (min rs.curpos (rs.maxline - 2)) ≠ 0 := by
    rw [hq]; exact rd_ne_zero_of_lt _ _ hp
  unfold slot
  rw [delete_char_eq rs hlen (by omega) hne, hist_zero_set_hist _ _ h0, hq,
    take_eq_take_cstr _ _ (Nat.le_of_lt hp),
    cstr_append_left _ _ (fun x hx => cstr_ne_zero _ x (List.mem_of_mem_take hx)),
    cstr_snoc_zero, cstr_drop _ _ hp]

/-- The text after `delete_char` with the clamped cursor at or past the end
of the text: nothing changes. -/
theorem slot_delete_char_past_end (rs : Readline) (h0 : 0 < rs.history.length)
    (hline : IsLine rs.maxline (hist rs 0))
    (hp : strlen (hist rs 0) ≤ min rs.curpos (rs.maxline - 2)) :
    slot (delete_char rs) 0 = slot rs 0 := by
  obtain ⟨hlen, hs⟩ := hline
  by_cases hz : rd (hist rs 0) (min rs.curpos (rs.maxline - 2)) = 0
  · rw [delete_char_noop rs hz]
  · have hne : strlen (hist rs 0) ≠ min rs.curpos (rs.maxline - 2) := by
      intro e
      apply hz
      rw [← e]
      exact rd_strlen _ (by omega)
    unfold slot
    rw [delete_char_eq rs hlen (by omega) hz, hist_zero_set_hist _ _ h0,
      cstr_of_zero_before _ _ _ (by omega) (by omega)]

theorem isLine_delete_char (rs : Readline) (h0 : 0 < rs.history.length)
    (hline : IsLine rs.maxline (hist rs 0)) (hm : 2 ≤ rs.maxline) :
    IsLine rs.maxline (hist (delete_char rs) 0) := by
  obtain ⟨hlen, hs⟩ := hline
  by_cases hz : rd (hist rs 0) (min rs.curpos (rs.maxline - 2)) = 0
  · rw [delete_char_noop rs hz]; exact ⟨hlen, hs⟩
  · have hl : (hist (delete_char rs) 0).length = rs.maxline := by
      unfold delete_char
      simp only []
      rw [if_neg hz, hist_zero_set_hist _ _ h0, length_wr, delete_shift_length, hlen]
    refine ⟨hl, ?_⟩
    have h1 : rd (hist (delete_char rs) 0) (rs.maxline - 1) = 0 := by
      unfold delete_char
      simp only []
      rw [if_neg hz, hist_zero_set_hist _ _ h0, rd_wr, if_pos]
      refine ⟨rfl, ?_⟩
      rw [delete_shift_length, hlen]; omega
    have h2 := strlen_le_of_rd_zero _ _ h1
    omega

theorem insert_char_curpos (rs : Readline) (c : Nat) :
    (insert_char rs c).curpos = rs.curpos := rfl

theorem insert_char_maxline (rs : Readline) (c : Nat) :
    (insert_char rs c).maxline = rs.maxline := rfl

theorem insert_char_history_length (rs : Readline) (c : Nat) :
    (insert_char rs c).history.length = rs.history.length := by
  simp [insert_char, set_hist]

theorem delete_char_curpos (rs : Readline) : (delete_char rs).curpos = rs.curpos := by
  unfold delete_char
  simp only []
  split <;> rfl

theorem take_insert (t : List Nat) (p c : Nat) (hp : p ≤ t.length) :
    (t.take p ++ c :: t.drop p).take p = t.take p := by
  have h : (t.take p).length = p := by rw [List.length_take]; omega
  exact List.take_left' h

theorem drop_insert (t : List Nat) (p c : Nat) (hp : p ≤ t.length) :
    (t.take p ++ c :: t.drop p).drop (p + 1) = t.drop p := by
  have h : (t.take p ++ [c]).length = p + 1 := by
    rw [List.length_append, List.length_take]; simp; omega
  have e : t.take p ++ c :: t.drop p = (t.take p ++ [c]) ++ t.drop p := by simp
  rw [e]
  exact List.drop_left' h

/-- C11: on a line with strlen < maxline-1, with the cursor p <= strlen and a
non-zero character c, `insert_char(c)` followed by `delete_char` at the same
cursor position p leaves the text of the line equal to the original text
(neither call moves the cursor). -/
theorem C11_insert_then_delete (rs : Readline) (c : Nat)
    (h0 : 0 < rs.history.length) (hlen : (hist rs 0).length = rs.maxline)
    (hs : strlen (hist rs 0) + 1 < rs.maxline)
    (hp : rs.curpos ≤ strlen (hist rs 0)) (hc : c ≠ 0) :
    (insert_char rs c).curpos = rs.curpos ∧
    (delete_char (insert_char rs c)).curpos = rs.curpos ∧
    slot (delete_char (insert_char rs c)) 0 = slot rs 0 := by
  have hq : min rs.curpos (rs.maxline - 2) = rs.curpos := by omega
  have hT : slot (insert_char rs c) 0 =
      (slot rs 0).take rs.curpos ++ c :: (slot rs 0).drop rs.curpos := by
    rw [slot_insert_char rs c h0 hlen (by omega) hp hc, hq]
    apply List.take_of_length_le
    simp only [List.length_append, List.length_take, List.length_cons, List.length_drop,
      slot, cstr_length]
    omega
  have hpT : rs.curpos ≤ (slot rs 0).length := by
    unfold slot; rw [cstr_length]; exact hp
  refine ⟨rfl, delete_char_curpos _, ?_⟩
  have hline := isLine_insert_char rs c h0 hlen (by omega)
  have hlt : (insert_char rs c).curpos < strlen (hist (insert_char rs c) 0) := by
    rw [← cstr_length]
    change rs.curpos < (slot (insert_char rs c) 0).length
    rw [hT]
    simp only [List.length_append, List.length_take, List.length_cons, List.length_drop]
    omega
  rw [slot_delete_char (insert_char rs c) (by rw [insert_char_history_length]; exact h0)
    hline hlt, hT, insert_char_curpos, take_insert _ _ _ hpT, drop_insert _ _ _ hpT,
    List.take_append_drop]

/-- Witness for C11: in abcd with the cursor on c (maxline 6), inserting x and
deleting at the same cursor gives abcd back. -/
theorem C11_insert_then_delete_witness :
    slot (delete_char (insert_char abcd_at_2.rs 120)) 0 = [97, 98, 99, 100] :=
  (C11_insert_then_delete abcd_at_2.rs 120 (by decide) (by decide) (by decide) (by decide)
    (by decide)).2.2

/-- C12: on a line of length <= maxline-1, with the cursor p <= length and a
non-zero character c, `insert_char(c)` yields the first maxline-1 characters
of text[0..q) ++ [c] ++ text[q..] with q = min(p, maxline-2), and the buffer
is NUL-terminated within its maxline bytes. -/
theorem C12_insert_char_text (rs : Readline) (c : Nat)
    (hm : 2 ≤ rs.maxline) (h0 : 0 < rs.history.length)
    (hline : IsLine rs.maxline (hist rs 0))
    (hp : rs.curpos ≤ strlen (hist rs 0)) (hc : c ≠ 0) :
    slot (insert_char rs c) 0 =
      ((slot rs 0).take (min rs.curpos (rs.maxline - 2)) ++ [c] ++
        (slot rs 0).drop (min rs.curpos (rs.maxline - 2))).take (rs.maxline - 1) ∧
    IsLine rs.maxline (hist (insert_char rs c) 0) := by
  refine ⟨?_, isLine_insert_char rs c h0 hline.1 hm⟩
  rw [slot_insert_char rs c h0 hline.1 hm hp hc, List.append_assoc, List.singleton_append]

/-- Witness for C12: inserting x at the end of the full line ab (maxline 3)
gives ax; inserting x in abcd at cursor 2 (maxline 6) gives abxcd. -/
theorem C12_insert_char_text_witness :
    slot (insert_char ab_full 120) 0 = [97, 120] ∧
    slot (insert_char abcd_at_2.rs 120) 0 = [97, 98, 120, 99, 100] :=
  ⟨(C12_insert_char_text ab_full 120 (by decide) (by decide) (by decide) (by decide)
      (by decide)).1,
   (C12_insert_char_text abcd_at_2.rs 120 (by decide) (by decide) (by decide) (by decide)
      (by decide)).1⟩

theorem cursor_right_history (rs : Readline) : (cursor_right rs).history = rs.history := by
  unfold cursor_right
  simp only []
  split <;> rfl

theorem hist_cursor_right (rs : Readline) (i : Nat) : hist (cursor_right rs) i = hist rs i := by
  unfold hist
  rw [cursor_right_history]

theorem cursor_right_curpos (rs : Readline) :
    (cursor_right rs).curpos =
      if rs.curpos < min (strlen (hist rs 0)) (rs.maxline - 1) then rs.curpos + 1
      else rs.curpos := by
  unfold cursor_right
  simp only []
  split <;> rfl

/-- C13 (as stated, refuted): on the full line "ab" (`maxline = 3`, cursor at
the end) typing x does not leave the text unchanged: `append_char` turns it
into "ax", both called directly and through a pass of the read loop. -/
theorem C13_full_line_text_changes :
    ab_full.maxline = 3 ∧ slot ab_full 0 = [97, 98] ∧
    slot (append_char ab_full 120) 0 = [97, 120] ∧
    observe (key_cycle (Loop.mk ab_full 0 0) [120]) = some ([97, 120], 2, []) := by
  decide

/-- C13 (amended): when the line already holds maxline-1 characters, typing
a non-zero character c with the cursor at p <= maxline-1 keeps the length at
maxline-1 but changes the text: c is inserted at q = min(p, maxline-2) and
the last character of the line is dropped (with the cursor at the end, c
replaces the last character); the cursor ends at min(p+1, maxline-1). -/
theorem C13_full_line_insert (rs : Readline) (c : Nat)
    (hm : 2 ≤ rs.maxline) (h0 : 0 < rs.history.length)
    (hlen : (hist rs 0).length = rs.maxline)
    (hfull : strlen (hist rs 0) + 1 = rs.maxline)
    (hp : rs.curpos ≤ strlen (hist rs 0)) (hc : c ≠ 0) :
    slot (append_char rs c) 0 =
      (slot rs 0).take (min rs.curpos (rs.maxline - 2)) ++ [c] ++
        ((slot rs 0).drop (min rs.curpos (rs.maxline - 2))).dropLast ∧
    (slot (append_char rs c) 0).length = rs.maxline - 1 ∧
    (append_char rs c).curpos = min (rs.curpos + 1) (rs.maxline - 1) := by
  have hT : (slot rs 0).length = rs.maxline - 1 := by
    unfold slot; rw [cstr_length]; omega
  have hq2 : min rs.curpos (rs.maxline - 2) + 2 ≤ rs.maxline := by omega
  have hs : slot (append_char rs c) 0 =
      (slot rs 0).take (min rs.curpos (rs.maxline - 2)) ++ [c] ++
        ((slot rs 0).drop (min rs.curpos (rs.maxline - 2))).dropLast := by
    unfold append_char slot
    rw [hist_cursor_right]
    change slot (insert_char rs c) 0 = _
    rw [slot_insert_char rs c h0 hlen hm hp hc]
    change _ = List.take _ (cstr (hist rs 0)) ++ [c] ++ (List.drop _ (cstr (hist rs 0))).dropLast
    change (slot rs 0).length = _ at hT
    unfold slot at hT ⊢
    generalize min rs.curpos (rs.maxline - 2) = q at hq2
    generalize cstr (hist rs 0) = t at hT
    have hlq : (t.take q).length = q := by rw [List.length_take]; omega
    have hk : rs.maxline - 1 - q = (rs.maxline - 2 - q) + 1 := by omega
    have hd : (t.drop q).length - 1 = rs.maxline - 2 - q := by
      rw [List.length_drop]; omega
    rw [List.take_append_eq_append_take, hlq, hk, List.take_succ_cons, List.take_take,
      List.dropLast_eq_take, hd]
    have e : min (rs.maxline - 1) q = q := by omega
    rw [e]
    simp
  have hl : (slot (append_char rs c) 0).length = rs.maxline - 1 := by
    rw [hs]
    simp only [List.length_append, List.length_take, List.length_cons, List.length_nil,
      List.length_dropLast, List.length_drop]
    omega
  refine ⟨hs, hl, ?_⟩
  unfold append_char
  rw [cursor_right_curpos, insert_char_curpos, insert_char_maxline]
  have hl2 : strlen (hist (insert_char rs c) 0) = rs.maxline - 1 := by
    rw [← cstr_length]
    have := hl
    unfold append_char slot at this
    rw [hist_cursor_right] at this
    exact this
  rw [hl2]
  split <;> omega

/-- Witness for C13 (amended): typing x at the end of the full line ab
(maxline 3) gives ax and leaves the cursor at 2. -/
theorem C13_full_line_insert_witness :
    slot (append_char ab_full 120) 0 = [97, 120] ∧ (append_char ab_full 120).curpos = 2 :=
  ⟨(C13_full_line_insert ab_full 120 (by decide) (by decide) (by decide) (by decide)
      (by decide) (by decide)).1,
   (C13_full_line_insert ab_full 120 (by decide) (by decide) (by decide) (by decide)
      (by decide) (by decide)).2.2⟩

/-- C14 (failing input): on the full line "ab" (`maxline = 3`) with the
cursor at the end of the text (p = strlen = maxline-1), `delete_char` does
not leave the text unchanged: the clamp to maxline-2 makes it delete b. -/
theorem C14_delete_at_end_of_full_line :
    ab_full.maxline = 3 ∧ slot ab_full 0 = [97, 98] ∧
    ab_full.curpos = strlen (hist ab_full 0) ∧
    slot (delete_char ab_full) 0 = [97] := by
  decide

/-! ## History navigation and word moves -/

theorem cstr_eq_nil_iff (b : List Nat) : cstr b = [] ↔ rd b 0 = 0 := by
  cases b with
  | nil => simp [cstr, rd]
  | cons c s =>
    by_cases hc : c = 0
    · simp [cstr, rd, hc]
    · simp [cstr, rd, hc]

/-- C15: with navPos = histpos inside the history (histpos < histsize),
`history_up` returns 0 and leaves the whole state unchanged if and only if
histpos = histsize-1 or slot histpos+1 is empty; otherwise it returns 1,
saves the text of slot 0 into histsave when histpos was 0 (and leaves
histsave alone when it was not), increments histpos by one, copies the text
of the new slot histpos into slot 0, leaves the other slots alone and puts
the cursor at the end of the new text. -/
theorem C15_history_up (rs : Readline) (hN : rs.history.length = rs.histsize)
    (hpos : rs.histpos < rs.histsize) :
    (((history_up rs).1 = 0 ∧ (history_up rs).2 = rs) ↔
      (rs.histpos + 1 = rs.histsize ∨ slot rs (rs.histpos + 1) = [])) ∧
    (¬ (rs.histpos + 1 = rs.histsize ∨ slot rs (rs.histpos + 1) = []) →
      (history_up rs).1 = 1 ∧
      (rs.histpos = 0 → cstr (history_up rs).2.histsave = slot rs 0) ∧
      (rs.histpos ≠ 0 → (history_up rs).2.histsave = rs.histsave) ∧
      (history_up rs).2.histpos = rs.histpos + 1 ∧
      slot (history_up rs).2 0 = slot rs (rs.histpos + 1) ∧
      (∀ i, i ≠ 0 → hist (history_up rs).2 i = hist rs i) ∧
      (history_up rs).2.curpos = (slot rs (rs.histpos + 1)).length) := by
  have hret := history_up_ret rs
  have hiff : (rs.histpos + 1 = rs.histsize ∨ slot rs (rs.histpos + 1) = []) ↔
      (rs.histpos + 1 = rs.histsize ∨ rd (hist rs (rs.histpos + 1)) 0 = 0) := by
    unfold slot
    rw [cstr_eq_nil_iff]
  constructor
  · rw [hiff]
    constructor
    · rintro ⟨h1, _⟩
      by_contra hn
      rw [hret, if_neg hn] at h1
      exact absurd h1 (by decide)
    · intro hc
      have h1 : (history_up rs).1 = 0 := by rw [hret, if_pos hc]
      exact ⟨h1, history_up_blocked rs h1⟩
  · intro hn
    rw [hiff] at hn
    have ha : rs.histpos + 1 < rs.histsize := by
      have : ¬ rs.histpos + 1 = rs.histsize := fun h => hn (Or.inl h)
      omega
    have hb : rd (hist rs (rs.histpos + 1)) 0 ≠ 0 := fun h => hn (Or.inr h)
    have h0 : 0 < rs.history.length := by omega
    rw [history_up_moves rs ha hb]
    refine ⟨rfl, ?_, ?_, rfl, ?_, ?_, ?_⟩
    · intro hz
      simp only [if_pos hz]
      rw [cstr_strcpy]; rfl
    · intro hz
      simp only [if_neg hz]
    · unfold slot hist
      simp only []
      rw [getD_set, if_pos ⟨rfl, h0⟩, cstr_strcpy]
    · intro i hi
      unfold hist
      simp only []
      rw [getD_set, if_neg (fun h => hi h.1.symm)]
    · simp only []
      rw [hist_zero_set_hist _ _ h0, strlen_strcpy]
      unfold slot
      rw [cstr_length]

/-- Witness for C15: from the empty live line with history bbb, aaa,
`history_up` returns 1, shows bbb, sets histpos to 1 and the cursor to 3. -/
theorem C15_history_up_witness :
    (history_up bbb_aaa).1 = 1 ∧ slot (history_up bbb_aaa).2 0 = [98, 98, 98] ∧
    (history_up bbb_aaa).2.histpos = 1 ∧ (history_up bbb_aaa).2.curpos = 3 :=
  have h := (C15_history_up bbb_aaa (by decide) (by decide)).2 (by decide)
  ⟨h.1, h.2.2.2.2.1, h.2.2.2.1, h.2.2.2.2.2.2⟩

theorem word_left_loop_spec (n : Nat) (rs : Readline) (hn : rs.curpos ≤ n)
    (hk : rs.curpos < strlen (hist rs 0)) (hm : strlen (hist rs 0) < rs.maxline) :
    ∃ j, word_left_loop 0 n rs = { rs with curpos := j } ∧ j ≤ rs.curpos ∧
      WordStart (slot rs 0) j ∧
      ∀ i, j < i → i ≤ rs.curpos → ¬ WordStart (slot rs 0) i := by
  induction n generalizing rs with
  | zero =>
    refine ⟨rs.curpos, rfl, Nat.le_refl _, Or.inl (by omega), ?_⟩
    intro i h1 h2; omega
  | succ n ih =>
    rw [word_left_loop]
    by_cases hpos : 0 < rs.curpos
    · rw [if_pos hpos]
      have hcl : cursor_left rs = { rs with curpos := rs.curpos - 1 } := by
        unfold cursor_left; rw [if_pos hpos]
      simp only []
      rw [hcl]
      have hh : hist { rs with curpos := rs.curpos - 1 } 0 = hist rs 0 := rfl
      have e1 : rd (slot rs 0) (rs.curpos - 1) = rd (hist rs 0) (rs.curpos - 1) := by
        unfold slot; rw [rd_cstr, if_pos (by omega)]
      have e2 : rd (slot rs 0) rs.curpos = rd (hist rs 0) rs.curpos := by
        unfold slot; rw [rd_cstr, if_pos hk]
      by_cases hc : rd (hist rs 0) (rs.curpos - 1) = 32 ∧ rd (hist rs 0) rs.curpos ≠ 32
      · rw [if_pos (by simpa [hh] using hc)]
        refine ⟨rs.curpos, ?_, Nat.le_refl _, Or.inr (by rw [e1, e2]; exact hc), ?_⟩
        · unfold cursor_right
          simp only [hh]
          rw [if_pos (by omega)]
          have : rs.curpos - 1 + 1 = rs.curpos := by omega
          rw [this]
        · intro i h1 h2; omega
      · rw [if_neg (by simpa [hh] using hc)]
        have hdel : ¬ ((0 : Nat) ≠ 0 ∧ rs.curpos ≠ 0) := by simp
        rw [if_neg hdel]
        obtain ⟨j, hj1, hj2, hj3, hj4⟩ :=
          ih { rs with curpos := rs.curpos - 1 } (by simp only []; omega)
            (by simp only [hh]; omega) (by simp only [hh]; exact hm)
        refine ⟨j, hj1, ?_, hj3, ?_⟩
        · simp only [] at hj2; omega
        · intro i h1 h2
          by_cases hi : i = rs.curpos
          · subst hi
            rintro (h0 | hw)
            · omega
            · rw [e1, e2] at hw; exact hc hw
          · exact hj4 i h1 (by simp only []; omega)
    · rw [if_neg hpos]
      refine ⟨rs.curpos, rfl, Nat.le_refl _, Or.inl (by omega), ?_⟩
      intro i h1 h2; omega

/-- C16: on a line whose cursor p is inside the text (p <= strlen),
`word_left` with del = 0 changes nothing but the cursor; with p = 0 it changes
nothing at all; with 0 < p the cursor lands on the largest index j < p such
that j = 0 or (text[j-1] is a space and text[j] is not).  On "ab cd" it goes
from 5 to 3 and from 3 to 0. -/
theorem C16_word_left (rs : Readline) (hp : rs.curpos ≤ strlen (hist rs 0))
    (hm : strlen (hist rs 0) < rs.maxline) :
    word_left rs 0 = { rs with curpos := (word_left rs 0).curpos } ∧
    (rs.curpos = 0 → word_left rs 0 = rs) ∧
    (0 < rs.curpos →
      (word_left rs 0).curpos < rs.curpos ∧
      WordStart (slot rs 0) (word_left rs 0).curpos ∧
      ∀ i, (word_left rs 0).curpos < i → i < rs.curpos → ¬ WordStart (slot rs 0) i) ∧
    (word_left (ab_cd 5) 0).curpos = 3 ∧ (word_left (ab_cd 3) 0).curpos = 0 := by
  have hdel : ¬ ((0 : Nat) ≠ 0 ∧ rs.curpos ≠ 0) := by simp
  have hw : word_left rs 0 = word_left_loop 0 (cursor_left rs).curpos (cursor_left rs) := by
    unfold word_left
    simp only []
    rw [if_neg hdel]
  by_cases hpos : 0 < rs.curpos
  · have hcl : cursor_left rs = { rs with curpos := rs.curpos - 1 } := by
      unfold cursor_left; rw [if_pos hpos]
    have hh : hist { rs with curpos := rs.curpos - 1 } 0 = hist rs 0 := rfl
    obtain ⟨j, hj1, hj2, hj3, hj4⟩ :=
      word_left_loop_spec (rs.curpos - 1) { rs with curpos := rs.curpos - 1 }
        (Nat.le_refl _) (by simp only [hh]; omega) (by simp only [hh]; exact hm)
    rw [hcl] at hw
    simp only [] at hw hj2
    rw [hw, hj1]
    refine ⟨rfl, fun h => by omega, fun _ => ⟨by simp only []; omega, hj3, ?_⟩, by decide,
      by decide⟩
    intro i h1 h2
    exact hj4 i h1 (by simp only []; omega)
  · have hz : rs.curpos = 0 := by omega
    have hcl : cursor_left rs = rs := by
      unfold cursor_left; rw [if_neg hpos]
    rw [hcl, hz, word_left_loop] at hw
    rw [hw]
    exact ⟨rfl, fun _ => rfl, fun h => absurd h hpos, by decide, by decide⟩

/-- Witness for C16: on "ab cd" the cursor goes from 5 to 3 and from 3 to 0,
and nothing else changes. -/
theorem C16_word_left_witness :
    (word_left (ab_cd 5) 0).curpos < 5 ∧ WordStart [97, 98, 32, 99, 100] 3 ∧
    word_left (ab_cd 5) 0 = ab_cd 3 ∧ word_left (ab_cd 3) 0 = ab_cd 0 :=
  have h := C16_word_left (ab_cd 5) (by decide) (by decide)
  ⟨(h.2.2.1 (by decide)).1, by decide, by decide, by decide⟩

/-- C17 (failing input): on "ab cd" with the cursor on the space (p = 2),
index 3 is the first letter of a word and the first such position after p,
yet `word_right` passes it and stops at the end of the line (5); from the
cursor at 0 it does stop on 3. -/
theorem C17_word_right_skips_adjacent_word :
    slot (ab_cd 2) 0 = [97, 98, 32, 99, 100] ∧
    WordStart (slot (ab_cd 2) 0) 3 ∧
    word_right (ab_cd 2) = ab_cd 5 ∧
    word_right (ab_cd 0) = ab_cd 3 := by
  decide

/-! ## The past lines are written by Accept only -/

theorem same_past_refl (a : Readline) : same_past a a := fun _ _ => rfl

theorem same_past_trans {a b c : Readline} (h1 : same_past a b) (h2 : same_past b c) :
    same_past a c := fun i hi => (h2 i hi).trans (h1 i hi)

theorem tail_set_zero {α : Type} (l : List α) (x : α) : (l.set 0 x).tail = l.tail := by
  cases l <;> rfl

theorem same_past_of_tail {a b : Readline} (h : b.history.tail = a.history.tail) :
    same_past a b := by
  intro i hi
  obtain ⟨k, rfl⟩ : ∃ k, i = k + 1 := ⟨i - 1, by omega⟩
  unfold hist
  cases ha : a.history with
  | nil =>
    cases hb : b.history with
    | nil => rfl
    | cons y t =>
      rw [ha, hb] at h
      simp only [List.tail_cons, List.tail_nil] at h
      subst h
      rfl
  | cons x s =>
    cases hb : b.history with
    | nil =>
      rw [ha, hb] at h
      simp only [List.tail_cons, List.tail_nil] at h
      subst h
      rfl
    | cons y t =>
      rw [ha, hb] at h
      simp only [List.tail_cons] at h
      subst h
      rfl

theorem same_past_set_hist (rs : Readline) (b : List Nat) :
    same_past rs (set_hist rs 0 b) :=
  same_past_of_tail (tail_set_zero _ _)

theorem same_past_delete_char (rs : Readline) : same_past rs (delete_char rs) := by
  simp only [delete_char]
  split_ifs
  · exact same_past_refl _
  · exact same_past_set_hist _ _

theorem same_past_insert_char (rs : Readline) (c : Nat) :
    same_past rs (insert_char rs c) := same_past_set_hist _ _

theorem same_past_cursor_left (rs : Readline) : same_past rs (cursor_left rs) := by
  unfold cursor_left
  split
  · exact fun _ _ => rfl
  · exact same_past_refl _

theorem same_past_cursor_right (rs : Readline) : same_past rs (cursor_right rs) := by
  unfold cursor_right
  simp only []
  split
  · exact fun _ _ => rfl
  · exact same_past_refl _

theorem same_past_cursor_sol (rs : Readline) : same_past rs (cursor_sol rs) :=
  fun _ _ => rfl

theorem same_past_cursor_eol (rs : Readline) : same_past rs (cursor_eol rs) :=
  fun _ _ => rfl

theorem same_past_append_char (rs : Readline) (c : Nat) :
    same_past rs (append_char rs c) :=
  same_past_trans (same_past_insert_char rs c) (same_past_cursor_right _)

theorem same_past_backspace (rs : Readline) : same_past rs (backspace rs) := by
  unfold backspace
  split
  · exact same_past_trans (same_past_cursor_left rs) (same_past_delete_char _)
  · exact same_past_refl _

theorem same_past_word_right_loop (n e : Nat) : ∀ rs : Readline,
    same_past rs (word_right_loop n e rs) := by
  induction n with
  | zero => intro rs; exact same_past_refl _
  | succ n ih =>
    intro rs
    simp only [word_right_loop]
    split
    · split
      · exact same_past_cursor_right rs
      · exact same_past_trans (same_past_cursor_right rs) (ih _)
    · exact same_past_refl _

theorem same_past_word_right (rs : Readline) : same_past rs (word_right rs) :=
  same_past_trans (same_past_cursor_right rs) (same_past_word_right_loop _ _ _)

theorem same_past_word_left_loop (del n : Nat) : ∀ rs : Readline,
    same_past rs (word_left_loop del n rs) := by
  induction n with
  | zero => intro rs; exact same_past_refl _
  | succ n ih =>
    intro rs
    simp only [word_left_loop]
    split
    · split
      · exact same_past_trans (same_past_cursor_left rs) (same_past_cursor_right _)
      · split
        · exact same_past_trans (same_past_trans (same_past_cursor_left rs)
            (same_past_delete_char _)) (ih _)
        · exact same_past_trans (same_past_cursor_left rs) (ih _)
    · exact same_past_refl _

theorem same_past_word_left (rs : Readline) (del : Nat) :
    same_past rs (word_left rs del) := by
  unfold word_left
  simp only []
  split
  · exact same_past_trans (same_past_trans (same_past_cursor_left rs)
      (same_past_delete_char _)) (same_past_word_left_loop _ _ _)
  · exact same_past_trans (same_past_cursor_left rs) (same_past_word_left_loop _ _ _)

theorem same_past_clear_eol (rs : Readline) : same_past rs (clear_eol rs) :=
  same_past_trans (same_past_set_hist _ _) (same_past_cursor_eol _)

theorem same_past_undo_save (rs : Readline) : same_past rs (undo_save rs) :=
  fun _ _ => rfl

theorem same_past_undo_restore (rs : Readline) : same_past rs (undo_restore rs) :=
  @same_past_trans rs (set_hist rs 0 (strcpy (hist rs 0) rs.undoline)) _
    (same_past_set_hist _ _) (fun _ _ => rfl)

theorem same_past_history_up (rs : Readline) : same_past rs (history_up rs).2 := by
  unfold history_up
  split
  · exact same_past_refl _
  · split
    · exact same_past_refl _
    · apply same_past_of_tail
      simp only [set_hist]
      split <;> split <;> simp [tail_set_zero]

theorem same_past_history_down (rs : Readline) : same_past rs (history_down rs) := by
  unfold history_down
  split
  · exact same_past_refl _
  · apply same_past_of_tail
    simp only [set_hist]
    split <;> simp [tail_set_zero]

theorem same_past_history_top_loop (n : Nat) : ∀ rs : Readline,
    same_past rs (history_top_loop n rs) := by
  induction n with
  | zero => intro rs; exact same_past_refl _
  | succ n ih =>
    intro rs
    simp only [history_top_loop]
    split
    · exact same_past_trans (same_past_history_up rs) (ih _)
    · exact same_past_history_up rs

theorem same_past_history_top (rs : Readline) : same_past rs (history_top rs) := by
  unfold history_top
  split
  · exact same_past_refl _
  · exact same_past_history_top_loop _ _

theorem same_past_history_bot (rs : Readline) : same_past rs (history_bot rs) := by
  unfold history_bot
  split
  · exact same_past_refl _
  · exact @same_past_trans rs { rs with histpos := 1 } _ (fun _ _ => rfl)
      (same_past_history_down _)

theorem same_past_line_cancel (rs : Readline) : same_past rs (line_cancel rs) := by
  unfold line_cancel
  simp only []
  split
  · apply same_past_of_tail
    simp [undo_save, set_hist, tail_set_zero]
  · apply same_past_of_tail
    simp [undo_restore, set_hist, tail_set_zero]

theorem same_past_ite {p : Prop} [Decidable p] {a x y : Readline}
    (hx : same_past a x) (hy : same_past a y) : same_past a (if p then x else y) := by
  split <;> assumption

theorem same_past_hnav {a b : Readline} (h : same_past a b) (v : Nat) :
    same_past a { b with hnav := v } := h

theorem same_past_scan_key (rs : Readline) (c : Nat) : same_past rs (scan_key rs c) := by
  unfold scan_key
  repeat' (with_reducible apply same_past_ite)
  all_goals first
    | with_reducible exact same_past_history_up rs
    | with_reducible exact same_past_cursor_left rs
    | with_reducible exact same_past_cursor_right rs
    | with_reducible exact same_past_hnav (same_past_history_up rs) 1
    | with_reducible exact same_past_hnav (same_past_history_down rs) 1
    | with_reducible exact same_past_cursor_sol rs
    | with_reducible exact same_past_cursor_eol rs
    | with_reducible exact same_past_delete_char rs
    | with_reducible exact same_past_hnav (same_past_history_top rs) 1
    | with_reducible exact same_past_hnav (same_past_history_bot rs) 1
    | with_reducible exact same_past_word_left rs 0
    | with_reducible exact same_past_word_right rs
    | with_reducible exact same_past_refl rs

theorem some_triple_past (rs : Readline) (x y : Nat × Readline × List Nat)
    (hxy : some x = some y) (hx : same_past rs x.2.1) : same_past rs y.2.1 := by
  simp only [Option.some.injEq] at hxy
  subst hxy
  exact hx

theorem handle_esc_ext_past (rs : Readline) (inp : List Nat) (r : Nat) (rs1 : Readline)
    (inp1 : List Nat) (h : handle_esc_ext rs inp = some (r, rs1, inp1)) :
    same_past rs rs1 := by
  rcases inp with _ | ⟨c3, _ | ⟨c4, _ | ⟨c5, i5⟩⟩⟩ <;>
    simp only [handle_esc_ext] at h <;>
    (repeat' split at h) <;>
    first
      | (refine some_triple_past _ _ _ h ?_
         first
          | with_reducible exact same_past_refl rs
          | with_reducible exact same_past_hnav (same_past_history_top rs) 1
          | with_reducible exact same_past_hnav (same_past_history_bot rs) 1
          | with_reducible exact same_past_word_right rs
          | with_reducible exact same_past_word_left rs 0)
      | (simp at h)

theorem handle_esc_bracket_past (rs : Readline) (inp : List Nat) (r : Nat) (rs1 : Readline)
    (inp1 : List Nat) (h : handle_esc_bracket rs inp = some (r, rs1, inp1)) :
    same_past rs rs1 := by
  rcases inp with _ | ⟨c2, i2⟩
  · simp [handle_esc_bracket] at h
  · simp only [handle_esc_bracket] at h
    repeat' split at h
    all_goals first
      | (exact handle_esc_ext_past _ _ _ _ _ h)
      | (refine some_triple_past _ _ _ h ?_
         first
          | with_reducible exact same_past_refl rs
          | with_reducible exact same_past_hnav (same_past_history_up rs) 1
          | with_reducible exact same_past_hnav (same_past_history_down rs) 1
          | with_reducible exact same_past_cursor_right rs
          | with_reducible exact same_past_cursor_left rs
          | with_reducible exact same_past_cursor_sol rs
          | with_reducible exact same_past_cursor_eol rs
          | with_reducible exact same_past_delete_char rs)
      | (simp at h)

theorem handle_esc_past (rs : Readline) (inp : List Nat) (r : Nat) (rs1 : Readline)
    (inp1 : List Nat) (h : handle_esc rs inp = some (r, rs1, inp1)) :
    same_past rs rs1 := by
  rcases inp with _ | ⟨c1, i1⟩
  · simp [handle_esc] at h
  · simp only [handle_esc] at h
    split at h
    · exact some_triple_past _ _ _ h (same_past_refl rs)
    · exact handle_esc_bracket_past _ _ _ _ _ h

theorem same_past_post (st : Loop) : same_past st.rs (post st).rs := by
  apply same_past_of_tail
  simp only [post]
  split <;> split <;> rfl

theorem same_past_loop_ite {p : Prop} [Decidable p] {a : Readline} {x y : Loop}
    (hx : same_past a x.rs) (hy : same_past a y.rs) :
    same_past a (if p then x else y).rs := by
  split <;> assumption

theorem same_past_single_key (c : Nat) (st : Loop) :
    same_past st.rs (single_key c st).rs := by
  unfold single_key
  repeat' (with_reducible apply same_past_loop_ite)
  all_goals first
    | with_reducible exact same_past_refl _
    | with_reducible exact same_past_line_cancel _
    | with_reducible exact same_past_backspace _
    | with_reducible exact same_past_delete_char _
    | with_reducible exact same_past_cursor_sol _
    | with_reducible exact same_past_cursor_left _
    | with_reducible exact same_past_cursor_eol _
    | with_reducible exact same_past_cursor_right _
    | with_reducible exact same_past_hnav (same_past_history_down _) 1
    | with_reducible exact same_past_hnav (same_past_history_up _) 1
    | with_reducible exact same_past_append_char _ _
    | with_reducible exact
        (same_past_ite (same_past_trans (same_past_undo_save _) (same_past_clear_eol _))
          (same_past_undo_restore _))
    | exact fun _ _ => rfl

/-- A pass of the `switch` that ends at the `break` leaves the past lines
alone. -/
theorem dispatch_past (f : Nat) : ∀ (c : Nat) (st : Loop) (inp : List Nat) (st1 : Loop)
    (inp1 : List Nat), dispatch f c st inp = some (.next st1 inp1) →
    same_past st.rs st1.rs := by
  induction f with
  | zero => intro c st inp st1 inp1 h; simp [dispatch] at h
  | succ f ih =>
    intro c st inp st1 inp1 h
    by_cases hc : c = 0x1b
    · simp only [dispatch, hc, if_true] at h
      cases he : handle_esc st.rs inp with
      | none => simp [he] at h
      | some p =>
        obtain ⟨r, rs1, inp2⟩ := p
        have hs := handle_esc_past _ _ _ _ _ he
        simp only [he] at h
        split at h
        · obtain ⟨rfl, rfl⟩ := step_next_eq h
          exact hs
        · exact same_past_trans hs (ih _ _ _ _ _ h)
    · simp only [dispatch, hc, if_false] at h
      split at h
      · cases inp with
        | nil => simp at h
        | cons c1 inp2 =>
          obtain ⟨rfl, rfl⟩ := step_next_eq h
          exact same_past_scan_key _ _
      · split at h
        · simp at h
        · obtain ⟨rfl, rfl⟩ := step_next_eq h
          exact same_past_single_key _ _

theorem key_cycle_past (st : Loop) (inp : List Nat) (st1 : Loop) (inp1 : List Nat)
    (h : key_cycle st inp = some (.next st1 inp1)) : same_past st.rs st1.rs := by
  cases inp with
  | nil => simp [key_cycle, pass_start] at h
  | cons c inp2 =>
    by_cases hlit : st.rs.literal = 0
    · simp only [key_cycle, pass_start, hlit, ne_eq, not_true_eq_false, if_false] at h
      split at h
      · rename_i st2 inp3 hd
        obtain ⟨rfl, rfl⟩ := step_next_eq h
        have h1 := dispatch_past _ _ _ _ _ _ hd
        exact @same_past_trans st.rs _ _ (fun _ _ => rfl)
          (same_past_trans h1 (same_past_post _))
      · rename_i hno
        exact absurd h (hno _ _)
    · rw [key_cycle_literal st c inp2 hlit] at h
      obtain ⟨rfl, rfl⟩ := step_next_eq h
      split
      · exact fun _ _ => rfl
      · exact @same_past_trans _
          (append_char { st.rs with hnav := 0, lcankey := 0, literal := 0 } c) _
          (@same_past_trans _ { st.rs with hnav := 0, lcankey := 0, literal := 0 } _
            (fun _ _ => rfl) (same_past_append_char _ _))
          (same_past_post _)

theorem cycles_past (n : Nat) : ∀ (st : Loop) (inp : List Nat) (st1 : Loop) (inp1 : List Nat),
    cycles n st inp = some (.next st1 inp1) → same_past st.rs st1.rs := by
  induction n with
  | zero =>
    intro st inp st1 inp1 h
    simp only [cycles] at h
    obtain ⟨rfl, rfl⟩ := step_next_eq h
    exact same_past_refl _
  | succ n ih =>
    intro st inp st1 inp1 h
    cases hk : key_cycle st inp with
    | none => simp [cycles, hk] at h
    | some s =>
      cases s with
      | next st2 inp2 =>
        simp only [cycles, hk] at h
        exact same_past_trans (key_cycle_past _ _ _ _ hk) (ih _ _ _ _ h)
      | done rs2 inp2 => simp [cycles, hk] at h

/-- C18: any number of passes of the read loop that end at the bottom of the
loop (every decoded command other than Accept: inserts, deletes, backspace,
cursor and word moves, clear-to-eol, line cancel and its undo, the literal
toggle, history Up/Down/Top/Bottom) leave the bytes, hence the text, of every
history slot i >= 1 unchanged; editing a recalled line writes slot 0 only. -/
theorem C18_only_accept_writes_past_lines (n : Nat) (st : Loop) (inp : List Nat)
    (st1 : Loop) (inp1 : List Nat) (h : cycles n st inp = some (.next st1 inp1))
    (i : Nat) (hi : 1 ≤ i) :
    hist st1.rs i = hist st.rs i ∧ slot st1.rs i = slot st.rs i := by
  have hp := cycles_past n st inp st1 inp1 h i hi
  exact ⟨hp, by unfold slot; rw [hp]⟩

/-- Witness for C18: recalling bbb with ^P and typing x makes the live line
bbbx and leaves slots 1 and 2 as they were. -/
theorem C18_only_accept_writes_past_lines_witness :
    slot bbb_recalled_x.rs 0 = [98, 98, 98, 120] ∧
    slot bbb_recalled_x.rs 1 = slot bbb_aaa 1 ∧
    slot bbb_recalled_x.rs 2 = slot bbb_aaa 2 :=
  ⟨by decide,
   (C18_only_accept_writes_past_lines 2 (Loop.mk bbb_aaa 0 0) [16, 120] bbb_recalled_x []
      (by decide) 1 (by decide)).2,
   (C18_only_accept_writes_past_lines 2 (Loop.mk bbb_aaa 0 0) [16, 120] bbb_recalled_x []
      (by decide) 2 (by decide)).2⟩

/-! ## Construction and the history dump -/

/-- C20 (as stated, refuted): with the history bbb (newest, slot 1) and aaa
(slot 2), `show_history` prints slot 2 first, then slot 1, and the live line
(slot 0) last: the oldest line comes first, not the newest. -/
theorem C20_dump_starts_with_oldest :
    show_history bbb_aaa = [(2, [97, 97, 97]), (1, [98, 98, 98]), (0, [])] := by
  decide

/-- C20 (amended): `show_history` prints `histsize` entries in descending
slot order, oldest line first: the entry printed at position k is slot
histsize-1-k with its index, so slot histsize-1 comes first, slot 1 (the
newest accepted line) second to last, and slot 0 (the live line) last. -/
theorem C20_show_history_order (rs : Readline) (k : Nat) (hk : k < rs.histsize) :
    (show_history rs).length = rs.histsize ∧
    (show_history rs)[k]? = some (rs.histsize - 1 - k, slot rs (rs.histsize - 1 - k)) := by
  have hlen : (show_history rs).length = rs.histsize := by simp [show_history]
  refine ⟨hlen, ?_⟩
  unfold show_history
  rw [List.getElem?_reverse (by simpa using hk)]
  simp only [List.length_map, List.length_range, List.getElem?_map]
  rw [List.getElem?_range (by omega)]
  rfl

/-- Witness for C20 (amended): with history bbb, aaa the first entry printed
is slot 2 and the third is slot 0. -/
theorem C20_show_history_order_witness :
    (show_history bbb_aaa)[0]? = some (2, slot bbb_aaa 2) ∧
    (show_history bbb_aaa)[2]? = some (0, slot bbb_aaa 0) :=
  ⟨(C20_show_history_order bbb_aaa 0 (by decide)).2,
   (C20_show_history_order bbb_aaa 2 (by decide)).2⟩

/-! ## A handled ANSI sequence and the byte after it -/

theorem dispatch_handled (f : Nat) (st : Loop) (inp : List Nat) (rs1 : Readline) (b : Nat)
    (rest : List Nat) (he : handle_esc st.rs inp = some (256, rs1, b :: rest)) :
    dispatch (f + 2) 0x1b st inp = some (.next { st with rs := scan_key rs1 b } rest) := by
  simp [dispatch, he]

theorem dispatch_handled_blocks (f : Nat) (st : Loop) (inp : List Nat) (rs1 : Readline)
    (he : handle_esc st.rs inp = some (256, rs1, [])) :
    dispatch (f + 2) 0x1b st inp = none := by
  simp [dispatch, he]

/-- C22 (failing input, general form): when `handle_esc` reports a sequence
as handled (256) and leaves the bytes `tail` unread, the pass of the read loop
does not end there.  The 256 is stored in the `uchar c` as 0, the test against
256 fails, `goto again` enters `case 0x00`, and the next byte `b` is read in
the same pass as the second byte of a two-byte key (`scan_key`); when no byte
follows the sequence the pass blocks in that read.  On abcd with the cursor at
2, ESC [ C K moves the cursor right and left again (0x4b is the scan code of
the left arrow) and inserts nothing, whereas cursor-right followed by a typed
K gives abcKd with the cursor at 4. -/
theorem C22_handled_sequence_reads_next_byte (st : Loop) (inp : List Nat) (rs1 : Readline)
    (tail : List Nat) (hlit : st.rs.literal = 0)
    (he : handle_esc (pass_start st).rs inp = some (256, rs1, tail)) :
    (tail = [] → key_cycle st (0x1b :: inp) = none) ∧
    (∀ b rest, tail = b :: rest →
      key_cycle st (0x1b :: inp)
        = some (.next (post { pass_start st with rs := scan_key rs1 b }) rest)) ∧
    observe (key_cycle abcd_at_2 [0x1b, 0x5b, 0x43, 0x4b]) = some ([97, 98, 99, 100], 2, []) ∧
    observe (cycles 2 abcd_at_2 [0x06, 0x4b]) = some ([97, 98, 99, 75, 100], 4, []) := by
  have hl := handle_esc_length _ _ _ _ _ he
  obtain ⟨f, hf⟩ : ∃ f, inp.length + 1 = f + 2 := ⟨inp.length - 1, by omega⟩
  refine ⟨?_, ?_, by decide, by decide⟩
  · intro ht
    subst ht
    rw [key_cycle_decoded st 0x1b inp hlit, hf, dispatch_handled_blocks f _ _ _ he]
  · intro b rest ht
    subst ht
    rw [key_cycle_decoded st 0x1b inp hlit, hf, dispatch_handled f _ _ _ _ _ he]

/-- Witness for C22: in abcd with the cursor at 2 the pass that reads ESC [ C
also reads the K after it, as the scan code of a two-byte key. -/
theorem C22_handled_sequence_reads_next_byte_witness :
    key_cycle abcd_at_2 [0x1b, 0x5b, 0x43, 0x4b]
      = some (.next (post { pass_start abcd_at_2 with
          rs := scan_key (cursor_right (pass_start abcd_at_2).rs) 0x4b }) []) :=
  (C22_handled_sequence_reads_next_byte abcd_at_2 [0x5b, 0x43, 0x4b]
    (cursor_right (pass_start abcd_at_2).rs) [0x4b] (by decide) (by decide)).2.1 0x4b [] rfl

/-! ## `history_bot` and `history_top` -/

theorem down_n_to_bottom (k : Nat) : ∀ rs : Readline, rs.histpos = k → 0 < k →
    0 < rs.history.length →
    ∃ x : List Nat, cstr x = cstr rs.histsave ∧
      down_n k rs = { rs with
        histpos := 0
        history := rs.history.set 0 x
        curpos := strlen rs.histsave } := by
  induction k with
  | zero => intro rs _ h; omega
  | succ k ih =>
    intro rs hk _ h0
    have hne : rs.histpos ≠ 0 := by omega
    have hd := history_down_moves rs hne
    have hk1 : rs.histpos - 1 = k := by omega
    by_cases hz : k = 0
    · subst hz
      refine ⟨strcpy (hist rs 0) rs.histsave, cstr_strcpy _ _, ?_⟩
      rw [down_n, hd]
      simp only [down_n, hk1, if_true]
      rw [hist_zero_set_hist _ _ h0, strlen_strcpy]
    · obtain ⟨x, hx1, hx2⟩ := ih (history_down rs) (by rw [hd]; exact hk1) (by omega)
        (by rw [hd]; simpa using h0)
      refine ⟨x, by rw [hx1, hd], ?_⟩
      rw [down_n, hx2, hd]
      simp only [List.set_set]

/-- C24: in a state with navPos = histpos = k inside the history, if k = 0
`history_bot` changes nothing; if k > 0 both `history_bot` and k successive
`history_down` calls end with navPos = 0, slot 0 holding the text of histsave
(editSave) and the cursor at the end of that text, and the two states are the
same in every field and every history buffer except for the bytes of buffer 0
behind the terminator of that text. -/
theorem C24_history_bot_is_k_downs (rs : Readline) (hlen : rs.history.length = rs.histsize)
    (hpos : rs.histpos < rs.histsize) :
    (rs.histpos = 0 → history_bot rs = rs) ∧
    (0 < rs.histpos →
      (history_bot rs).histpos = 0 ∧
      slot (history_bot rs) 0 = cstr rs.histsave ∧
      (history_bot rs).curpos = (cstr rs.histsave).length ∧
      (down_n rs.histpos rs).histpos = 0 ∧
      slot (down_n rs.histpos rs) 0 = cstr rs.histsave ∧
      (down_n rs.histpos rs).curpos = (cstr rs.histsave).length ∧
      (∀ i, slot (down_n rs.histpos rs) i = slot (history_bot rs) i) ∧
      ∃ x : List Nat, cstr x = cstr rs.histsave ∧
        down_n rs.histpos rs = { history_bot rs with history := rs.history.set 0 x }) := by
  have h0 : 0 < rs.history.length := by omega
  constructor
  · intro hz
    unfold history_bot
    rw [if_pos hz]
  · intro hk
    have hne : rs.histpos ≠ 0 := by omega
    have hb : history_bot rs = { rs with
        histpos := 0
        history := rs.history.set 0 (strcpy (hist rs 0) rs.histsave)
        curpos := strlen rs.histsave } := by
      unfold history_bot
      rw [if_neg hne, history_down_moves _ (by simp)]
      simp only [Nat.sub_self, if_true]
      have e : hist { rs with histpos := 1 } 0 = hist rs 0 := rfl
      rw [e, hist_zero_set_hist _ _ (by simpa using h0), strlen_strcpy]
    obtain ⟨x, hx1, hx2⟩ := down_n_to_bottom rs.histpos rs rfl hk h0
    have hs0 : slot (history_bot rs) 0 = cstr rs.histsave := by
      rw [hb]
      unfold slot hist
      simp only []
      rw [getD_set, if_pos ⟨rfl, h0⟩, cstr_strcpy]
    have hd0 : slot (down_n rs.histpos rs) 0 = cstr rs.histsave := by
      rw [hx2]
      unfold slot hist
      simp only []
      rw [getD_set, if_pos ⟨rfl, h0⟩, hx1]
    refine ⟨by rw [hb], hs0, by rw [hb, cstr_length], by rw [hx2], hd0,
      by rw [hx2, cstr_length], ?_, x, hx1, ?_⟩
    · intro i
      by_cases hi : i = 0
      · subst hi; rw [hs0, hd0]
      · rw [hx2, hb]
        unfold slot hist
        simp only []
        rw [getD_set, getD_set, if_neg (fun h => hi h.1.symm), if_neg (fun h => hi h.1.symm)]
    · rw [hx2, hb]

/-- Witness for C24: browsing at slot 2 with x saved, `history_bot` and two
`history_down` calls both show x with the cursor at 1 and navPos 0; buffer 0
differs behind the terminator only. -/
theorem C24_history_bot_is_k_downs_witness :
    slot (history_bot browsing_at_2) 0 = [120] ∧
    slot (down_n 2 browsing_at_2) 0 = [120] ∧
    (history_bot browsing_at_2).curpos = 1 ∧ (down_n 2 browsing_at_2).curpos = 1 ∧
    hist (history_bot browsing_at_2) 0 = [120, 0, 0, 0, 0] ∧
    hist (down_n 2 browsing_at_2) 0 = [120, 0, 98, 0, 0] :=
  have h := (C24_history_bot_is_k_downs browsing_at_2 (by decide) (by decide)).2 (by decide)
  ⟨h.2.1, h.2.2.2.2.1, h.2.2.1, h.2.2.2.2.2.1, by decide, by decide⟩

theorem history_up_ret_cases (rs : Readline) :
    (history_up rs).1 = 0 ∨ (history_up rs).1 = 1 := by
  rw [history_up_ret]
  split
  · exact Or.inl rfl
  · exact Or.inr rfl

theorem slot_eq_of_same_past {a b : Readline} (h : same_past a b) (i : Nat) (hi : 1 ≤ i) :
    slot b i = slot a i := by
  unfold slot
  rw [h i hi]

/-- The loop of `history_top`, by induction on the distance `d` to the top
of the history. -/
theorem history_top_loop_spec (d : Nat) : ∀ rs : Readline,
    rs.history.length = rs.histsize → rs.histpos < rs.histsize →
    rs.histsize - 1 - rs.histpos = d →
    ∃ s, s ≤ d ∧
      (∀ n, s < n → history_top_loop n rs = up_n s rs) ∧
      (∀ j, j < s → (history_up (up_n j rs)).1 = 1) ∧
      (history_up (up_n s rs)).1 = 0 ∧
      (up_n s rs).histpos = rs.histpos + s ∧
      same_past rs (up_n s rs) ∧
      AllFull rs rs.histpos (rs.histpos + s) ∧
      (∀ k, rs.histpos + s < k → k ≤ rs.histsize - 1 → ¬ AllFull rs rs.histpos k) ∧
      (0 < s → slot (up_n s rs) 0 = slot rs (rs.histpos + s) ∧
        (up_n s rs).curpos = (slot rs (rs.histpos + s)).length) := by
  induction d with
  | zero =>
    intro rs hlen hpos hd
    have htop : rs.histpos + 1 = rs.histsize := by omega
    have hret : (history_up rs).1 = 0 := by
      rw [history_up_ret, if_pos (Or.inl htop)]
    refine ⟨0, Nat.le_refl _, ?_, ?_, hret, rfl, same_past_refl _, ?_, ?_, ?_⟩
    · intro n hn
      obtain ⟨m, rfl⟩ : ∃ m, n = m + 1 := ⟨n - 1, by omega⟩
      simp only [history_top_loop, hret, ne_eq, not_true_eq_false, if_false, up_n]
      exact history_up_blocked rs hret
    · intro j hj; omega
    · intro i h1 h2; omega
    · intro k h1 h2; omega
    · intro h; omega
  | succ d ih =>
    intro rs hlen hpos hd
    have hlt : rs.histpos + 1 < rs.histsize := by omega
    by_cases hb : rd (hist rs (rs.histpos + 1)) 0 = 0
    · have hret : (history_up rs).1 = 0 := by
        rw [history_up_ret, if_pos (Or.inr hb)]
      refine ⟨0, Nat.zero_le _, ?_, ?_, hret, rfl, same_past_refl _, ?_, ?_, ?_⟩
      · intro n hn
        obtain ⟨m, rfl⟩ : ∃ m, n = m + 1 := ⟨n - 1, by omega⟩
        simp only [history_top_loop, hret, ne_eq, not_true_eq_false, if_false, up_n]
        exact history_up_blocked rs hret
      · intro j hj; omega
      · intro i h1 h2; omega
      · intro k h1 h2 hfull
        exact hfull (rs.histpos + 1) (by omega) (by omega) ((cstr_eq_nil_iff _).2 hb)
      · intro h; omega
    · have hmv := history_up_moves rs hlt hb
      have hret : (history_up rs).1 = 1 := by rw [hmv]
      have hp1 : (history_up rs).2.histpos = rs.histpos + 1 := by rw [hmv]
      have hl1 : (history_up rs).2.history.length = (history_up rs).2.histsize := by
        rw [hmv]; simpa using hlen
      have hz1 : (history_up rs).2.histsize = rs.histsize := by rw [hmv]
      have hsp : same_past rs (history_up rs).2 := same_past_history_up rs
      have h0 : 0 < rs.history.length := by omega
      have hs1 : slot (history_up rs).2 0 = slot rs (rs.histpos + 1) := by
        rw [hmv]
        unfold slot hist
        simp only []
        rw [getD_set, if_pos ⟨rfl, h0⟩, cstr_strcpy]
      have hc1 : (history_up rs).2.curpos = (slot rs (rs.histpos + 1)).length := by
        rw [hmv]
        simp only []
        rw [hist_zero_set_hist _ _ h0, strlen_strcpy]
        unfold slot
        rw [cstr_length]
      obtain ⟨s, hs, g1, g2, g3, g4, g5, g6, g7, g8⟩ :=
        ih (history_up rs).2 hl1 (by rw [hp1, hz1]; exact hlt) (by rw [hp1, hz1]; omega)
      have hup : ∀ j, up_n (j + 1) rs = up_n j (history_up rs).2 := fun _ => rfl
      refine ⟨s + 1, by omega, ?_, ?_, ?_, ?_, ?_, ?_, ?_, ?_⟩
      · intro n hn
        obtain ⟨m, rfl⟩ : ∃ m, n = m + 1 := ⟨n - 1, by omega⟩
        have hne : (history_up rs).1 ≠ 0 := by rw [hret]; decide
        simp only [history_top_loop, hne, ne_eq, not_false_eq_true, if_true]
        rw [hup, g1 m (by omega)]
      · intro j hj
        cases j with
        | zero => exact hret
        | succ j => rw [hup]; exact g2 j (by omega)
      · rw [hup]; exact g3
      · rw [hup, g4, hp1]; omega
      · rw [hup]; exact same_past_trans hsp g5
      · intro i h1 h2
        by_cases hi : i = rs.histpos + 1
        · subst hi
          intro he
          exact hb ((cstr_eq_nil_iff _).1 he)
        · have := g6 i (by rw [hp1]; omega) (by rw [hp1]; omega)
          rw [slot_eq_of_same_past hsp i (by omega)] at this
          exact this
      · intro k h1 h2 hfull
        apply g7 k (by rw [hp1]; omega) (by rw [hz1]; exact h2)
        intro i hi1 hi2
        rw [hp1] at hi1
        rw [slot_eq_of_same_past hsp i (by omega)]
        exact hfull i (by omega) hi2
      · intro _
        rw [hup]
        by_cases hs0 : s = 0
        · subst hs0
          exact ⟨hs1, hc1⟩
        · obtain ⟨e1, e2⟩ := g8 (by omega)
          rw [hp1, slot_eq_of_same_past hsp _ (by omega)] at e1 e2
          have e : rs.histpos + 1 + s = rs.histpos + (s + 1) := by omega
          rw [e] at e1 e2
          exact ⟨e1, e2⟩

/-- C25: for a state with navPos = histpos inside the history, `history_top`
terminates: it is the result of k - histpos successful `history_up` steps,
where k is the new histpos, followed by one `history_up` that returns 0 (the
exit of the loop), and every amount of loop fuel above k - histpos gives this
same result; k - histpos <= histsize-1-histpos.  The new histpos k is the
largest index with histpos <= k <= histsize-1 such that every slot from
histpos+1 through k is non-empty.  When k > histpos, slot 0 holds the text of
slot k and the cursor is at its end. -/
theorem C25_history_top (rs : Readline) (hlen : rs.history.length = rs.histsize)
    (hpos : rs.histpos < rs.histsize) :
    rs.histpos ≤ (history_top rs).histpos ∧
    (history_top rs).histpos ≤ rs.histsize - 1 ∧
    history_top rs = up_n ((history_top rs).histpos - rs.histpos) rs ∧
    (∀ j, j < (history_top rs).histpos - rs.histpos → (history_up (up_n j rs)).1 = 1) ∧
    (history_up (history_top rs)).1 = 0 ∧
    (∀ n, (history_top rs).histpos - rs.histpos < n →
      history_top_loop n rs = history_top rs) ∧
    AllFull rs rs.histpos (history_top rs).histpos ∧
    (∀ k, (history_top rs).histpos < k → k ≤ rs.histsize - 1 →
      ¬ AllFull rs rs.histpos k) ∧
    (rs.histpos < (history_top rs).histpos →
      slot (history_top rs) 0 = slot rs (history_top rs).histpos ∧
      (history_top rs).curpos = (slot rs (history_top rs).histpos).length) := by
  obtain ⟨s, hs, g1, g2, g3, g4, _, g6, g7, g8⟩ :=
    history_top_loop_spec (rs.histsize - 1 - rs.histpos) rs hlen hpos rfl
  have ht : history_top rs = up_n s rs := by
    unfold history_top
    by_cases htop : rs.histpos + 1 = rs.histsize
    · rw [if_pos htop]
      have : s = 0 := by omega
      subst this
      rfl
    · rw [if_neg htop]
      exact g1 rs.histsize (by omega)
  have hk : (history_top rs).histpos = rs.histpos + s := by rw [ht, g4]
  have hs2 : (history_top rs).histpos - rs.histpos = s := by omega
  rw [hs2, hk]
  refine ⟨by omega, by omega, ht, g2, by rw [ht]; exact g3, ?_, g6, g7, ?_⟩
  · intro n hn
    rw [ht]
    exact g1 n hn
  · intro h
    rw [ht]
    exact g8 (by omega)

/-- Witness for C25: from the empty live line with history bbb, aaa,
`history_top` ends at slot 2 after two successful steps and shows aaa with
the cursor at 3. -/
theorem C25_history_top_witness :
    (history_top bbb_aaa).histpos = 2 ∧ history_top bbb_aaa = up_n 2 bbb_aaa ∧
    slot (history_top bbb_aaa) 0 = [97, 97, 97] ∧ (history_top bbb_aaa).curpos = 3 :=
  have h := C25_history_top bbb_aaa (by decide) (by decide)
  ⟨by decide, h.2.2.1, (h.2.2.2.2.2.2.2.2 (by decide)).1, (h.2.2.2.2.2.2.2.2 (by decide)).2⟩

/-! ## Array bounds at Accept -/

theorem push_loop_reads_le (t : Nat) : ∀ i ∈ push_loop_reads t, i ≤ t := by
  induction t with
  | zero => intro i hi; simp [push_loop_reads] at hi
  | succ t ih =>
    intro i hi
    simp only [push_loop_reads, List.cons_append, List.nil_append, List.mem_cons] at hi
    rcases hi with hi | hi | hi
    · omega
    · omega
    · have := ih i hi
      omega

theorem push_history_reads_lt (rs : Readline) (h2 : 2 ≤ rs.histsize) :
    ∀ i ∈ push_history_reads rs, i < rs.histsize := by
  intro i hi
  simp only [push_history_reads, List.mem_append, List.mem_cons, List.mem_singleton,
    List.not_mem_nil, or_false] at hi
  rcases hi with ((hi | hi) | hi) | hi | hi
  · omega
  · have := push_loop_reads_le _ i hi
    omega
  · omega
  · omega
  · omega

/-- C23 (failing input): `enter_key` evaluates `rs->history[1]` on every
call, so with `histsize = 1`, a configuration the spec accepts, Accept
indexes the history array out of bounds, while with `histsize >= 2` all its
history indices are below `histsize`.  The state is reachable: in
`MakeReadline(8, 1)` the keys a, Enter bring `readline` to `enter_key` with
one history buffer, where it accesses the indices 1, 0, 0, 0, 0, 1, 0. -/
theorem C23_accept_reads_history_1 (rs : Readline) :
    1 ∈ enter_key_reads rs ∧
    (rs.histsize = 1 → ¬ ∀ i ∈ enter_key_reads rs, i < rs.histsize) ∧
    (2 ≤ rs.histsize → ∀ i ∈ enter_key_reads rs, i < rs.histsize) ∧
    cycles 1 (readline_init (MakeReadline 8 1 0)) [97, 13]
      = some (.next a_typed_depth_1 [13]) ∧
    key_cycle a_typed_depth_1 [13]
      = some (.done (enter_key (pass_start a_typed_depth_1).rs) []) ∧
    (pass_start a_typed_depth_1).rs.histsize = 1 ∧
    enter_key_reads (pass_start a_typed_depth_1).rs = [1, 0, 0, 0, 0, 1, 0] := by
  have h1 : 1 ∈ enter_key_reads rs := by simp [enter_key_reads]
  refine ⟨h1, ?_, ?_, by decide, by decide, by decide, by decide⟩
  · intro hs hall
    have := hall 1 h1
    omega
  · intro h2 i hi
    simp only [enter_key_reads, List.mem_append, List.mem_cons, List.mem_singleton,
      List.not_mem_nil, or_false] at hi
    rcases hi with ((hi | hi) | hi) | hi
    · omega
    · omega
    · split at hi
      · exact push_history_reads_lt { rs with histpos := 0 } h2 i hi
      · simp at hi
    · omega

/-! ## The flag hnav and the reset of navPos -/

theorem hnav_of_comm (f : Readline → Readline)
    (hf : ∀ rs l h m k, f (with_flags rs l h m k) = with_flags (f rs) l h m k)
    (rs : Readline) : (f rs).hnav = rs.hnav := by
  have h := hf rs rs.literal rs.hnav rs.lcanmode rs.lcankey
  rw [with_flags_self] at h
  rw [h]; rfl

theorem line_cancel_hnav (rs : Readline) : (line_cancel rs).hnav = rs.hnav := by
  unfold line_cancel
  simp only []
  split <;> rfl

theorem history_up_hnav (rs : Readline) : (history_up rs).2.hnav = rs.hnav :=
  hnav_of_comm (fun r => (history_up r).2)
    (fun r l h m k => by simp only [history_up_flags]) rs

theorem hnav_ite {p : Prop} [Decidable p] {v : Nat} {x y : Readline}
    (hx : p → x.hnav = v) (hy : ¬ p → y.hnav = v) : (if p then x else y).hnav = v := by
  split
  · exact hx ‹_›
  · exact hy ‹_›

theorem loop_hnav_ite {p : Prop} [Decidable p] {v : Nat} {x y : Loop}
    (hx : p → x.rs.hnav = v) (hy : ¬ p → y.rs.hnav = v) :
    (if p then x else y).rs.hnav = v := by
  split
  · exact hx ‹_›
  · exact hy ‹_›

theorem cleol_hnav (m : Nat) (rs : Readline) :
    (if m = 0 then clear_eol (undo_save rs) else undo_restore rs).hnav = rs.hnav := by
  split <;> rfl

theorem single_key_hnav (c : Nat) (st : Loop) (h1 : c ≠ 0x0e) (h2 : c ≠ 0x10) :
    (single_key c st).rs.hnav = st.rs.hnav := by
  unfold single_key
  repeat' (first | with_reducible apply loop_hnav_ite | intro _)
  all_goals first
    | exact absurd ‹c = 0x0e› h1
    | exact absurd ‹c = 0x10› h2
    | with_reducible exact line_cancel_hnav _
    | with_reducible exact hnav_of_comm _ backspace_flags _
    | with_reducible exact hnav_of_comm _ delete_char_flags _
    | with_reducible exact hnav_of_comm _ cursor_sol_flags _
    | with_reducible exact hnav_of_comm _ cursor_left_flags _
    | with_reducible exact hnav_of_comm _ cursor_eol_flags _
    | with_reducible exact hnav_of_comm _ cursor_right_flags _
    | with_reducible exact cleol_hnav _ _
    | with_reducible exact
        (hnav_of_comm (fun r => append_char r c)
          (fun r l h m k => append_char_flags r c l h m k) _)
    | rfl

theorem scan_key_hnav (rs : Readline) (c : Nat) (h : c ∉ [0x48, 0x50, 0x8d, 0x91]) :
    (scan_key rs c).hnav = rs.hnav := by
  simp only [List.mem_cons, List.mem_singleton, List.not_mem_nil, or_false, not_or] at h
  obtain ⟨h1, h2, h3, h4⟩ := h
  unfold scan_key
  repeat' (first | with_reducible apply hnav_ite | intro _)
  all_goals first
    | exact absurd ‹c = 0x48› h1
    | exact absurd ‹c = 0x50› h2
    | exact absurd ‹c = 0x8d› h3
    | exact absurd ‹c = 0x91› h4
    | with_reducible exact history_up_hnav rs
    | with_reducible exact hnav_of_comm _ cursor_left_flags rs
    | with_reducible exact hnav_of_comm _ cursor_right_flags rs
    | with_reducible exact hnav_of_comm _ cursor_sol_flags rs
    | with_reducible exact hnav_of_comm _ cursor_eol_flags rs
    | with_reducible exact hnav_of_comm _ delete_char_flags rs
    | with_reducible exact
        (hnav_of_comm (fun r => word_left r 0)
          (fun r l h m k => word_left_flags r 0 l h m k) rs)
    | with_reducible exact hnav_of_comm _ word_right_flags rs
    | rfl

theorem post_hnav (st : Loop) : (post st).rs.hnav = st.rs.hnav := by
  simp only [post]
  split <;> split <;> rfl

theorem post_histpos (st : Loop) (h : st.rs.hnav = 0) : (post st).rs.histpos = 0 := by
  simp only [post, h, if_true]
  split <;> rfl

theorem post_literal (st : Loop) : (post st).rs.literal = st.rs.literal :=
  (post_fields st).2.2.2.1

theorem key_cycle_single_histpos (st : Loop) (c : Nat) (rest : List Nat)
    (hc : c ∉ [0x1b, 0x00, 0x0d, 0x0a, 0x0e, 0x10]) :
    ∃ st1, key_cycle st (c :: rest) = some (.next st1 rest) ∧ st1.rs.histpos = 0 := by
  simp only [List.mem_cons, List.mem_singleton, List.not_mem_nil, or_false, not_or] at hc
  obtain ⟨h1, h2, h3, h4, h5, h6⟩ := hc
  by_cases hlit : st.rs.literal = 0
  · rw [key_cycle_single st c rest hlit h1 h2 h3 h4]
    refine ⟨_, rfl, post_histpos _ ?_⟩
    rw [single_key_hnav c _ h5 h6]
    rfl
  · rw [key_cycle_literal st c rest hlit, if_neg h2]
    refine ⟨_, rfl, post_histpos _ ?_⟩
    exact hnav_of_comm (fun r => append_char r c)
      (fun r l h m k => append_char_flags r c l h m k) _

theorem key_cycle_scan (st : Loop) (c1 : Nat) (rest : List Nat) (hlit : st.rs.literal = 0) :
    key_cycle st (0 :: c1 :: rest)
      = some (.next (post { pass_start st with rs := scan_key (pass_start st).rs c1 }) rest) := by
  rw [key_cycle_decoded st 0 _ hlit]
  simp [dispatch]

theorem handle_esc_other (rs : Readline) (s tail : List Nat) (h : OtherAnsi s) :
    ∃ rs1, handle_esc rs (s ++ tail) = some (256, rs1, tail) ∧ rs1.hnav = rs.hnav := by
  unfold OtherAnsi at h
  split at h
  · obtain ⟨rfl, h | h | h | h⟩ := h <;> subst h
    · exact ⟨_, by simp [handle_esc, handle_esc_bracket], hnav_of_comm _ cursor_right_flags rs⟩
    · exact ⟨_, by simp [handle_esc, handle_esc_bracket], hnav_of_comm _ cursor_left_flags rs⟩
    · exact ⟨_, by simp [handle_esc, handle_esc_bracket], hnav_of_comm _ cursor_sol_flags rs⟩
    · exact ⟨_, by simp [handle_esc, handle_esc_bracket], hnav_of_comm _ cursor_eol_flags rs⟩
  · obtain ⟨rfl, h | h | h⟩ := h <;> subst h
    · exact ⟨_, by simp [handle_esc, handle_esc_bracket], rfl⟩
    · exact ⟨_, by simp [handle_esc, handle_esc_bracket], rfl⟩
    · exact ⟨_, by simp [handle_esc, handle_esc_bracket], hnav_of_comm _ delete_char_flags rs⟩
  · obtain ⟨rfl, rfl, rfl, rfl, h | h⟩ := h <;> subst h
    · exact ⟨_, by simp [handle_esc, handle_esc_bracket, handle_esc_ext],
        hnav_of_comm _ word_right_flags rs⟩
    · exact ⟨_, by simp [handle_esc, handle_esc_bracket, handle_esc_ext],
        hnav_of_comm (fun r => word_left r 0) (fun r l h m k => word_left_flags r 0 l h m k) rs⟩
  · exact absurd h id

theorem key_cycle_other_ansi (st : Loop) (s : List Nat) (b : Nat) (rest : List Nat)
    (hlit : st.rs.literal = 0) (hs : OtherAnsi s) (hb : b ∉ [0x48, 0x50, 0x8d, 0x91]) :
    ∃ st1, key_cycle st (0x1b :: (s ++ b :: rest)) = some (.next st1 rest) ∧
      st1.rs.histpos = 0 := by
  obtain ⟨rs1, he, hn⟩ := handle_esc_other (pass_start st).rs s (b :: rest) hs
  have hl := handle_esc_length _ _ _ _ _ he
  obtain ⟨f, hf⟩ : ∃ f, (s ++ b :: rest).length + 1 = f + 2 :=
    ⟨(s ++ b :: rest).length - 1, by omega⟩
  rw [key_cycle_decoded st 0x1b _ hlit, hf, dispatch_handled f _ _ _ _ _ he]
  refine ⟨_, rfl, post_histpos _ ?_⟩
  show (scan_key rs1 b).hnav = 0
  rw [scan_key_hnav rs1 b hb, hn]
  rfl

theorem single_key_literal_hnav (c : Nat) (st : Loop) (h0 : st.rs.literal = 0)
    (h : (single_key c st).rs.literal ≠ 0) : (single_key c st).rs.hnav = st.rs.hnav := by
  by_cases hc : c = 0x0e ∨ c = 0x10
  · have hp : Plain st (single_key c st) := by
      rcases hc with hc | hc <;> subst hc <;>
        exact plain_single_key _ st (by decide) (by decide) (by decide)
    exact absurd (hp.2.2.1.trans h0) h
  · exact single_key_hnav c st (fun e => hc (Or.inl e)) (fun e => hc (Or.inr e))

/-- A pass of the `switch` that leaves the literal flag set has not touched
the flag hnav. -/
theorem dispatch_literal_hnav (f : Nat) : ∀ (c : Nat) (st : Loop) (inp : List Nat)
    (st2 : Loop) (inp2 : List Nat), dispatch f c st inp = some (.next st2 inp2) →
    st.rs.literal = 0 → st2.rs.literal ≠ 0 → st2.rs.hnav = st.rs.hnav := by
  induction f with
  | zero => intro c st inp st2 inp2 h; simp [dispatch] at h
  | succ f ih =>
    intro c st inp st2 inp2 h h0 hne
    by_cases hc : c = 0x1b
    · simp only [dispatch, hc, if_true] at h
      cases he : handle_esc st.rs inp with
      | none => simp [he] at h
      | some p =>
        obtain ⟨r, rs1, inp3⟩ := p
        obtain ⟨⟨f1, _, _⟩, hr⟩ := handle_esc_flags _ _ _ _ _ he
        simp only [he] at h
        split at h
        · obtain ⟨rfl, rfl⟩ := step_next_eq h
          exact absurd (f1.trans h0) hne
        · rcases hr with hr | hr
          · subst hr
            cases f with
            | zero => simp [dispatch] at h
            | succ f =>
              simp only [dispatch] at h
              cases inp3 with
              | nil => simp at h
              | cons b inp4 =>
                simp only [Nat.reduceMod] at h
                have h' : some (Step.next { st with rs := scan_key rs1 b } inp4)
                    = some (Step.next st2 inp2) := by simpa using h
                obtain ⟨rfl, rfl⟩ := step_next_eq h'
                exact absurd (((same_flags_scan_key rs1 b).1.trans f1).trans h0) hne
          · subst hr
            exact ih _ _ _ _ _ h h0 hne
    · simp only [dispatch, hc, if_false] at h
      split at h
      · cases inp with
        | nil => simp at h
        | cons c1 inp3 =>
          obtain ⟨rfl, rfl⟩ := step_next_eq h
          exact absurd ((same_flags_scan_key st.rs c1).1.trans h0) hne
      · split at h
        · simp at h
        · obtain ⟨rfl, rfl⟩ := step_next_eq h
          exact single_key_literal_hnav c st h0 hne

/-- One pass of the loop: the invariant `LiteralAtBottom` is kept, and a pass
that ends with the flag hnav clear ends with navPos 0. -/
theorem key_cycle_histpos (st : Loop) (inp0 : List Nat) (st1 : Loop) (inp1 : List Nat)
    (h : key_cycle st inp0 = some (.next st1 inp1)) (hinv : LiteralAtBottom st.rs) :
    LiteralAtBottom st1.rs ∧ (st1.rs.hnav = 0 → st1.rs.histpos = 0) := by
  cases inp0 with
  | nil => simp [key_cycle, pass_start] at h
  | cons c inp2 =>
    by_cases hlit : st.rs.literal = 0
    · rw [key_cycle_decoded st c inp2 hlit] at h
      split at h
      · rename_i st2 inp3 hd
        obtain ⟨rfl, rfl⟩ := step_next_eq h
        refine ⟨?_, ?_⟩
        · intro hl
          rw [post_literal] at hl
          have := dispatch_literal_hnav _ _ _ _ _ _ hd hlit hl
          exact post_histpos _ (by rw [this]; rfl)
        · intro hn
          rw [post_hnav] at hn
          exact post_histpos _ hn
      · rename_i hno
        exact absurd h (hno _ _)
    · rw [key_cycle_literal st c inp2 hlit] at h
      obtain ⟨rfl, rfl⟩ := step_next_eq h
      by_cases hc : c = 0
      · rw [if_pos hc]
        exact ⟨fun hl => absurd rfl hl, fun _ => hinv hlit⟩
      · rw [if_neg hc]
        have hp : (post (Loop.mk
            (append_char { st.rs with hnav := 0, lcankey := 0, literal := 0 } c)
            0 st.cleolmode)).rs.histpos = 0 :=
          post_histpos _ (hnav_of_comm (fun r => append_char r c)
            (fun r l h m k => append_char_flags r c l h m k) _)
        exact ⟨fun _ => hp, fun _ => hp⟩

theorem key_cycle_down_at_bottom (st : Loop) (rest : List Nat) (hpos : st.rs.histpos = 0)
    (hlit : st.rs.literal = 0) :
    ∃ st2, key_cycle st (0x0e :: rest) = some (.next st2 rest) ∧
      st2.rs.history = st.rs.history ∧ st2.rs.curpos = st.rs.curpos ∧
      st2.rs.histsave = st.rs.histsave ∧ st2.rs.histpos = 0 := by
  rw [key_cycle_single st 0x0e rest hlit (by decide) (by decide) (by decide) (by decide)]
  have hs : single_key 0x0e (pass_start st)
      = { pass_start st with rs := { history_down (pass_start st).rs with hnav := 1 } } := by
    simp [single_key]
  have hd : history_down (pass_start st).rs = (pass_start st).rs := by
    unfold history_down
    rw [if_pos (by exact hpos)]
  rw [hs, hd]
  refine ⟨_, rfl, ?_, ?_, ?_, ?_⟩
  · exact (post_core _).1
  · exact (post_core _).2.1
  · simp only [post]
    split <;> split <;> rfl
  · simp only [post]
    split <;> split <;> first | rfl | exact hpos

/-- C21 (failing input, and where the claim holds): with history bbb, aaa
and navPos 0, the right-arrow sequence ESC [ C followed by the byte H leaves
navPos = 1 and shows bbb: the pass that handles the sequence also reads H,
as the scan code 0x48 of a two-byte Up key, and the flag hnav stops the reset.
Apart from that a pass that decodes no history-navigation command ends with
navPos = histpos = 0, for every state and (a) every single-byte key other
than ESC, the two-byte lead 0x00, Enter, ^N (Down) and ^P (Up), in literal
mode too; (b) every two-byte key 0x00 c1 other than Up, Down, Top, Bottom
(0x48, 0x50, 0x8d, 0x91); (c) every ANSI sequence handled with a command
other than Up, Down, Top, Bottom, together with the byte b that the same pass
reads after it, when b is not one of the four scan codes of (b); and (d) in
general every pass that ends with the flag hnav clear (no Up, Down, Top or
Bottom case ran) from a state in which the literal flag is only set while
navPos is 0, an invariant of `readline_init` and of every pass.  In a state
with navPos = 0, as left by such a key after an Up, Down (`history_down`, ^N)
leaves the line, the cursor and histsave unchanged. -/
theorem C21_histpos_reset_unless_navigating (st : Loop) (rest : List Nat) :
    (key_cycle (Loop.mk bbb_aaa 0 0) [0x1b, 0x5b, 0x43, 0x48] = some (.next bbb_shown []) ∧
      bbb_shown.rs.histpos = 1 ∧ slot bbb_shown.rs 0 = [98, 98, 98]) ∧
    (∀ c, c ∉ [0x1b, 0x00, 0x0d, 0x0a, 0x0e, 0x10] →
      ∃ st1, key_cycle st (c :: rest) = some (.next st1 rest) ∧ st1.rs.histpos = 0) ∧
    (st.rs.literal = 0 → ∀ c1, c1 ∉ [0x48, 0x50, 0x8d, 0x91] →
      ∃ st1, key_cycle st (0x00 :: c1 :: rest) = some (.next st1 rest) ∧
        st1.rs.histpos = 0) ∧
    (st.rs.literal = 0 → ∀ s b, OtherAnsi s → b ∉ [0x48, 0x50, 0x8d, 0x91] →
      ∃ st1, key_cycle st (0x1b :: (s ++ b :: rest)) = some (.next st1 rest) ∧
        st1.rs.histpos = 0) ∧
    (∀ rs0, LiteralAtBottom (readline_init rs0).rs) ∧
    (∀ inp0 st1 inp1, key_cycle st inp0 = some (.next st1 inp1) → LiteralAtBottom st.rs →
      LiteralAtBottom st1.rs ∧ (st1.rs.hnav = 0 → st1.rs.histpos = 0)) ∧
    (st.rs.histpos = 0 → st.rs.literal = 0 →
      history_down st.rs = st.rs ∧
      ∃ st2, key_cycle st (0x0e :: rest) = some (.next st2 rest) ∧
        st2.rs.history = st.rs.history ∧ st2.rs.curpos = st.rs.curpos ∧
        st2.rs.histsave = st.rs.histsave ∧ st2.rs.histpos = 0) := by
  refine ⟨by decide, fun c hc => key_cycle_single_histpos st c rest hc, ?_, ?_, ?_, ?_, ?_⟩
  · intro hlit c1 hc1
    rw [key_cycle_scan st c1 rest hlit]
    refine ⟨_, rfl, post_histpos _ ?_⟩
    show (scan_key (pass_start st).rs c1).hnav = 0
    rw [scan_key_hnav _ c1 hc1]
    rfl
  · intro hlit s b hs hb
    exact key_cycle_other_ansi st s b rest hlit hs hb
  · intro rs0 _
    simp [readline_init, set_hist]
  · intro inp0 st1 inp1 h hinv
    exact key_cycle_histpos st inp0 st1 inp1 h hinv
  · intro hpos hlit
    refine ⟨?_, key_cycle_down_at_bottom st rest hpos hlit⟩
    unfold history_down
    rw [if_pos hpos]

/-- Witness for C21: after Up shows bbb (navPos 1), typing x ends with
navPos 0 and the line bbbx; a Down then leaves bbbx and the cursor at 4
instead of restoring the empty line saved in histsave. -/
theorem C21_histpos_reset_unless_navigating_witness :
    key_cycle bbb_shown [120] = some (.next bbb_recalled_x []) ∧
    (∃ st1, key_cycle bbb_shown [120] = some (.next st1 []) ∧ st1.rs.histpos = 0) ∧
    (∃ st2, key_cycle bbb_recalled_x [0x0e] = some (.next st2 []) ∧
      st2.rs.history = bbb_recalled_x.rs.history ∧ st2.rs.curpos = 4 ∧
      st2.rs.histsave = [0, 0, 0, 0, 0] ∧ st2.rs.histpos = 0) ∧
    slot bbb_recalled_x.rs 0 = [98, 98, 98, 120] :=
  ⟨by decide,
   (C21_histpos_reset_unless_navigating bbb_shown []).2.1 120 (by decide),
   ((C21_histpos_reset_unless_navigating bbb_recalled_x []).2.2.2.2.2.2
      (by decide) (by decide)).2,
   by decide⟩

/-! ## Enter, wherever the switch decodes it -/

theorem step_done_eq {a b : Readline} {i j : List Nat}
    (h : some (Step.done a i) = some (Step.done b j)) : a = b ∧ i = j := by
  simpa using h

/-- A pass of the `switch` that ends at the `return` ran `enter_key` on the
state it started from: before the Enter it can only have read ESC bytes that
matched nothing, which leave the state alone. -/
theorem dispatch_done (f : Nat) : ∀ (c : Nat) (st : Loop) (inp : List Nat) (rs1 : Readline)
    (inp1 : List Nat), dispatch f c st inp = some (.done rs1 inp1) →
    rs1 = enter_key st.rs := by
  induction f with
  | zero => intro c st inp rs1 inp1 h; simp [dispatch] at h
  | succ f ih =>
    intro c st inp rs1 inp1 h
    by_cases hc : c = 0x1b
    · simp only [dispatch, hc, if_true] at h
      cases he : handle_esc st.rs inp with
      | none => simp [he] at h
      | some p =>
        obtain ⟨r, rs2, inp2⟩ := p
        obtain ⟨_, hr⟩ := handle_esc_flags _ _ _ _ _ he
        simp only [he] at h
        split at h
        · simp at h
        · rcases hr with hr | hr
          · subst hr
            cases f with
            | zero => simp [dispatch] at h
            | succ f =>
              simp only [dispatch] at h
              cases inp2 with
              | nil => simp at h
              | cons b inp3 => simp at h
          · subst hr
            exact ih _ _ _ _ _ h
    · simp only [dispatch, hc, if_false] at h
      split at h
      · cases inp with
        | nil => simp at h
        | cons c1 inp2 => simp at h
      · split at h
        · exact (step_done_eq h).1.symm
        · simp at h

theorem key_cycle_done (st : Loop) (inp : List Nat) (rs1 : Readline) (inp1 : List Nat)
    (h : key_cycle st inp = some (.done rs1 inp1)) :
    st.rs.literal = 0 ∧ rs1 = enter_key (pass_start st).rs := by
  cases inp with
  | nil => simp [key_cycle, pass_start] at h
  | cons c inp2 =>
    by_cases hlit : st.rs.literal = 0
    · refine ⟨hlit, ?_⟩
      rw [key_cycle_decoded st c inp2 hlit] at h
      split at h
      · simp at h
      · exact dispatch_done _ _ _ _ _ _ h
    · rw [key_cycle_literal st c inp2 hlit] at h
      simp at h

/-- Passes that end at the `return`: the last one started from a state
reached by complete passes. -/
theorem cycles_done (m : Nat) : ∀ (st : Loop) (inp : List Nat) (rs1 : Readline)
    (inp1 : List Nat), cycles m st inp = some (.done rs1 inp1) →
    ∃ (n : Nat) (st1 : Loop) (inpE : List Nat), n < m ∧
      cycles n st inp = some (.next st1 inpE) ∧
      key_cycle st1 inpE = some (.done rs1 inp1) := by
  induction m with
  | zero => intro st inp rs1 inp1 h; simp [cycles] at h
  | succ m ih =>
    intro st inp rs1 inp1 h
    cases hk : key_cycle st inp with
    | none => simp [cycles, hk] at h
    | some r =>
      cases r with
      | next st2 inp2 =>
        rw [cycles_succ_next _ _ _ _ _ hk] at h
        obtain ⟨n, st1, inpE, hn, h1, h2⟩ := ih _ _ _ _ h
        refine ⟨n + 1, st1, inpE, by omega, ?_, h2⟩
        rw [cycles_succ_next _ _ _ _ _ hk]
        exact h1
      | done rs2 inp2 =>
        simp only [cycles, hk] at h
        obtain ⟨rfl, rfl⟩ := step_done_eq h
        exact ⟨0, st, inp, by omega, rfl, hk⟩

/-- Whenever `readline` returns, it does so in a pass that decoded an Enter:
the string returned is the text the live line held at the top of that pass,
slot 0 still holds it and navPos is 0. -/
theorem readline_returns (rs0 : Readline) (inp t : List Nat) (rs1 : Readline)
    (rest : List Nat) (hlen : rs0.history.length = rs0.histsize) (h2 : 2 ≤ rs0.histsize)
    (h : readline rs0 inp = some (t, rs1, rest)) :
    ∃ (n : Nat) (st : Loop) (inpE : List Nat), n ≤ inp.length ∧
      cycles n (readline_init rs0) inp = some (.next st inpE) ∧
      key_cycle st inpE = some (.done rs1 rest) ∧
      st.rs.literal = 0 ∧ rs1 = enter_key (pass_start st).rs ∧
      t = slot st.rs 0 ∧ slot rs1 0 = t ∧ rs1.histpos = 0 := by
  unfold readline at h
  split at h
  · rename_i rs2 rest2 hc
    simp only [Option.some.injEq, Prod.mk.injEq] at h
    obtain ⟨ht, hr, hrest⟩ := h
    subst hr hrest
    obtain ⟨n, st, inpE, hn, h1, hk⟩ := cycles_done _ _ _ _ _ hc
    obtain ⟨hlit, he⟩ := key_cycle_done _ _ _ _ hk
    obtain ⟨hs, _⟩ := cycles_next _ _ _ _ _ h1
    have hs0 : same_shape rs0 (readline_init rs0).rs := by
      simp [same_shape, readline_init, set_hist]
    obtain ⟨hl1, hz1, _⟩ := same_shape_trans hs0 hs
    have hlen1 : (pass_start st).rs.history.length = (pass_start st).rs.histsize := by
      show st.rs.history.length = st.rs.histsize
      omega
    have h21 : 2 ≤ (pass_start st).rs.histsize := by
      show 2 ≤ st.rs.histsize
      omega
    obtain ⟨e1, e2⟩ := enter_key_text _ hlen1 h21
    have e3 : slot (pass_start st).rs 0 = slot st.rs 0 := rfl
    refine ⟨n, st, inpE, by omega, h1, hk, hlit, he, ?_, ?_, ?_⟩
    · rw [← ht, he, e1, e3]
    · rw [← ht]
    · rw [he]; exact e2
  · simp at h

/-! ## The claims that meet the byte read after a handled sequence -/

/-- C10 (failing input, and what holds): in a fresh editor the bytes a,
ESC [ C (right arrow), Enter end in an Enter that belongs to no sequence,
yet `readline` does not return: the pass that handles ESC [ C also reads the
Enter, as the scan code of a two-byte key, and the loop goes on with the line
a and the cursor at 1.  With ^F for the right arrow, and with an ESC that
matches nothing before the Enter, it returns a.  Whenever `readline` returns
(any input, `histsize >= 2`), it does so in a pass that decoded an Enter with
the literal flag clear: the string returned is the text the live line held at
the top of that pass, slot 0 still holds that text, pushed or not, and navPos
is 0.  An Enter that starts a pass with the literal flag clear always makes
it return. -/
theorem C10_enter_after_ansi_sequence :
    (readline (MakeReadline 8 3 0) [97, 0x1b, 0x5b, 0x43, 0x0d] = none ∧
      observe (cycles 2 (readline_init (MakeReadline 8 3 0)) [97, 0x1b, 0x5b, 0x43, 0x0d])
        = some ([97], 1, []) ∧
      (readline (MakeReadline 8 3 0) [97, 0x06, 0x0d]).map Prod.fst = some [97] ∧
      (readline (MakeReadline 8 3 0) [97, 0x1b, 0x0d]).map Prod.fst = some [97]) ∧
    (∀ (rs0 : Readline) (inp t : List Nat) (rs1 : Readline) (rest : List Nat),
      rs0.history.length = rs0.histsize → 2 ≤ rs0.histsize →
      readline rs0 inp = some (t, rs1, rest) →
      ∃ (n : Nat) (st : Loop) (inpE : List Nat), n ≤ inp.length ∧
        cycles n (readline_init rs0) inp = some (.next st inpE) ∧
        key_cycle st inpE = some (.done rs1 rest) ∧
        st.rs.literal = 0 ∧ rs1 = enter_key (pass_start st).rs ∧
        t = slot st.rs 0 ∧ slot rs1 0 = t ∧ rs1.histpos = 0) ∧
    (∀ (rs0 : Readline) (inp : List Nat) (n : Nat) (st : Loop) (e : Nat) (rest : List Nat),
      rs0.history.length = rs0.histsize → 2 ≤ rs0.histsize →
      cycles n (readline_init rs0) inp = some (.next st (e :: rest)) →
      st.rs.literal = 0 → e = 0x0d ∨ e = 0x0a →
      ∃ rs1 : Readline, readline rs0 inp = some (slot st.rs 0, rs1, rest) ∧
        rs1.histpos = 0 ∧ slot rs1 0 = slot st.rs 0) :=
  ⟨by decide,
   fun rs0 inp t rs1 rest hlen h2 h => readline_returns rs0 inp t rs1 rest hlen h2 h,
   fun rs0 inp n st e rest hlen h2 hrun hlit he =>
     readline_returns_at_enter rs0 inp n st e rest hlen h2 hrun hlit he⟩

theorem key_cycle_ansi_up (st : Loop) (b : Nat) (rest : List Nat)
    (hlit : st.rs.literal = 0) :
    key_cycle st [0x1b, 0x5b, 0x41] = none ∧
    key_cycle st (0x1b :: 0x5b :: 0x41 :: b :: rest)
      = some (.next (post { pass_start st with
          rs := scan_key { (history_up (pass_start st).rs).2 with hnav := 1 } b }) rest) := by
  constructor
  · rw [key_cycle_decoded st 0x1b _ hlit]
    simp [dispatch, handle_esc, handle_esc_bracket]
  · have he := (handle_esc_up_and_word_right (pass_start st).rs (b :: rest)).1
    obtain ⟨f, hf⟩ : ∃ f, (0x5b :: 0x41 :: b :: rest).length + 1 = f + 2 :=
      ⟨rest.length + 2, by simp⟩
    rw [key_cycle_decoded st 0x1b _ hlit, hf, dispatch_handled f _ _ _ _ _ he]

theorem key_cycle_ansi_word_right (st : Loop) (b : Nat) (rest : List Nat)
    (hlit : st.rs.literal = 0) :
    key_cycle st [0x1b, 0x5b, 0x31, 0x3b, 0x35, 0x43] = none ∧
    key_cycle st (0x1b :: 0x5b :: 0x31 :: 0x3b :: 0x35 :: 0x43 :: b :: rest)
      = some (.next (post { pass_start st with
          rs := scan_key (word_right (pass_start st).rs) b }) rest) := by
  constructor
  · rw [key_cycle_decoded st 0x1b _ hlit]
    simp [dispatch, handle_esc, handle_esc_bracket, handle_esc_ext]
  · have he := (handle_esc_up_and_word_right (pass_start st).rs (b :: rest)).2
    obtain ⟨f, hf⟩ : ∃ f, (0x5b :: 0x31 :: 0x3b :: 0x35 :: 0x43 :: b :: rest).length + 1 = f + 2 :=
      ⟨rest.length + 5, by simp⟩
    rw [key_cycle_decoded st 0x1b _ hlit, hf, dispatch_handled f _ _ _ _ _ he]

/-- C7 (failing input, and what holds): with history bbb, aaa and an empty
live line, decoding ESC [ A in `readline` does not apply exactly
`history_up`, which would show bbb with the cursor at 3 and navPos 1.  The
pass blocks until a further byte arrives and applies that byte as the scan
code of a two-byte key: followed by P (0x50, Down) it ends with the empty
line, the cursor at 0 and navPos 0.  Likewise ESC [ 1 ; 5 C followed by G
(0x47, Home) on "ab cd" ends with the cursor at 0, not at 3 as `word_right`
does.  What holds: `handle_esc` itself applies exactly `history_up` (with
the flag hnav set) and exactly `word_right`, reports 256 and leaves the
following bytes unread; the pass of the loop then applies `scan_key` with the
next byte `b` to that state. -/
theorem C7_ansi_up_in_the_read_loop (st : Loop) (b : Nat) (rest : List Nat) :
    (key_cycle (Loop.mk bbb_aaa 0 0) [0x1b, 0x5b, 0x41] = none ∧
      (∃ st1, key_cycle (Loop.mk bbb_aaa 0 0) [0x1b, 0x5b, 0x41, 0x50]
          = some (.next st1 []) ∧
        slot st1.rs 0 = [] ∧ st1.rs.curpos = 0 ∧ st1.rs.histpos = 0) ∧
      slot (history_up bbb_aaa).2 0 = [98, 98, 98] ∧ (history_up bbb_aaa).2.curpos = 3 ∧
      (history_up bbb_aaa).2.histpos = 1 ∧
      observe (key_cycle (Loop.mk (ab_cd 0) 0 0) [0x1b, 0x5b, 0x31, 0x3b, 0x35, 0x43, 0x47])
        = some ([97, 98, 32, 99, 100], 0, []) ∧
      (word_right (ab_cd 0)).curpos = 3) ∧
    (handle_esc st.rs (0x5b :: 0x41 :: rest)
        = some (256, { (history_up st.rs).2 with hnav := 1 }, rest) ∧
      handle_esc st.rs (0x5b :: 0x31 :: 0x3b :: 0x35 :: 0x43 :: rest)
        = some (256, word_right st.rs, rest)) ∧
    (st.rs.literal = 0 →
      key_cycle st [0x1b, 0x5b, 0x41] = none ∧
      key_cycle st (0x1b :: 0x5b :: 0x41 :: b :: rest)
        = some (.next (post { pass_start st with
            rs := scan_key { (history_up (pass_start st).rs).2 with hnav := 1 } b }) rest) ∧
      key_cycle st [0x1b, 0x5b, 0x31, 0x3b, 0x35, 0x43] = none ∧
      key_cycle st (0x1b :: 0x5b :: 0x31 :: 0x3b :: 0x35 :: 0x43 :: b :: rest)
        = some (.next (post { pass_start st with
            rs := scan_key (word_right (pass_start st).rs) b }) rest)) := by
  refine ⟨⟨by decide, ⟨_, rfl, rfl, rfl, rfl⟩, by decide, by decide, by decide, by decide,
    by decide⟩, handle_esc_up_and_word_right st.rs rest, ?_⟩
  intro hlit
  obtain ⟨a1, a2⟩ := key_cycle_ansi_up st b rest hlit
  obtain ⟨a3, a4⟩ := key_cycle_ansi_word_right st b rest hlit
  exact ⟨a1, a2, a3, a4⟩

/-- C6 (failing input, and what holds): a fresh editor reads a b c d ^B ^B
and stands on c.  Then ^K, the left arrow ESC [ D, ^K does not clear twice:
the first ^K cuts the line to ab, and the pass that handles ESC [ D moves the
cursor to 1 and also reads the second ^K, as the scan code of a two-byte key
that matches nothing.  The second ^K neither restores nor clears: the line
stays ab, and the loop waits for the next key.  With ^B for the left arrow
the same keys clear twice and leave a.  What holds, pass by pass, for every
key sequence of a session: the flag cleolkey (lcankey) left by the last pass
is 1 exactly when that pass read ^K (^U) as its first byte with the literal
flag clear; a ^K (^U) that starts the next pass restores the saved line if
and only if that was so and the key acted in save mode, else it saves and
clears afresh; no pass sets both flags, so neither key restores what the
other one saved. -/
theorem C6_clear_key_after_ansi_arrow :
    (cycles 6 (readline_init (MakeReadline 6 2 0))
        [97, 98, 99, 100, 2, 2, 0x0b, 0x1b, 0x5b, 0x44, 0x0b]
        = some (.next abcd_at_2 [0x0b, 0x1b, 0x5b, 0x44, 0x0b]) ∧
      observe (cycles 1 abcd_at_2 [0x0b, 0x1b, 0x5b, 0x44, 0x0b])
        = some ([97, 98], 2, [0x1b, 0x5b, 0x44, 0x0b]) ∧
      observe (cycles 2 abcd_at_2 [0x0b, 0x1b, 0x5b, 0x44, 0x0b]) = some ([97, 98], 1, []) ∧
      cycles 3 abcd_at_2 [0x0b, 0x1b, 0x5b, 0x44, 0x0b] = none ∧
      observe (cycles 3 abcd_at_2 [0x0b, 0x02, 0x0b]) = some ([97], 1, [])) ∧
    (∀ (rs0 : Readline) (inp : List Nat) (n : Nat) (st0 : Loop) (inp0 : List Nat)
      (st1 : Loop) (inp1 rest : List Nat),
      cycles n (readline_init rs0) inp = some (.next st0 inp0) →
      key_cycle st0 inp0 = some (.next st1 inp1) →
      st1.rs.literal = 0 →
      (st1.cleolkey = 1 ↔
        st0.rs.literal = 0 ∧ key_cycle st0 (0x0b :: inp1) = some (.next st1 inp1)) ∧
      (st1.rs.lcankey = 1 ↔
        st0.rs.literal = 0 ∧ key_cycle st0 (0x15 :: inp1) = some (.next st1 inp1)) ∧
      ¬ (st1.cleolkey = 1 ∧ st1.rs.lcankey = 1) ∧
      (∃ st2 : Loop, key_cycle st1 (0x0b :: rest) = some (.next st2 rest) ∧
        (st1.cleolkey = 1 ∧ st0.cleolmode = 0 →
          st2.rs.history = (undo_restore st1.rs).history ∧
          st2.rs.curpos = (undo_restore st1.rs).curpos) ∧
        (¬ (st1.cleolkey = 1 ∧ st0.cleolmode = 0) →
          st2.rs.undoline = (undo_save st1.rs).undoline ∧
          st2.rs.undocurpos = st1.rs.curpos ∧
          st2.rs.history = (clear_eol (undo_save st1.rs)).history ∧
          st2.rs.curpos = (clear_eol (undo_save st1.rs)).curpos)) ∧
      (∃ st2 : Loop, key_cycle st1 (0x15 :: rest) = some (.next st2 rest) ∧
        (st1.rs.lcankey = 1 ∧ st0.rs.lcanmode = 0 →
          st2.rs.history = (undo_restore st1.rs).history ∧
          st2.rs.curpos = (undo_restore st1.rs).curpos) ∧
        (¬ (st1.rs.lcankey = 1 ∧ st0.rs.lcanmode = 0) →
          st2.rs.undoline = (undo_save st1.rs).undoline ∧
          st2.rs.undocurpos = st1.rs.curpos ∧
          st2.rs.history = st1.rs.history.set 0 (wr (hist st1.rs 0) 0 0) ∧
          st2.rs.curpos = 0))) :=
  ⟨by decide,
   fun rs0 inp n st0 inp0 st1 inp1 rest hreach hprev hlit =>
     clear_key_restores_iff_repeated rs0 inp n st0 inp0 st1 inp1 rest hreach hprev hlit⟩

end ErcoReadline
